import Mathlib

/-!
The program kmercomp: a verification development.

Shallow embedding of `src/kmercomp.cpp` (the k-mer spectrum comparison tool built on
edlib): the trace interpreter `printSpectrum`, the best-N narrowing loop of `main`,
and the FASTA loader `readFastaSequences` with its on-the-fly alphabet.

Conventions of the embedding.
* Bytes (`char`, `unsigned char`) are natural numbers; `'\n'` is 10, `'\r'` is 13,
  `'>'` is 62 and `'-'` is 45.
* `int` values are integers; `size_t` arithmetic is taken modulo `2 ^ 64`.
* A read or write outside an array is undefined behaviour in C++; the embedding
  returns `none` for it.
* The alignment engine (`edlibCalcEditDistance`) is external: the scores it returns
  are an arbitrary list of integers.
-/

namespace Kmercomp

/-! ## Trace interpreter (`printSpectrum`) -/

/-- Modelled from the spec: the alignment mode constants `EDLIB_MODE_NW`,
`EDLIB_MODE_SHW` and `EDLIB_MODE_HW` of `edlib.h`, a header that is not part of the
sources at hand. The code only ever compares a mode code with `EDLIB_MODE_HW`. -/
inductive EdlibMode where
  | NW
  | SHW
  | HW
  deriving DecidableEq

/-- The byte printed for a gap column by `printSpectrum` (the character `'-'`). -/
def gapChar : Nat := 45

/-- Size of the arrays `letterIdx`, `idxToLetter` and `inAlphabet` declared in `main`. -/
def alphabetCapacity : Nat := 128

/-- Read `a[i]` for an `int` index `i`; `none` when the index is outside the array. -/
def readAt (a : List Nat) (i : Int) : Option Nat :=
  if 0 ≤ i then a[i.toNat]? else none

/-- Read `idxToLetter[x]` in the 128-entry array `idxToLetter`. -/
def letterAt (idxToLetter : Nat → Nat) (x : Nat) : Option Nat :=
  if x < alphabetCapacity then some (idxToLetter x) else none

/-- The expression `idxToLetter[a[++idx]]`, given the value of `idx` before the
increment. -/
def nextLetter (idxToLetter : Nat → Nat) (a : List Nat) (idx : Int) : Option Nat :=
  (readAt a (idx + 1)).bind (letterAt idxToLetter)

/-- The initial value of `tIdx` (lines 434-442): `-1`, or in mode HW `position`
decremented once for every trace symbol different from 1. -/
def seedTIdx (modeCode : EdlibMode) (position : Int) (alignment : List Nat) : Int :=
  if modeCode = EdlibMode.HW then
    alignment.foldl (fun tIdx a => if a ≠ 1 then tIdx - 1 else tIdx) position
  else -1

/-- The rendering loop of `printSpectrum` (lines 446-456) from column `j` on, given
the current cursors: the characters appended to `ss_ref` and to `ss_query`. -/
def renderLoop (idxToLetter : Nat → Nat) (query target : List Nat) :
    List Nat → Int → Int → Option (List Nat × List Nat)
  | [], _, _ => some ([], [])
  | a :: rest, tIdx, qIdx =>
    (if a = 1 then some (gapChar, tIdx)
      else (nextLetter idxToLetter target tIdx).map (fun c => (c, tIdx + 1))).bind
    fun tc =>
    (if a = 2 then some (gapChar, qIdx)
      else (nextLetter idxToLetter query qIdx).map (fun c => (c, qIdx + 1))).bind
    fun qc =>
    (renderLoop idxToLetter query target rest tc.2 qc.2).map
      fun rq => (tc.1 :: rq.1, qc.1 :: rq.2)

/-- The strings `ref_str` and `query_str` of `printSpectrum` (lines 434-459). -/
def renderedStrings (query target alignment : List Nat) (position : Int)
    (modeCode : EdlibMode) (idxToLetter : Nat → Nat) : Option (List Nat × List Nat) :=
  renderLoop idxToLetter query target alignment (seedTIdx modeCode position alignment) (-1)

/-- Conversion of an `int` to `size_t`. -/
def toSizeT (x : Int) : Nat := (x % (2 : Int) ^ 64).toNat

/-- The method `std::string::substr(pos, n)`: throws `std::out_of_range` (here
`none`) when `pos` exceeds the length of the string. -/
def substr (s : List Nat) (pos n : Nat) : Option (List Nat) :=
  if s.length < pos then none else some ((s.drop pos).take n)

/-- What `fprintf` prints for `%s` given `s.c_str()`: the bytes before the first NUL. -/
def cstr (s : List Nat) : List Nat := s.takeWhile (fun c => c != 0)

/-- One line written by `printSpectrum`: the column index and the two windows. -/
structure SpectrumRow where
  pos : Nat
  targetWindow : List Nat
  queryWindow : List Nat
  deriving DecidableEq

/-- The outcome of the output loop: the rows written, and whether the loop ended
by an uncaught `std::out_of_range` exception. -/
structure SpectrumOutput where
  rows : List SpectrumRow
  threw : Bool
  deriving DecidableEq

/-- The loop bound `ref_str.size() - kmer_size + 1` of line 461, computed in `size_t`. -/
def spectrumLimit (size : Nat) (kmer_size : Int) : Nat :=
  (size + (2 ^ 64 - toSizeT kmer_size) + 1) % 2 ^ 64

/-- The output loop of `printSpectrum` (lines 461-463) from column `j` on. The loop
leaves at `j = ref_str.size() + 1` at the latest, where `substr` throws, so
`ref_str.size() + 2` units of `fuel` always suffice (`spectrumLoop_fuel`). -/
def spectrumLoop (ref_str query_str : List Nat) (kmer_size : Int) :
    Nat → Nat → SpectrumOutput
  | 0, _ => ⟨[], false⟩
  | fuel + 1, j =>
    if j < spectrumLimit ref_str.length kmer_size then
      match substr ref_str j (toSizeT kmer_size), substr query_str j (toSizeT kmer_size) with
      | some tw, some qw =>
        let out := spectrumLoop ref_str query_str kmer_size fuel (j + 1)
        ⟨⟨j, cstr tw, cstr qw⟩ :: out.rows, out.threw⟩
      | _, _ => ⟨[], true⟩
    else ⟨[], false⟩

/-- The function `printSpectrum`: `none` when a read is out of range, otherwise the
rows written to `fp_out` and whether `substr` threw. -/
def printSpectrum (query target alignment : List Nat) (position : Int)
    (modeCode : EdlibMode) (idxToLetter : Nat → Nat) (kmer_size : Int) :
    Option SpectrumOutput :=
  (renderedStrings query target alignment position modeCode idxToLetter).map
    fun rq => spectrumLoop rq.1 rq.2 kmer_size (rq.1.length + 2) 0

/-- Number of trace symbols different from `sym`. -/
def countNot (sym : Nat) (alignment : List Nat) : Nat :=
  (alignment.filter (fun a => a != sym)).length

/-- The string `s` with the columns whose trace symbol is `sym` removed. -/
def dropGapColumns (sym : Nat) (alignment s : List Nat) : List Nat :=
  ((alignment.zip s).filter (fun p => p.1 != sym)).map (fun p => p.2)

/-- The row of an alignment as the specification describes it: a trace symbol
equal to `sym` emits a gap and consumes nothing, any other symbol emits the letter
of the next symbol of `seq` and consumes it; `c` symbols are already consumed. -/
def alignedRow (sym : Nat) (idxToLetter : Nat → Nat) (seq : List Nat) :
    List Nat → Nat → List Nat
  | [], _ => []
  | a :: rest, c =>
    if a = sym then gapChar :: alignedRow sym idxToLetter seq rest c
    else idxToLetter (seq.getD c 0) :: alignedRow sym idxToLetter seq rest (c + 1)

/-! ## Batch controller (the main loop of `main`) -/

/-- The container `std::priority_queue<int>` (a max-heap), represented by its
contents listed from the largest to the smallest. `push` inserts in order. -/
def pqPush (q : List Int) (x : Int) : List Int :=
  q.orderedInsert (fun a b => a ≥ b) x

/-- The method `pop` of the priority queue: removes the largest element. -/
def pqPop (q : List Int) : List Int := q.tail

/-- The method `top` of the priority queue: the largest element (`none` on an empty
queue, where the call is undefined behaviour). -/
def pqTop (q : List Int) : Option Int := q.head?

/-- The variables the main loop carries from one query to the next: the queue
`bestScores` and the distance bound `k`. -/
structure BatchState where
  bestScores : List Int
  k : Int
  deriving DecidableEq

/-- The bound the narrowing loop derives from a full queue whose maximum is `top`
(lines 223-225): `top - 1`, replaced by `kArg` when `kArg` is given and smaller. -/
def narrowedBound (kArg top : Int) : Int :=
  if kArg ≥ 0 ∧ kArg < top - 1 then kArg else top - 1

/-- Lines 216-228 of `main`: the update of `bestScores` and `k` after the engine
returned `score` for the current query. The comparisons of `bestScores.size()` with
`numBestSeqs` are made in `size_t`; they are reached with `numBestSeqs > 0` only,
where they agree with the comparison of the integers. -/
def narrowStep (numBestSeqs kArg : Int) (st : BatchState) (score : Int) : BatchState :=
  if numBestSeqs > 0 then
    if score ≥ 0 then
      let q1 := pqPush st.bestScores score
      let q2 := if (q1.length : Int) > numBestSeqs then pqPop q1 else q1
      if (q2.length : Int) = numBestSeqs then
        match pqTop q2 with
        | some top => ⟨q2, narrowedBound kArg top⟩
        | none => ⟨q2, st.k⟩
      else ⟨q2, st.k⟩
    else st
  else st

/-- The state of the main loop (lines 189-228) after the queries whose scores are
listed in `scores`, starting from the empty queue and `k = kArg`. -/
def runBatch (numBestSeqs kArg : Int) (scores : List Int) : BatchState :=
  scores.foldl (narrowStep numBestSeqs kArg) ⟨[], kArg⟩

/-- The bound `k` passed to `edlibCalcEditDistance` for query number `i`: the value
of `k` after the first `i` queries. -/
def boundAt (numBestSeqs kArg : Int) (scores : List Int) (i : Nat) : Int :=
  (runBatch numBestSeqs kArg (scores.take i)).k

/-- The summary printed at the end of a batch (lines 272-303): the number shown in
the header line `<n> best scores:` (`none` for the header `Scores:`) and, per
printed line, the query number and its score. -/
structure Summary where
  header : Option Nat
  lines : List (Nat × Int)
  deriving DecidableEq

/-- Lines 273-303 of `main`, given the array `scores` and the final queue. -/
def printSummary (scores : List Int) (bestScores : List Int) : Summary :=
  let scoreLimit : Int :=
    if bestScores.length > 0 then (pqTop bestScores).getD (-1) else -1
  ⟨if bestScores.length > 0 then some bestScores.length else none,
   scores.enum.filter (fun p => decide (p.2 > -1 ∧ (scoreLimit = -1 ∨ p.2 ≤ scoreLimit)))⟩

/-- The summary of a whole batch run in summary mode (not silent, no alignment path). -/
def batchSummary (numBestSeqs kArg : Int) (scores : List Int) : Summary :=
  printSummary scores (runBatch numBestSeqs kArg scores).bestScores

/-- The valid scores among `scores`: those that are not negative. -/
def validScores (scores : List Int) : List Int :=
  scores.filter (fun s => decide (0 ≤ s))

/-- The `n` smallest elements of `l` (all of `l` when it has fewer than `n`
elements), listed in increasing order. -/
def smallest (n : Nat) (l : List Int) : List Int :=
  (l.insertionSort (fun a b => a ≤ b)).take n

/-! ## FASTA loader (`readFastaSequences`) -/

/-- The alphabet built on the fly (lines 133-139 of `main`): the arrays `letterIdx`,
`idxToLetter` and `inAlphabet`, each of 128 entries, and `alphabetLength`. An
array is a function of the index; the accesses are checked against the array size
where they are made. -/
structure Alphabet where
  letterIdx : Nat → Nat
  idxToLetter : Nat → Nat
  inAlphabet : Nat → Bool
  alphabetLength : Nat

/-- The alphabet at the start of `main`: `inAlphabet` is cleared, `alphabetLength`
is 0, and the two other arrays are not initialised (arbitrary contents). -/
def emptyAlphabet (letterIdx idxToLetter : Nat → Nat) : Alphabet :=
  ⟨letterIdx, idxToLetter, fun _ => false, 0⟩

/-- The local state of `readFastaSequences` while it walks the bytes of the file. -/
structure LoaderState where
  seqs : List (List Nat)
  alphabet : Alphabet
  inHeader : Bool
  inSequence : Bool

/-- The statement `seqs->back().push_back(x)`; `back()` of an empty vector is
undefined behaviour. -/
def pushBackLast (seqs : List (List Nat)) (x : Nat) : Option (List (List Nat)) :=
  match seqs.getLast? with
  | some last => some (seqs.dropLast ++ [last ++ [x]])
  | none => none

/-- Lines 371-376: the byte `c` is entered into the alphabet unless it is there.
The reads and writes fall outside the arrays when `c ≥ 128` (a negative `char`)
or when `alphabetLength` has reached 128. The value stored in the
`unsigned char` array `letterIdx` is `alphabetLength` modulo 256. -/
def addLetter (a : Alphabet) (c : Nat) : Option Alphabet :=
  if c < alphabetCapacity then
    if a.inAlphabet c then some a
    else if a.alphabetLength < alphabetCapacity then
      some ⟨Function.update a.letterIdx c (a.alphabetLength % 256),
            Function.update a.idxToLetter a.alphabetLength c,
            Function.update a.inAlphabet c true,
            a.alphabetLength + 1⟩
    else none
  else none

/-- The body of the inner loop of `readFastaSequences` (lines 354-379) for the
byte `c`. -/
def processByte (st : LoaderState) (c : Nat) : Option LoaderState :=
  if st.inHeader then
    some (if c = 10 then { st with inHeader := false } else st)
  else if c = 62 then
    some { st with inHeader := true, inSequence := false }
  else if c = 13 ∨ c = 10 then some st
  else
    (addLetter st.alphabet c).bind fun a =>
      (pushBackLast (if st.inSequence then st.seqs else st.seqs ++ [[]]) (a.letterIdx c)).map
        fun seqs => ⟨seqs, a, false, true⟩

/-- The size of the read buffer (line 349). -/
def buffSize : Nat := 4096

/-- The loop `while (!feof(file))` of lines 351-381 on the bytes not yet read: each
round reads up to `buffSize` bytes and walks them; a short read sets the end-of-file
flag. One unit of fuel per round; `none` when the fuel is used up, which
`bytes.length + 1` units never are (`readLoop_eq_foldlM`). -/
def readLoop : Nat → LoaderState → List Nat → Option LoaderState
  | 0, _, _ => none
  | fuel + 1, st, rest =>
    ((rest.take buffSize).foldlM processByte st).bind fun st1 =>
      if (rest.take buffSize).length < buffSize then some st1
      else readLoop fuel st1 (rest.drop buffSize)

/-- What a call of `readFastaSequences` leaves behind: the return value, the
vector `seqs` and the alphabet. -/
structure ReadResult where
  status : Nat
  seqs : List (List Nat)
  alphabet : Alphabet

/-- The function `readFastaSequences` (lines 339-385). The file is given by its
bytes, `none` when it cannot be opened. The outer `none` is undefined behaviour. -/
def readFastaSequences (file : Option (List Nat)) (a : Alphabet) : Option ReadResult :=
  match file with
  | none => some ⟨1, [], a⟩
  | some bytes =>
    (readLoop (bytes.length + 1) ⟨[], a, false, false⟩ bytes).map
      fun st => ⟨0, st.seqs, st.alphabet⟩

/-- Successive calls of `readFastaSequences` on the files `files`, in this order,
sharing one alphabet (as lines 146 and 164 of `main` do for two files): the
alphabet after the last call. -/
def readFiles (a : Alphabet) : List (List Nat) → Option Alphabet
  | [] => some a
  | f :: fs => (readFastaSequences (some f) a).bind fun r => readFiles r.alphabet fs

/-- A produced sequence mapped back to letters through `idxToLetter`. -/
def decode (a : Alphabet) (seq : List Nat) : List Nat := seq.map a.idxToLetter

/-! ### The file format, as the specification describes it -/

/-- A byte of a data line is a sequence symbol unless it is a line break or a
carriage return. -/
def isSymbol (c : Nat) : Bool := c != 10 && c != 13

/-- The sequence symbols among the data bytes `data`. -/
def symbolsOf (data : List Nat) : List Nat := data.filter isSymbol

/-- A record of a file: the bytes of its marker line after the marker `>` and
before the line break, and the bytes of its data lines, line breaks included. -/
structure FastaRecord where
  header : List Nat
  data : List Nat

/-- The bytes of a record: the marker, the header, a line break, the data lines. -/
def FastaRecord.bytes (r : FastaRecord) : List Nat :=
  62 :: (r.header ++ 10 :: r.data)

/-- A record is well formed when its header holds no line break and its data no
marker. -/
def FastaRecord.WellFormed (r : FastaRecord) : Prop :=
  10 ∉ r.header ∧ 62 ∉ r.data

/-- The bytes of a last marker line that the end of the file cuts short, if any:
the marker and the bytes after it. -/
def cutBytes : Option (List Nat) → List Nat
  | some h => 62 :: h
  | none => []

/-- The bytes of a file made of data bytes before the first marker, a list of
records, and possibly a last marker line that the end of the file cuts short. -/
def fastaFile (pre : List Nat) (recs : List FastaRecord) (cut : Option (List Nat)) : List Nat :=
  pre ++ (recs.map FastaRecord.bytes).flatten ++ cutBytes cut

/-- The number of marker lines of a file: the lines that begin with `>`. The flag
tells whether the next byte starts a line. -/
def countMarkerLines : Bool → List Nat → Nat
  | _, [] => 0
  | lineStart, c :: cs =>
    (if lineStart ∧ c = 62 then 1 else 0) + countMarkerLines (c == 10) cs

/-- The distinct elements of a list in the order of their first appearance. -/
def firstAppearances : List Nat → List Nat
  | [] => []
  | c :: cs => c :: (firstAppearances cs).filter (fun x => x != c)

/-- The sequence symbols of a file in the order in which the loader meets them: the
bytes outside marker lines other than line breaks and carriage returns. The flag
tells whether the walk is inside a marker line. -/
def symbolStream : Bool → List Nat → List Nat
  | _, [] => []
  | true, c :: cs => symbolStream (c != 10) cs
  | false, c :: cs =>
    if c = 62 then symbolStream true cs
    else if isSymbol c then c :: symbolStream false cs
    else symbolStream false cs

/-- The bytes `d` are empty or end with a line break: the byte after them starts
a line if the byte before them did. -/
def endsLine (d : List Nat) : Prop := ∀ c, d.getLast? = some c → c = 10

/-- Whether the byte after the bytes `d` starts a line, given whether the first
byte of `d` does. -/
def lineStartAfter (lineStart : Bool) (d : List Nat) : Bool :=
  match d.getLast? with
  | some c => c == 10
  | none => lineStart

/-! ### Notions used to state the properties of the loader -/

/-- The letters of an alphabet in the order of their indices:
`idxToLetter[0], ..., idxToLetter[alphabetLength - 1]`. -/
def Alphabet.letters (a : Alphabet) : List Nat :=
  (List.range a.alphabetLength).map a.idxToLetter

/-- An alphabet is well formed when its three arrays describe one bijection between
the symbols in the alphabet and the indices below `alphabetLength`: the letters are
distinct bytes below 128, `inAlphabet` holds exactly for them, and `letterIdx`
gives each of them its index. -/
def Alphabet.WellFormed (a : Alphabet) : Prop :=
  a.letters.Nodup ∧ (∀ c ∈ a.letters, c < 128) ∧
    (∀ c, a.inAlphabet c = true ↔ c ∈ a.letters) ∧
    (∀ k, k < a.alphabetLength → a.letterIdx (a.idxToLetter k) = k)

/-- The alphabet `b` extends the alphabet `a`: what `a` assigned is kept. -/
def Alphabet.Extends (a b : Alphabet) : Prop :=
  a.alphabetLength ≤ b.alphabetLength ∧
    (∀ i, i < a.alphabetLength → b.idxToLetter i = a.idxToLetter i) ∧
    (∀ c, a.inAlphabet c = true → b.inAlphabet c = true ∧ b.letterIdx c = a.letterIdx c)

/-- The list of letters `l` with `c` added at its end unless it is there. -/
def addFirst (l : List Nat) (c : Nat) : List Nat :=
  if c ∈ l then l else l ++ [c]

/-- The local state of the loader with the alphabet left out: the sequences hold
the letters themselves instead of their indices. -/
structure ScanState where
  records : List (List Nat)
  inHeader : Bool
  inSequence : Bool

/-- The walk of `processByte` with the alphabet left out. -/
def scanByte (s : ScanState) (c : Nat) : ScanState :=
  if s.inHeader then
    (if c = 10 then { s with inHeader := false } else s)
  else if c = 62 then
    { s with inHeader := true, inSequence := false }
  else if c = 13 ∨ c = 10 then s
  else
    ⟨(pushBackLast (if s.inSequence then s.records else s.records ++ [[]]) c).getD [],
      false, true⟩

/-- The loader state `st` and the alphabet-free state `s` agree after the same
bytes of a file read against the alphabet `a0`: same flags, the sequences of `st`
decode to the records of `s`, every stored index is below `alphabetLength`, and
the letters of the alphabet are those of `a0` followed by the new symbols in the
order of their first appearance. -/
def Simulates (a0 : Alphabet) (st : LoaderState) (s : ScanState) : Prop :=
  st.inHeader = s.inHeader ∧ st.inSequence = s.inSequence ∧
    st.alphabet.WellFormed ∧ a0.Extends st.alphabet ∧
    st.seqs.map (decode st.alphabet) = s.records ∧
    (∀ seq ∈ st.seqs, ∀ x ∈ seq, x < st.alphabet.alphabetLength) ∧
    (s.inSequence = true → s.records ≠ []) ∧
    st.alphabet.letters = s.records.flatten.foldl addFirst a0.letters

/-! ### Lines of a file -/

/-- Where a walk over the lines of a file stands: at the start of a line, inside a
marker line (a line that begins with `>`), or inside a data line. -/
inductive LineMode where
  | lineStart
  | marker
  | data
  deriving DecidableEq

/-- The mode after a byte that does not open a marker line: a line break leads to
the start of a line, any other byte leaves or puts the walk inside the line. -/
def LineMode.after (inside : LineMode) (c : Nat) : LineMode :=
  if c = 10 then LineMode.lineStart else inside

/-- No data line of the file holds the marker `>`. -/
def dataLinesMarkerFree : LineMode → List Nat → Bool
  | _, [] => true
  | LineMode.marker, c :: cs => dataLinesMarkerFree (LineMode.marker.after c) cs
  | LineMode.lineStart, c :: cs =>
    if c = 62 then dataLinesMarkerFree LineMode.marker cs
    else dataLinesMarkerFree (LineMode.data.after c) cs
  | LineMode.data, c :: cs =>
    c != 62 && dataLinesMarkerFree (LineMode.data.after c) cs

/-- The records of a file by its lines: a marker line (a line that begins with `>`)
opens a record, whose data lines are the lines up to the next marker line. The result
is the bytes, other than line breaks and carriage returns, of the data lines that
continue the record in progress, and those of the data lines of each later record. -/
def lineRecords : LineMode → List Nat → List Nat × List (List Nat)
  | _, [] => ([], [])
  | LineMode.marker, c :: cs => lineRecords (LineMode.marker.after c) cs
  | LineMode.lineStart, c :: cs =>
    if c = 62 then
      ([], (lineRecords LineMode.marker cs).1 :: (lineRecords LineMode.marker cs).2)
    else if isSymbol c then
      (c :: (lineRecords (LineMode.data.after c) cs).1,
        (lineRecords (LineMode.data.after c) cs).2)
    else lineRecords (LineMode.data.after c) cs
  | LineMode.data, c :: cs =>
    if isSymbol c then
      (c :: (lineRecords (LineMode.data.after c) cs).1,
        (lineRecords (LineMode.data.after c) cs).2)
    else lineRecords (LineMode.data.after c) cs

/-- The concatenated data-line bytes, line breaks and carriage returns removed, of the
data lines before the first marker line and of each record of a file, in file
order. -/
def recordDataLines (bytes : List Nat) : List (List Nat) :=
  (lineRecords LineMode.lineStart bytes).1 :: (lineRecords LineMode.lineStart bytes).2

/-- The records `records` once the symbols `cur` are added: to the last record when
a record is in progress, as a new record otherwise, unless there is no symbol. -/
def continueRecord (records : List (List Nat)) (inSequence : Bool) (cur : List Nat) :
    List (List Nat) :=
  if inSequence then records.dropLast ++ [records.getLast?.getD [] ++ cur]
  else if cur = [] then records else records ++ [cur]

/-! ## Loading the inputs (lines 141-174 of `main`) -/

/-- What `main` holds once both files are read: the query sequences, the target
sequence `(*targetSequences)[0]` and the alphabet. -/
structure LoadedInputs where
  querySequences : List (List Nat)
  target : List Nat
  alphabet : Alphabet

/-- How the loading part of `main` ends: by `return 1`, or with the inputs. -/
inductive LoadOutcome where
  | exit (code : Nat)
  | loaded (inputs : LoadedInputs)

/-- Lines 141-174 of `main`: the queries file is read, then the target file against
the alphabet the first call left; a non-zero return value of either call ends the
program with the value 1; then element 0 of `targetSequences` is taken, which is
undefined behaviour (`none`) when the vector is empty. -/
def loadInputs (queriesFile targetFile : Option (List Nat)) (a : Alphabet) :
    Option LoadOutcome :=
  (readFastaSequences queriesFile a).bind fun rq =>
    if rq.status ≠ 0 then some (LoadOutcome.exit 1)
    else (readFastaSequences targetFile rq.alphabet).bind fun rt =>
      if rt.status ≠ 0 then some (LoadOutcome.exit 1)
      else
        match rt.seqs[0]? with
        | some target => some (LoadOutcome.loaded ⟨rq.seqs, target, rt.alphabet⟩)
        | none => none

/-- The scores are scores that the engine can return under the bounds handed to
it: the score of query `i` is at least -1, and at most the bound `k` of that query
when `k` is not negative (the usage text of `-k`: sequences with a score above `k`
are discarded, which the engine reports by the sentinel -1). -/
def engineRespectsBounds (numBestSeqs kArg : Int) (scores : List Int) : Bool :=
  (List.range scores.length).all fun i =>
    decide (-1 ≤ scores.getD i (-1) ∧
      (0 ≤ boundAt numBestSeqs kArg scores i →
        scores.getD i (-1) ≤ boundAt numBestSeqs kArg scores i))

/-! ## Trace interpreter, block view (`printAlignment`) -/

/-- The byte printed for a gap column by `printAlignment` (the character `'_'`). -/
def blockGapChar : Nat := 95

/-- The number of columns of a block of `printAlignment`. -/
def blockWidth : Nat := 50

/-- One of the two inner loops of `printAlignment` over the columns `cols` of a
block (lines 405-412 with `sym = 1` and the target, lines 417-424 with `sym = 2`
and the query), from the cursor `idx`: the characters printed and the cursor at
the end. -/
def rowLoop (sym : Nat) (idxToLetter : Nat → Nat) (seq : List Nat) :
    List Nat → Int → Option (List Nat × Int)
  | [], idx => some ([], idx)
  | a :: rest, idx =>
    (if a = sym then some (blockGapChar, idx)
      else (nextLetter idxToLetter seq idx).map (fun c => (c, idx + 1))).bind
    fun ci =>
    (rowLoop sym idxToLetter seq rest ci.2).map fun r => (ci.1 :: r.1, r.2)

/-- The value of `startTIdx` (`startQIdx`) at the end of a row loop: the cursor
after the first column of the block (`if (j == start) startTIdx = tIdx`). A block
has at least one column. -/
def startIndex (sym : Nat) (cols : List Nat) (idx : Int) : Int :=
  match cols with
  | [] => idx
  | a :: _ => if a = sym then idx else idx + 1

/-- What `printAlignment` prints for one block: the target row with the range
`(targetStart - targetEnd)` and the query row with the range
`(queryStart - queryEnd)`. -/
structure AlignmentBlock where
  targetRow : List Nat
  targetStart : Int
  targetEnd : Int
  queryRow : List Nat
  queryStart : Int
  queryEnd : Int
  deriving DecidableEq

/-- The outer loop of `printAlignment` (lines 401-426) on the columns `rest` that
are left, from the cursors `tIdx` and `qIdx`. Each round takes at least one column,
so `rest.length` units of fuel suffice (`blocksLoop_fuel`). -/
def blocksLoop (idxToLetter : Nat → Nat) (query target : List Nat) :
    Nat → List Nat → Int → Int → Option (List AlignmentBlock)
  | 0, _, _, _ => some []
  | fuel + 1, rest, tIdx, qIdx =>
    if rest = [] then some []
    else
      (rowLoop 1 idxToLetter target (rest.take blockWidth) tIdx).bind fun t =>
      (rowLoop 2 idxToLetter query (rest.take blockWidth) qIdx).bind fun q =>
      (blocksLoop idxToLetter query target fuel (rest.drop blockWidth) t.2 q.2).map fun bs =>
        ⟨t.1, max (startIndex 1 (rest.take blockWidth) tIdx) 0, t.2,
         q.1, max (startIndex 2 (rest.take blockWidth) qIdx) 0, q.2⟩ :: bs

/-- The function `printAlignment` (lines 388-427): the blocks printed, `none` when
a read is out of range. -/
def printAlignment (query target alignment : List Nat) (position : Int)
    (modeCode : EdlibMode) (idxToLetter : Nat → Nat) : Option (List AlignmentBlock) :=
  blocksLoop idxToLetter query target alignment.length alignment
    (seedTIdx modeCode position alignment) (-1)

/-- The row `row` with the byte of `printAlignment` for a gap put at the columns
whose trace symbol is `sym`. -/
def withBlockGaps (sym : Nat) (alignment row : List Nat) : List Nat :=
  List.zipWith (fun a c => if a = sym then blockGapChar else c) alignment row

/-- The trace fits the sequences: it consumes no more query symbols than the query
holds; in mode HW the end position lies in the target and the trace consumes no
more target symbols than the target holds up to that position; in the other modes
it consumes no more target symbols than the target holds. -/
def TraceFits (modeCode : EdlibMode) (position : Int) (alignment query target : List Nat) :
    Prop :=
  countNot 2 alignment ≤ query.length ∧
    if modeCode = EdlibMode.HW then
      position < target.length ∧ (countNot 1 alignment : Int) ≤ position + 1
    else countNot 1 alignment ≤ target.length

/-- The index of the first target symbol that the trace consumes: 0, or in mode HW
`position + 1` minus the number of target symbols consumed. -/
def firstTarget (modeCode : EdlibMode) (position : Int) (alignment : List Nat) : Nat :=
  if modeCode = EdlibMode.HW then (position + 1 - countNot 1 alignment).toNat else 0

/-! ## Theorems: trace interpreter -/

theorem nextLetter_eq (idxToLetter : Nat → Nat) (a : List Nat) (c : Nat)
    (hc : c < a.length) (ha : ∀ x ∈ a, x < 128) :
    nextLetter idxToLetter a ((c : Int) - 1) = some (idxToLetter (a.getD c 0)) := by
  have h2 : a[c] < 128 := ha _ (List.getElem_mem _)
  simp [nextLetter, readAt, letterAt, alphabetCapacity, List.getElem?_eq_getElem hc, h2]

theorem countNot_cons (sym a : Nat) (rest : List Nat) :
    countNot sym (a :: rest) = (if a = sym then 0 else 1) + countNot sym rest := by
  unfold countNot
  by_cases h : a = sym
  · simp [h]
  · simp [List.filter_cons, h]; omega

theorem renderLoop_eq (idxToLetter : Nat → Nat) (query target : List Nat)
    (hta : ∀ x ∈ target, x < 128) (hqa : ∀ x ∈ query, x < 128) :
    ∀ (alignment : List Nat) (t0 q0 : Nat),
      t0 + countNot 1 alignment ≤ target.length →
      q0 + countNot 2 alignment ≤ query.length →
      renderLoop idxToLetter query target alignment ((t0 : Int) - 1) ((q0 : Int) - 1) =
        some (alignedRow 1 idxToLetter target alignment t0,
              alignedRow 2 idxToLetter query alignment q0) := by
  intro alignment
  induction alignment with
  | nil => intro t0 q0 _ _; simp [renderLoop, alignedRow]
  | cons a rest ih =>
    intro t0 q0 ht hq
    rw [countNot_cons] at ht hq
    by_cases h1 : a = 1
    · have h2 : a ≠ 2 := by omega
      simp only [h2, if_false] at hq
      simp only [h1, if_true] at ht
      have hn := nextLetter_eq idxToLetter query q0 (by omega) hqa
      have hi := ih t0 (q0 + 1) (by omega) (by omega)
      simp only [Nat.cast_add, Nat.cast_one, add_sub_cancel_right] at hi
      subst h1
      simp [renderLoop, alignedRow, hn, hi]
    · have hnt := nextLetter_eq idxToLetter target t0 (by simp only [h1, if_false] at ht; omega) hta
      simp only [h1, if_false] at ht
      by_cases h2 : a = 2
      · simp only [h2, if_true] at hq
        have hi := ih (t0 + 1) q0 (by omega) (by omega)
        simp only [Nat.cast_add, Nat.cast_one, add_sub_cancel_right] at hi
        subst h2
        simp [renderLoop, alignedRow, hnt, hi]
      · simp only [h2, if_false] at hq
        have hn := nextLetter_eq idxToLetter query q0 (by omega) hqa
        have hi := ih (t0 + 1) (q0 + 1) (by omega) (by omega)
        simp only [Nat.cast_add, Nat.cast_one, add_sub_cancel_right] at hi
        simp [renderLoop, alignedRow, hnt, hn, hi, h1, h2]

theorem alignedRow_length (sym : Nat) (idxToLetter : Nat → Nat) (seq : List Nat) :
    ∀ (alignment : List Nat) (c : Nat),
      (alignedRow sym idxToLetter seq alignment c).length = alignment.length := by
  intro alignment
  induction alignment with
  | nil => intro c; rfl
  | cons a rest ih =>
    intro c
    by_cases h : a = sym <;> simp [alignedRow, h, ih]

theorem alignedRow_gap (sym : Nat) (idxToLetter : Nat → Nat) (seq : List Nat) :
    ∀ (alignment : List Nat) (c j : Nat), alignment[j]? = some sym →
      (alignedRow sym idxToLetter seq alignment c)[j]? = some gapChar := by
  intro alignment
  induction alignment with
  | nil => intro c j h; simp at h
  | cons a rest ih =>
    intro c j h
    cases j with
    | zero =>
      simp at h
      simp [alignedRow, h]
    | succ j =>
      simp at h
      by_cases ha : a = sym
      · simpa [alignedRow, ha] using ih c j h
      · simpa [alignedRow, ha] using ih (c + 1) j h

theorem alignedRow_letter (sym : Nat) (idxToLetter : Nat → Nat) (seq : List Nat) :
    ∀ (alignment : List Nat) (c j a : Nat), alignment[j]? = some a → a ≠ sym →
      (alignedRow sym idxToLetter seq alignment c)[j]? =
        some (idxToLetter (seq.getD (c + countNot sym (alignment.take j)) 0)) := by
  intro alignment
  induction alignment with
  | nil => intro c j a h; simp at h
  | cons b rest ih =>
    intro c j a h hne
    cases j with
    | zero =>
      simp at h
      subst h
      simp [alignedRow, hne, countNot]
    | succ j =>
      simp at h
      rw [List.take_succ_cons, countNot_cons]
      by_cases hb : b = sym
      · simpa [alignedRow, hb] using ih c j a h hne
      · simpa [alignedRow, hb, Nat.add_assoc] using ih (c + 1) j a h hne

theorem dropGapColumns_alignedRow (sym : Nat) (idxToLetter : Nat → Nat) (seq : List Nat) :
    ∀ (alignment : List Nat) (c : Nat), c + countNot sym alignment ≤ seq.length →
      dropGapColumns sym alignment (alignedRow sym idxToLetter seq alignment c) =
        ((seq.drop c).take (countNot sym alignment)).map idxToLetter := by
  intro alignment
  induction alignment with
  | nil => intro c _; simp [dropGapColumns, countNot]
  | cons a rest ih =>
    intro c hc
    rw [countNot_cons] at hc ⊢
    by_cases h : a = sym
    · simp only [h, if_true, Nat.zero_add] at hc ⊢
      have := ih c hc
      simp only [dropGapColumns] at this ⊢
      simp [alignedRow, this]
    · simp only [h, if_false] at hc ⊢
      have := ih (c + 1) (by omega)
      simp only [dropGapColumns] at this ⊢
      have hlt : c < seq.length := by omega
      rw [List.drop_eq_getElem_cons hlt, Nat.add_comm 1, List.take_succ_cons, List.map_cons,
        ← this]
      simp [alignedRow, h, List.getElem?_eq_getElem hlt]

theorem alignedRow_all_zero (sym : Nat) (hsym : sym ≠ 0) (idxToLetter : Nat → Nat)
    (seq : List Nat) :
    ∀ (alignment : List Nat) (c : Nat), (∀ a ∈ alignment, a = 0) →
      c + alignment.length ≤ seq.length →
      alignedRow sym idxToLetter seq alignment c =
        ((seq.drop c).take alignment.length).map idxToLetter := by
  intro alignment
  induction alignment with
  | nil => intro c _ _; simp [alignedRow]
  | cons a rest ih =>
    intro c hz hc
    have ha : a = 0 := hz a (List.mem_cons_self _ _)
    have hne : a ≠ sym := by omega
    simp only [List.length_cons] at hc
    have hlt : c < seq.length := by omega
    have := ih (c + 1) (fun x hx => hz x (List.mem_cons_of_mem _ hx)) (by omega)
    rw [List.drop_eq_getElem_cons hlt, List.length_cons, List.take_succ_cons, List.map_cons,
      ← this]
    simp [alignedRow, hne, List.getElem?_eq_getElem hlt]

theorem countNot_all_zero (sym : Nat) (hsym : sym ≠ 0) :
    ∀ (alignment : List Nat), (∀ a ∈ alignment, a = 0) →
      countNot sym alignment = alignment.length := by
  intro alignment
  induction alignment with
  | nil => intro _; rfl
  | cons a rest ih =>
    intro hz
    have ha : a = 0 := hz a (List.mem_cons_self _ _)
    have hne : a ≠ sym := by omega
    rw [countNot_cons, ih (fun x hx => hz x (List.mem_cons_of_mem _ hx))]
    simp [hne]; omega

/-- The output loop never runs out of fuel: from a column `j ≤ size + 1`, any
amount of fuel of at least `size + 2 - j` gives the same outcome. -/
theorem spectrumLoop_fuel (ref_str query_str : List Nat) (kmer_size : Int) :
    ∀ (fuel j : Nat), j ≤ ref_str.length + 1 → ref_str.length + 2 ≤ fuel + j →
      spectrumLoop ref_str query_str kmer_size fuel j =
        spectrumLoop ref_str query_str kmer_size (fuel + 1) j := by
  intro fuel
  induction fuel with
  | zero => intro j h1 h2; omega
  | succ fuel ih =>
    intro j h1 h2
    rw [spectrumLoop, spectrumLoop]
    by_cases hl : j < spectrumLimit ref_str.length kmer_size
    · simp only [hl, if_true]
      by_cases hj : j ≤ ref_str.length
      · rw [ih (j + 1) (by omega) (by omega)]
      · have : substr ref_str j (toSizeT kmer_size) = none := by
          simp [substr]; omega
        simp [this]
    · simp [hl]

theorem spectrumLoop_identical (s : List Nat) (kmer_size : Int) :
    ∀ (fuel j : Nat), ∀ row ∈ (spectrumLoop s s kmer_size fuel j).rows,
      row.targetWindow = row.queryWindow := by
  intro fuel
  induction fuel with
  | zero => intro j row h; simp [spectrumLoop] at h
  | succ fuel ih =>
    intro j row h
    rw [spectrumLoop] at h
    by_cases hl : j < spectrumLimit s.length kmer_size
    · simp only [hl, if_true] at h
      cases hs : substr s j (toSizeT kmer_size) with
      | none => simp [hs] at h
      | some w =>
        simp only [hs, List.mem_cons] at h
        rcases h with h | h
        · subst h; rfl
        · exact ih (j + 1) row h
    · simp [hl] at h

theorem toSizeT_natCast (k : Nat) (hk : k < 2 ^ 64) : toSizeT (k : Int) = k := by
  unfold toSizeT
  have h : ((k : Int) % (2 : Int) ^ 64) = ((k % 2 ^ 64 : Nat) : Int) := by norm_cast
  rw [h, Int.toNat_natCast, Nat.mod_eq_of_lt hk]

theorem spectrumLimit_of_le (size k : Nat) (hk : 1 ≤ k) (hkl : k ≤ size + 1)
    (hsz : size + 1 < 2 ^ 64) : spectrumLimit size (k : Int) = size + 1 - k := by
  unfold spectrumLimit
  rw [toSizeT_natCast k (by omega)]
  have : size + (2 ^ 64 - k) + 1 = (size + 1 - k) + 2 ^ 64 := by omega
  rw [this, Nat.add_mod_right, Nat.mod_eq_of_lt (by omega)]

theorem spectrumLoop_rows_from (ref_str query_str : List Nat) (k : Nat) (hk : 1 ≤ k)
    (hkl : k ≤ ref_str.length + 1) (hq : query_str.length = ref_str.length)
    (hsz : ref_str.length + 1 < 2 ^ 64) :
    ∀ (fuel j : Nat), j ≤ ref_str.length + 1 - k → ref_str.length + 1 - k - j < fuel →
      spectrumLoop ref_str query_str (k : Int) fuel j =
        ⟨(List.range' j (ref_str.length + 1 - k - j)).map
          (fun p => ⟨p, cstr ((ref_str.drop p).take k), cstr ((query_str.drop p).take k)⟩),
          false⟩ := by
  intro fuel
  induction fuel with
  | zero => intro j _ h; omega
  | succ fuel ih =>
    intro j hj hf
    rw [spectrumLoop, spectrumLimit_of_le _ k hk hkl hsz, toSizeT_natCast k (by omega)]
    by_cases hlt : j < ref_str.length + 1 - k
    · have h1 : substr ref_str j k = some ((ref_str.drop j).take k) := by
        simp only [substr]; rw [if_neg (by omega)]
      have h2 : substr query_str j k = some ((query_str.drop j).take k) := by
        simp only [substr]; rw [if_neg (by omega)]
      have hr : ref_str.length + 1 - k - j = (ref_str.length + 1 - k - (j + 1)) + 1 := by omega
      simp only [hlt, if_true, h1, h2]
      rw [ih (j + 1) (by omega) (by omega), hr, List.range'_succ]
      simp
    · have : ref_str.length + 1 - k - j = 0 := by omega
      simp [hlt, this]

/-- For a window size `k` between 1 and `alignmentLength + 1` the output loop writes
one row for each column `p = 0, ..., alignmentLength - k`, in increasing order, with
the two windows of `k` bytes that start at column `p`, and ends normally. -/
theorem spectrumLoop_rows (ref_str query_str : List Nat) (k : Nat) (hk : 1 ≤ k)
    (hkl : k ≤ ref_str.length + 1) (hq : query_str.length = ref_str.length)
    (hsz : ref_str.length + 1 < 2 ^ 64) :
    spectrumLoop ref_str query_str (k : Int) (ref_str.length + 2) 0 =
      ⟨(List.range (ref_str.length + 1 - k)).map
        (fun p => ⟨p, cstr ((ref_str.drop p).take k), cstr ((query_str.drop p).take k)⟩),
        false⟩ := by
  rw [spectrumLoop_rows_from ref_str query_str k hk hkl hq hsz _ 0 (by omega) (by omega),
    List.range_eq_range']
  rfl

/-- Claim C1, at the input where the code departs from it: for query = target = ACG,
the all-match trace of length 3 and the default window size 6 (mode NW) the loop
bound `ref_str.size() - kmer_size + 1` wraps around, `printSpectrum` writes rows for
the columns 0, 1, 2 and 3 with windows shorter than 6, and then `substr` throws
`std::out_of_range`; the claim has no row at all for an alignment shorter than the
window. -/
theorem printSpectrum_short_alignment :
    printSpectrum [0, 1, 2] [0, 1, 2] [0, 0, 0] 2 EdlibMode.NW
        (fun i => [65, 67, 71].getD i 0) 6 =
      some ⟨[⟨0, [65, 67, 71], [65, 67, 71]⟩, ⟨1, [67, 71], [67, 71]⟩,
             ⟨2, [71], [71]⟩, ⟨3, [], []⟩], true⟩ := by
  decide

/-- Every row written by the output loop is tied to the two strings: a row for
column `p` carries what `%s` prints of `substr(p, kmer_size)` of each string, and the
loop from column `j` on only writes rows for columns `p ≥ j`. -/
theorem spectrumLoop_row_mem (ref_str query_str : List Nat) (kmer_size : Int) :
    ∀ (fuel j : Nat), ∀ row ∈ (spectrumLoop ref_str query_str kmer_size fuel j).rows,
      j ≤ row.pos ∧
      row.targetWindow = cstr ((ref_str.drop row.pos).take (toSizeT kmer_size)) ∧
      row.queryWindow = cstr ((query_str.drop row.pos).take (toSizeT kmer_size)) := by
  intro fuel
  induction fuel with
  | zero => intro j row h; simp [spectrumLoop] at h
  | succ fuel ih =>
    intro j row h
    rw [spectrumLoop] at h
    by_cases hl : j < spectrumLimit ref_str.length kmer_size
    · simp only [hl, if_true] at h
      cases hs : substr ref_str j (toSizeT kmer_size) with
      | none => simp [hs] at h
      | some tw =>
        cases hs2 : substr query_str j (toSizeT kmer_size) with
        | none => simp [hs, hs2] at h
        | some qw =>
          simp only [hs, hs2, List.mem_cons] at h
          have htw : tw = (ref_str.drop j).take (toSizeT kmer_size) := by
            unfold substr at hs
            split at hs
            · exact absurd hs (by simp)
            · exact (Option.some.inj hs).symm
          have hqw : qw = (query_str.drop j).take (toSizeT kmer_size) := by
            unfold substr at hs2
            split at hs2
            · exact absurd hs2 (by simp)
            · exact (Option.some.inj hs2).symm
          rcases h with h | h
          · subst h; exact ⟨le_refl _, by rw [htw], by rw [hqw]⟩
          · have := ih (j + 1) row h
            exact ⟨by omega, this.2⟩
    · simp [hl] at h

/-- A window of `k` letters inside the first `n` letters of a sequence. -/
theorem window_of_letters (idxToLetter : Nat → Nat) (target : List Nat) (n p k : Nat)
    (h : p + k ≤ n) :
    ((((target.take n).map idxToLetter).drop p).take k) =
      ((target.drop p).take k).map idxToLetter := by
  rw [← List.map_drop, ← List.map_take, List.drop_take, List.take_take,
    Nat.min_eq_left (by omega)]

/-- Claim C2: in mode NW or SHW, for a trace that consumes no more symbols than the
sequences hold, `printSpectrum` renders two strings as long as the trace; a column
whose trace symbol is 1 shows a gap on the target side, one whose symbol is 2 a gap
on the query side; a column with another symbol shows on the target side the letter
of `target[c]`, `c` being the number of earlier columns with a symbol different
from 1, and likewise on the query side; the target string without its gap columns is the letters of
`target[0 .. ct)` and the query string without its gap columns the letters of
`query[0 .. cq)`, with `ct` (`cq`) the number of trace symbols different from 1 (2).
The rows written are windows of these two strings: for every window size, a row for
column `p` carries what `%s` prints of the window of each rendered string that starts
at column `p`, and for a window size `k` between 1 and `alignmentLength + 1` the rows
are exactly those of the columns `0, ..., alignmentLength - k`, in order.
When query = target and the trace is all 0, both strings are the letters of
`target[0 .. alignmentLength)`, every spectrum row has identical windows, and for
`1 ≤ k ≤ alignmentLength + 1` the row of column `p` shows on both sides the letters
of `target[p .. p + k)`: no column of a window is a gap column. -/
theorem printSpectrum_render_NW_SHW (idxToLetter : Nat → Nat)
    (query target alignment : List Nat) (position : Int) (modeCode : EdlibMode)
    (hmode : modeCode = EdlibMode.NW ∨ modeCode = EdlibMode.SHW)
    (ht : countNot 1 alignment ≤ target.length)
    (hq : countNot 2 alignment ≤ query.length)
    (hta : ∀ x ∈ target, x < 128) (hqa : ∀ x ∈ query, x < 128) :
    ∃ r q : List Nat, renderedStrings query target alignment position modeCode idxToLetter = some (r, q) ∧
      r.length = alignment.length ∧ q.length = alignment.length ∧
      (∀ j : Nat, alignment[j]? = some 1 → r[j]? = some gapChar) ∧
      (∀ j : Nat, alignment[j]? = some 2 → q[j]? = some gapChar) ∧
      (∀ j a : Nat, alignment[j]? = some a → a ≠ 1 →
        r[j]? = some (idxToLetter (target.getD (countNot 1 (alignment.take j)) 0))) ∧
      (∀ j a : Nat, alignment[j]? = some a → a ≠ 2 →
        q[j]? = some (idxToLetter (query.getD (countNot 2 (alignment.take j)) 0))) ∧
      dropGapColumns 1 alignment r = (target.take (countNot 1 alignment)).map idxToLetter ∧
      dropGapColumns 2 alignment q = (query.take (countNot 2 alignment)).map idxToLetter ∧
      (∀ kmer_size : Int, ∃ out,
        printSpectrum query target alignment position modeCode idxToLetter kmer_size =
          some out ∧
        ∀ row ∈ out.rows,
          row.targetWindow = cstr ((r.drop row.pos).take (toSizeT kmer_size)) ∧
          row.queryWindow = cstr ((q.drop row.pos).take (toSizeT kmer_size))) ∧
      (∀ k : Nat, 1 ≤ k → k ≤ alignment.length + 1 → alignment.length + 1 < 2 ^ 64 →
        printSpectrum query target alignment position modeCode idxToLetter (k : Int) =
          some ⟨(List.range (alignment.length + 1 - k)).map
            (fun p => ⟨p, cstr ((r.drop p).take k), cstr ((q.drop p).take k)⟩), false⟩) ∧
      (query = target → (∀ a ∈ alignment, a = 0) →
        r = (target.take alignment.length).map idxToLetter ∧
        q = (target.take alignment.length).map idxToLetter ∧
        (∀ kmer_size : Int, ∃ out,
          printSpectrum query target alignment position modeCode idxToLetter kmer_size =
            some out ∧
          ∀ row ∈ out.rows, row.targetWindow = row.queryWindow ∧
            row.targetWindow =
              cstr ((((target.take alignment.length).map idxToLetter).drop row.pos).take
                (toSizeT kmer_size))) ∧
        (∀ k : Nat, 1 ≤ k → k ≤ alignment.length + 1 → alignment.length + 1 < 2 ^ 64 →
          printSpectrum query target alignment position modeCode idxToLetter (k : Int) =
            some ⟨(List.range (alignment.length + 1 - k)).map
              (fun p => ⟨p, cstr (((target.drop p).take k).map idxToLetter),
                cstr (((target.drop p).take k).map idxToLetter)⟩), false⟩)) := by
  have hseed : seedTIdx modeCode position alignment = -1 := by
    rcases hmode with h | h <;> simp [seedTIdx, h]
  have hr := renderLoop_eq idxToLetter query target hta hqa alignment 0 0
    (by simpa using ht) (by simpa using hq)
  simp only [Nat.cast_zero, zero_sub] at hr
  have hrs : renderedStrings query target alignment position modeCode idxToLetter =
      some (alignedRow 1 idxToLetter target alignment 0,
            alignedRow 2 idxToLetter query alignment 0) := by
    rw [renderedStrings, hseed, hr]
  have hrl : (alignedRow 1 idxToLetter target alignment 0).length = alignment.length :=
    alignedRow_length _ _ _ _ _
  have hql : (alignedRow 2 idxToLetter query alignment 0).length = alignment.length :=
    alignedRow_length _ _ _ _ _
  have hps : ∀ kmer_size : Int,
      printSpectrum query target alignment position modeCode idxToLetter kmer_size =
        some (spectrumLoop (alignedRow 1 idxToLetter target alignment 0)
          (alignedRow 2 idxToLetter query alignment 0) kmer_size
          ((alignedRow 1 idxToLetter target alignment 0).length + 2) 0) := by
    intro kmer_size; rw [printSpectrum, hrs]; rfl
  have hrows : ∀ k : Nat, 1 ≤ k → k ≤ alignment.length + 1 → alignment.length + 1 < 2 ^ 64 →
      printSpectrum query target alignment position modeCode idxToLetter (k : Int) =
        some ⟨(List.range (alignment.length + 1 - k)).map
          (fun p => ⟨p, cstr (((alignedRow 1 idxToLetter target alignment 0).drop p).take k),
            cstr (((alignedRow 2 idxToLetter query alignment 0).drop p).take k)⟩), false⟩ := by
    intro k hk hkl hsz
    rw [hps, spectrumLoop_rows _ _ k hk (by rw [hrl]; exact hkl) (by rw [hrl, hql])
      (by rw [hrl]; exact hsz), hrl]
  refine ⟨_, _, hrs, hrl, hql,
    fun j h => alignedRow_gap _ _ _ _ _ j h, fun j h => alignedRow_gap _ _ _ _ _ j h,
    ?_, ?_, ?_, ?_, ?_, hrows, ?_⟩
  · intro j a h hne
    simpa using alignedRow_letter 1 idxToLetter target alignment 0 j a h hne
  · intro j a h hne
    simpa using alignedRow_letter 2 idxToLetter query alignment 0 j a h hne
  · simpa using dropGapColumns_alignedRow 1 idxToLetter target alignment 0 (by simpa using ht)
  · simpa using dropGapColumns_alignedRow 2 idxToLetter query alignment 0 (by simpa using hq)
  · intro kmer_size
    refine ⟨_, hps kmer_size, ?_⟩
    intro row hrow
    exact (spectrumLoop_row_mem _ _ kmer_size _ _ row hrow).2
  · intro hqt hz
    subst hqt
    have hlen : alignment.length ≤ query.length := by
      rw [← countNot_all_zero 1 (by decide) alignment hz]; exact ht
    have h1 := alignedRow_all_zero 1 (by decide) idxToLetter query alignment 0 hz (by simpa using hlen)
    have h2 := alignedRow_all_zero 2 (by decide) idxToLetter query alignment 0 hz (by simpa using hlen)
    simp only [List.drop_zero] at h1 h2
    refine ⟨h1, h2, fun kmer_size => ?_, ?_⟩
    · refine ⟨_, hps kmer_size, ?_⟩
      intro row hrow
      have hm := (spectrumLoop_row_mem _ _ kmer_size _ _ row hrow).2
      rw [h1] at hm
      rw [h2] at hm
      exact ⟨hm.1.trans hm.2.symm, hm.1⟩
    · intro k hk hkl hsz
      rw [hrows k hk hkl hsz, h1, h2]
      congr 2
      apply List.map_congr_left
      intro p hp
      have hp2 : p + k ≤ alignment.length := by
        have := List.mem_range.mp hp
        omega
      rw [window_of_letters idxToLetter query alignment.length p k hp2]

/-- Witness for C2 (Scenario A): target = query = ACGTACGT in mode NW with the
all-match trace and window size 3: both rendered strings are ACGTACGT, and the rows
are those of the columns 0 to 5 with the windows ACG, CGT, GTA, TAC, ACG, CGT on both
sides. -/
theorem printSpectrum_render_NW_SHW_witness :
    renderedStrings [0, 1, 2, 3, 0, 1, 2, 3] [0, 1, 2, 3, 0, 1, 2, 3]
        [0, 0, 0, 0, 0, 0, 0, 0] 7 EdlibMode.NW (fun i => [65, 67, 71, 84].getD i 0) =
      some ([65, 67, 71, 84, 65, 67, 71, 84], [65, 67, 71, 84, 65, 67, 71, 84]) ∧
    printSpectrum [0, 1, 2, 3, 0, 1, 2, 3] [0, 1, 2, 3, 0, 1, 2, 3]
        [0, 0, 0, 0, 0, 0, 0, 0] 7 EdlibMode.NW (fun i => [65, 67, 71, 84].getD i 0) 3 =
      some ⟨[⟨0, [65, 67, 71], [65, 67, 71]⟩, ⟨1, [67, 71, 84], [67, 71, 84]⟩,
             ⟨2, [71, 84, 65], [71, 84, 65]⟩, ⟨3, [84, 65, 67], [84, 65, 67]⟩,
             ⟨4, [65, 67, 71], [65, 67, 71]⟩, ⟨5, [67, 71, 84], [67, 71, 84]⟩], false⟩ := by
  obtain ⟨r, q, hrs, _, _, _, _, _, _, _, _, _, _, hA⟩ :=
    printSpectrum_render_NW_SHW (fun i => [65, 67, 71, 84].getD i 0)
      [0, 1, 2, 3, 0, 1, 2, 3] [0, 1, 2, 3, 0, 1, 2, 3] [0, 0, 0, 0, 0, 0, 0, 0] 7
      EdlibMode.NW (Or.inl rfl) (by decide) (by decide) (by decide) (by decide)
  obtain ⟨hr, hq, _, hk⟩ := hA rfl (by decide)
  refine ⟨?_, ?_⟩
  · rw [hrs, hr, hq]; rfl
  · exact (hk 3 (by decide) (by decide) (by decide)).trans (by decide)

/-! ## Theorems: batch controller -/

theorem take_orderedInsert_take (s : Int) :
    ∀ (L : List Int) (n : Nat),
      (L.orderedInsert (fun a b => a ≤ b) s).take n =
        ((L.take n).orderedInsert (fun a b => a ≤ b) s).take n := by
  intro L
  induction L with
  | nil => intro n; simp
  | cons b L ih =>
    intro n
    cases n with
    | zero => simp
    | succ n =>
      by_cases h : s ≤ b
      · simp only [List.take_succ_cons, List.orderedInsert, h, if_true]
        cases n with
        | zero => simp
        | succ m => simp [List.take_take]
      · simp only [List.take_succ_cons, List.orderedInsert, h, if_false]
        rw [ih n]

theorem pqPush_reverse (s : Int) (W : List Int) (hW : W.Sorted (fun a b => a ≤ b)) :
    pqPush W.reverse s = (W.orderedInsert (fun a b => a ≤ b) s).reverse := by
  have hsW : (W.reverse).Sorted (fun a b => a ≥ b) := by
    rw [List.Sorted, List.pairwise_reverse]; exact hW
  have h1 : (pqPush W.reverse s).Sorted (fun a b => a ≥ b) :=
    List.Sorted.orderedInsert s _ hsW
  have h2 : ((W.orderedInsert (fun a b => a ≤ b) s).reverse).Sorted (fun a b => a ≥ b) := by
    rw [List.Sorted, List.pairwise_reverse]
    have h := List.Sorted.orderedInsert s _ hW
    exact h
  have hp : (pqPush W.reverse s).Perm ((W.orderedInsert (fun a b => a ≤ b) s).reverse) := by
    refine (List.perm_orderedInsert _ s _).trans ?_
    refine List.Perm.trans ?_ (List.reverse_perm _).symm
    refine List.Perm.trans ?_ (List.perm_orderedInsert _ s _).symm
    exact List.Perm.cons s (List.reverse_perm W)
  exact List.eq_of_perm_of_sorted hp h1 h2
theorem narrowStep_queue (n : Nat) (kArg : Int) (hn : 0 < n) (st : BatchState) (s : Int)
    (hs : 0 ≤ s) (L : List Int) (hL : L.Sorted (fun a b => a ≤ b))
    (hst : st.bestScores = (L.take n).reverse) :
    (narrowStep n kArg st s).bestScores =
      ((L.orderedInsert (fun a b => a ≤ b) s).take n).reverse := by
  have hW : (L.take n).Sorted (fun a b => a ≤ b) := hL.sublist (List.take_sublist n L)
  have hq1 : pqPush st.bestScores s =
      ((L.take n).orderedInsert (fun a b => a ≤ b) s).reverse := by
    rw [hst]; exact pqPush_reverse s _ hW
  have hlen : ((L.take n).orderedInsert (fun a b => a ≤ b) s).length ≤ n + 1 := by
    rw [List.orderedInsert_length, List.length_take]; omega
  have hq2 : (if ((pqPush st.bestScores s).length : Int) > (n : Int)
      then pqPop (pqPush st.bestScores s) else pqPush st.bestScores s) =
      ((L.orderedInsert (fun a b => a ≤ b) s).take n).reverse := by
    rw [take_orderedInsert_take s L n, hq1]
    by_cases hgt : n < ((L.take n).orderedInsert (fun a b => a ≤ b) s).length
    · have : (((List.take n L).orderedInsert (fun a b => a ≤ b) s).reverse.length : Int) > n := by
        rw [List.length_reverse]; exact_mod_cast hgt
      rw [if_pos this, pqPop, List.tail_reverse, List.dropLast_eq_take]
      congr 2
      omega
    · have : ¬ (((List.take n L).orderedInsert (fun a b => a ≤ b) s).reverse.length : Int) > n := by
        rw [List.length_reverse]; exact_mod_cast hgt
      have ht : ((L.take n).orderedInsert (fun a b => a ≤ b) s).take n =
          (L.take n).orderedInsert (fun a b => a ≤ b) s :=
        List.take_of_length_le (by omega)
      rw [if_neg this, ht]
  have hn0 : (n : Int) > 0 := by exact_mod_cast hn
  have hs0 : s ≥ 0 := hs
  simp only [narrowStep, hn0, hs0, if_true, hq2]
  split
  · split <;> rfl
  · rfl

theorem narrowStep_invalid (numBestSeqs kArg : Int) (st : BatchState) (s : Int) (hs : s < 0) :
    narrowStep numBestSeqs kArg st s = st := by
  have : ¬ s ≥ 0 := by omega
  simp [narrowStep, this]

theorem runBatch_snoc (numBestSeqs kArg : Int) (scores : List Int) (s : Int) :
    runBatch numBestSeqs kArg (scores ++ [s]) =
      narrowStep numBestSeqs kArg (runBatch numBestSeqs kArg scores) s := by
  simp [runBatch, List.foldl_append]

theorem insertionSort_snoc (l : List Int) (s : Int) :
    (l ++ [s]).insertionSort (fun a b => a ≤ b) =
      (l.insertionSort (fun a b => a ≤ b)).orderedInsert (fun a b => a ≤ b) s := by
  apply List.eq_of_perm_of_sorted (r := fun a b : Int => a ≤ b)
  · refine (List.perm_insertionSort _ _).trans ?_
    refine List.Perm.trans ?_ (List.perm_orderedInsert _ s _).symm
    refine List.perm_append_singleton s l |>.trans ?_
    exact List.Perm.cons s (List.perm_insertionSort _ _).symm
  · exact List.sorted_insertionSort _ _
  · exact List.Sorted.orderedInsert s _ (List.sorted_insertionSort _ _)

/-- After any list of scores the queue holds the `numBestSeqs` smallest valid scores,
listed from the largest to the smallest. -/
theorem runBatch_queue (n : Nat) (kArg : Int) (hn : 0 < n) (scores : List Int) :
    (runBatch n kArg scores).bestScores = (smallest n (validScores scores)).reverse := by
  induction scores using List.reverseRecOn with
  | nil => simp [runBatch, smallest, validScores]
  | append_singleton scores s ih =>
    rw [runBatch_snoc]
    by_cases hs : 0 ≤ s
    · rw [narrowStep_queue n kArg hn _ s hs _ (List.sorted_insertionSort _ _) ih]
      simp only [smallest, validScores, List.filter_append, List.filter_cons, hs, decide_True,
        if_true, List.filter_nil]
      rw [insertionSort_snoc]
    · rw [narrowStep_invalid _ _ _ _ (by omega), ih]
      simp [smallest, validScores, List.filter_append, hs]
theorem runBatch_disabled (numBestSeqs kArg : Int) (hN : numBestSeqs ≤ 0) (scores : List Int) :
    runBatch numBestSeqs kArg scores = ⟨[], kArg⟩ := by
  induction scores using List.reverseRecOn with
  | nil => rfl
  | append_singleton scores s ih =>
    have : ¬ numBestSeqs > 0 := by omega
    rw [runBatch_snoc, ih]
    simp [narrowStep, this]

theorem smallest_sorted (n : Nat) (l : List Int) :
    (smallest n l).Sorted (fun a b => a ≤ b) :=
  (List.sorted_insertionSort _ l).sublist (List.take_sublist n _)

theorem mem_smallest (n : Nat) (l : List Int) (x : Int) (hx : x ∈ smallest n l) : x ∈ l :=
  (List.mem_insertionSort _).mp (List.mem_of_mem_take hx)

theorem runBatch_sorted (n : Nat) (kArg : Int) (hn : 0 < n) (scores : List Int) :
    (runBatch n kArg scores).bestScores.Sorted (fun a b => a ≥ b) := by
  rw [runBatch_queue n kArg hn, List.Sorted, List.pairwise_reverse]
  exact smallest_sorted n _

theorem runBatch_nonneg (n : Nat) (kArg : Int) (hn : 0 < n) (scores : List Int) :
    ∀ x ∈ (runBatch n kArg scores).bestScores, 0 ≤ x := by
  intro x hx
  rw [runBatch_queue n kArg hn, List.mem_reverse] at hx
  have := mem_smallest _ _ _ hx
  simpa [validScores] using (List.mem_filter.mp this).2

theorem pqTop_max (q : List Int) (hq : q.Sorted (fun a b => a ≥ b)) (m : Int)
    (hm : pqTop q = some m) : m ∈ q ∧ ∀ x ∈ q, x ≤ m := by
  cases q with
  | nil => simp [pqTop] at hm
  | cons a q =>
    simp only [pqTop, List.head?_cons, Option.some.injEq] at hm
    subst hm
    refine ⟨List.mem_cons_self _ _, ?_⟩
    intro x hx
    rcases List.mem_cons.mp hx with h | h
    · omega
    · exact List.rel_of_sorted_cons hq x h

/-- Claim C3: with narrowing enabled (`numBestSeqs > 0`), after each query `i` of
the batch the queue `bestScores` holds, as a multiset, exactly the
`min(numBestSeqs, v)` smallest of the `v` valid (non-negative) scores returned so
far: it is a sub-multiset of the valid scores with that many elements, none of its
elements exceeds a valid score left out, no negative score is in it, and its size
never exceeds `numBestSeqs`. -/
theorem bestScores_window (numBestSeqs kArg : Int) (hN : 0 < numBestSeqs)
    (scores : List Int) (i : Nat) :
    ((runBatch numBestSeqs kArg (scores.take i)).bestScores : Multiset Int) =
        (smallest numBestSeqs.toNat (validScores (scores.take i)) : Multiset Int) ∧
      ((runBatch numBestSeqs kArg (scores.take i)).bestScores : Multiset Int) ≤
        (validScores (scores.take i) : Multiset Int) ∧
      (∀ x ∈ (runBatch numBestSeqs kArg (scores.take i)).bestScores,
        ∀ y ∈ (validScores (scores.take i) : Multiset Int) -
            ((runBatch numBestSeqs kArg (scores.take i)).bestScores : Multiset Int),
          x ≤ y) ∧
      (runBatch numBestSeqs kArg (scores.take i)).bestScores.length =
        min numBestSeqs.toNat (validScores (scores.take i)).length ∧
      ((runBatch numBestSeqs kArg (scores.take i)).bestScores.length : Int) ≤ numBestSeqs ∧
      (∀ x ∈ (runBatch numBestSeqs kArg (scores.take i)).bestScores, 0 ≤ x) := by
  obtain ⟨n, rfl⟩ := Int.eq_ofNat_of_zero_le (le_of_lt hN)
  have hn : 0 < n := by exact_mod_cast hN
  have hq := runBatch_queue n kArg hn (scores.take i)
  simp only [Int.toNat_ofNat]
  generalize validScores (scores.take i) = valid at hq ⊢
  have hlen : (runBatch n kArg (scores.take i)).bestScores.length = min n valid.length := by
    rw [hq, List.length_reverse, smallest, List.length_take, List.length_insertionSort]
  have hsplit : (valid : Multiset Int) =
      (smallest n valid : Multiset Int) +
        ((valid.insertionSort (fun a b => a ≤ b)).drop n : Multiset Int) := by
    rw [Multiset.coe_add, smallest, List.take_append_drop]
    exact (Multiset.coe_eq_coe.mpr (List.perm_insertionSort _ valid)).symm
  have hw : ((runBatch n kArg (scores.take i)).bestScores : Multiset Int) =
      (smallest n valid : Multiset Int) := by
    rw [hq]; exact Multiset.coe_eq_coe.mpr (List.reverse_perm _)
  refine ⟨hw, ?_, ?_, hlen, ?_, runBatch_nonneg n kArg hn _⟩
  · rw [hw, hsplit]; exact Multiset.le_add_right _ _
  · intro x hx y hy
    rw [hw, hsplit, add_tsub_cancel_left, Multiset.mem_coe] at hy
    rw [hq, List.mem_reverse] at hx
    exact (List.sorted_insertionSort (fun a b : Int => a ≤ b) valid).rel_of_mem_take_of_mem_drop
      hx hy
  · rw [hlen]; exact_mod_cast Nat.min_le_left n _

/-- Witness for C3: best two of the scores 5, -1, 3, 4, 9, 1. -/
theorem bestScores_window_witness :
    ((runBatch 2 (-1) ([5, -1, 3, 4, 9, 1].take 6)).bestScores : Multiset Int) =
        (smallest (2 : Int).toNat (validScores ([5, -1, 3, 4, 9, 1].take 6)) : Multiset Int) ∧
      ((runBatch 2 (-1) ([5, -1, 3, 4, 9, 1].take 6)).bestScores : Multiset Int) ≤
        (validScores ([5, -1, 3, 4, 9, 1].take 6) : Multiset Int) ∧
      (∀ x ∈ (runBatch 2 (-1) ([5, -1, 3, 4, 9, 1].take 6)).bestScores,
        ∀ y ∈ (validScores ([5, -1, 3, 4, 9, 1].take 6) : Multiset Int) -
            ((runBatch 2 (-1) ([5, -1, 3, 4, 9, 1].take 6)).bestScores : Multiset Int),
          x ≤ y) ∧
      (runBatch 2 (-1) ([5, -1, 3, 4, 9, 1].take 6)).bestScores.length =
        min (2 : Int).toNat (validScores ([5, -1, 3, 4, 9, 1].take 6)).length ∧
      ((runBatch 2 (-1) ([5, -1, 3, 4, 9, 1].take 6)).bestScores.length : Int) ≤ 2 ∧
      (∀ x ∈ (runBatch 2 (-1) ([5, -1, 3, 4, 9, 1].take 6)).bestScores, 0 ≤ x) :=
  bestScores_window 2 (-1) (by decide) [5, -1, 3, 4, 9, 1] 6
theorem mem_printSummary_lines (scores bestScores : List Int) (i : Nat) (s : Int) :
    (i, s) ∈ (printSummary scores bestScores).lines ↔
      scores[i]? = some s ∧ s > -1 ∧
        ((if bestScores.length > 0 then (pqTop bestScores).getD (-1) else -1) = -1 ∨
          s ≤ (if bestScores.length > 0 then (pqTop bestScores).getD (-1) else -1)) := by
  simp only [printSummary, List.mem_filter, List.mk_mem_enum_iff_getElem?, decide_eq_true_eq]

/-- Claim C4: in summary mode, with narrowing enabled (`numBestSeqs > 0`) a line is
printed for query `i` with score `s` exactly when `s = scores[i]` is valid
(`s ≥ 0`) and `s ≤ m`, `m` being the maximum of the final queue `bestScores`; with
narrowing disabled (`numBestSeqs = 0`) exactly when `s = scores[i]` is valid; the
lines come in input order, one per query at most. -/
theorem batchSummary_lines (numBestSeqs kArg : Int) (scores : List Int) :
    (0 < numBestSeqs → ∀ (i : Nat) (s : Int),
      ((i, s) ∈ (batchSummary numBestSeqs kArg scores).lines ↔
        scores[i]? = some s ∧ 0 ≤ s ∧
          ∃ m, pqTop (runBatch numBestSeqs kArg scores).bestScores = some m ∧
            (∀ x ∈ (runBatch numBestSeqs kArg scores).bestScores, x ≤ m) ∧ s ≤ m)) ∧
    (numBestSeqs = 0 → ∀ (i : Nat) (s : Int),
      ((i, s) ∈ (batchSummary numBestSeqs kArg scores).lines ↔ scores[i]? = some s ∧ 0 ≤ s)) ∧
    (batchSummary numBestSeqs kArg scores).lines.Sublist scores.enum := by
  refine ⟨?_, ?_, ?_⟩
  · intro hN i s
    obtain ⟨n, rfl⟩ := Int.eq_ofNat_of_zero_le (le_of_lt hN)
    have hn : 0 < n := by exact_mod_cast hN
    have hq := runBatch_queue n kArg hn scores
    have hsorted := runBatch_sorted n kArg hn scores
    have hnonneg := runBatch_nonneg n kArg hn scores
    rw [batchSummary, mem_printSummary_lines]
    cases hw : (runBatch n kArg scores).bestScores with
    | nil =>
      have hvalid : validScores scores = [] := by
        have h := congrArg List.length hq
        rw [hw, List.length_reverse, smallest, List.length_take,
          List.length_insertionSort] at h
        simp only [List.length_nil] at h
        have : (validScores scores).length = 0 := by omega
        exact List.length_eq_zero.mp this
      simp only [List.length_nil, lt_self_iff_false, if_false, true_or, and_true, pqTop,
        List.head?_nil]
      constructor
      · rintro ⟨hi, hs⟩
        have hmem : s ∈ validScores scores := by
          simp only [validScores, List.mem_filter, decide_eq_true_eq]
          exact ⟨List.getElem?_mem hi, by omega⟩
        rw [hvalid] at hmem
        simp at hmem
      · rintro ⟨_, _, m, hm, _⟩
        simp at hm
    | cons a q =>
      have ha : 0 ≤ a := hnonneg a (by rw [hw]; exact List.mem_cons_self _ _)
      have hmax := (pqTop_max _ hsorted a (by rw [hw]; rfl)).2
      rw [hw] at hmax
      simp only [List.length_cons, Nat.zero_lt_succ, if_true, pqTop, List.head?_cons,
        Option.getD_some, Option.some.injEq]
      constructor
      · rintro ⟨hi, hs, hl⟩
        refine ⟨hi, by omega, a, rfl, hmax, ?_⟩
        rcases hl with hl | hl
        · omega
        · exact hl
      · rintro ⟨hi, hs, m, hm, _, hsm⟩
        subst hm
        exact ⟨hi, by omega, Or.inr hsm⟩
  · intro hN i s
    rw [batchSummary, runBatch_disabled numBestSeqs kArg (by omega), mem_printSummary_lines]
    simp only [List.length_nil, lt_self_iff_false, if_false, true_or, and_true]
    constructor
    · rintro ⟨hi, hs⟩; exact ⟨hi, by omega⟩
    · rintro ⟨hi, hs⟩; exact ⟨hi, by omega⟩
  · exact List.filter_sublist _

/-- Witness for C4: the batch with scores 5, -1, 3, 4, 9, 1 and the best two kept. -/
theorem batchSummary_lines_witness :
    (∀ (i : Nat) (s : Int),
      ((i, s) ∈ (batchSummary 2 (-1) [5, -1, 3, 4, 9, 1]).lines ↔
        ([5, -1, 3, 4, 9, 1] : List Int)[i]? = some s ∧ 0 ≤ s ∧
          ∃ m, pqTop (runBatch 2 (-1) [5, -1, 3, 4, 9, 1]).bestScores = some m ∧
            (∀ x ∈ (runBatch 2 (-1) [5, -1, 3, 4, 9, 1]).bestScores, x ≤ m) ∧ s ≤ m)) ∧
    (∀ (i : Nat) (s : Int),
      ((i, s) ∈ (batchSummary 0 (-1) [5, -1, 3, 4, 9, 1]).lines ↔
        ([5, -1, 3, 4, 9, 1] : List Int)[i]? = some s ∧ 0 ≤ s)) ∧
    (batchSummary 2 (-1) [5, -1, 3, 4, 9, 1]).lines = [(2, 3), (5, 1)] :=
  ⟨(batchSummary_lines 2 (-1) [5, -1, 3, 4, 9, 1]).1 (by decide),
   (batchSummary_lines 0 (-1) [5, -1, 3, 4, 9, 1]).2.1 rfl, by decide⟩
theorem pqPush_length (q : List Int) (x : Int) : (pqPush q x).length = q.length + 1 :=
  List.orderedInsert_length _ q x

/-- The value of `k` after any list of scores: `kArg` as long as the queue is not
full, and the bound derived from the maximum of the queue once it is. -/
theorem runBatch_k (numBestSeqs kArg : Int) (hN : 0 < numBestSeqs) (scores : List Int) :
    (runBatch numBestSeqs kArg scores).k =
      if ((runBatch numBestSeqs kArg scores).bestScores.length : Int) = numBestSeqs then
        match pqTop (runBatch numBestSeqs kArg scores).bestScores with
        | some top => narrowedBound kArg top
        | none => kArg
      else kArg := by
  induction scores using List.reverseRecOn with
  | nil =>
    have : ¬ ((0 : Int) = numBestSeqs) := by omega
    simp [runBatch, this]
  | append_singleton scores s ih =>
    rw [runBatch_snoc]
    by_cases hs : s < 0
    · rw [narrowStep_invalid _ _ _ _ hs]; exact ih
    · have hs0 : s ≥ 0 := by omega
      have hN0 : numBestSeqs > 0 := hN
      generalize runBatch numBestSeqs kArg scores = st at ih
      have hlen := pqPush_length st.bestScores s
      simp only [narrowStep, hN0, hs0, if_true]
      by_cases hgt : ((pqPush st.bestScores s).length : Int) > numBestSeqs
      · simp only [hgt, if_true]
        by_cases hfull : ((pqPop (pqPush st.bestScores s)).length : Int) = numBestSeqs
        · simp only [hfull, if_true]
          cases htop : pqTop (pqPop (pqPush st.bestScores s)) with
          | none =>
            simp only [pqTop, List.head?_eq_none_iff] at htop
            rw [htop] at hfull
            simp at hfull
            omega
          | some top => simp [hfull, htop]
        · simp only [hfull, if_false]
          rw [ih]
          have : ¬ ((st.bestScores.length : Int) = numBestSeqs) := by
            intro h
            apply hfull
            rw [pqPop, List.length_tail, hlen]
            simp [h]
          simp [this]
      · simp only [hgt, if_false]
        by_cases hfull : ((pqPush st.bestScores s).length : Int) = numBestSeqs
        · simp only [hfull, if_true]
          cases htop : pqTop (pqPush st.bestScores s) with
          | none =>
            simp only [pqTop, List.head?_eq_none_iff] at htop
            rw [htop] at hfull
            simp at hfull
            omega
          | some top => simp [hfull, htop]
        · simp only [hfull, if_false]
          rw [ih]
          have : ¬ ((st.bestScores.length : Int) = numBestSeqs) := by
            rw [hlen] at hgt
            push_cast at hgt
            omega
          simp [this]
theorem runBatch_length (n : Nat) (kArg : Int) (hn : 0 < n) (scores : List Int) :
    (runBatch n kArg scores).bestScores.length = min n (validScores scores).length := by
  rw [runBatch_queue n kArg hn, List.length_reverse, smallest, List.length_take,
    List.length_insertionSort]

theorem runBatch_k_le (numBestSeqs kArg : Int) (hk : 0 ≤ kArg) (scores : List Int) :
    (runBatch numBestSeqs kArg scores).k ≤ kArg := by
  by_cases hN : 0 < numBestSeqs
  · rw [runBatch_k numBestSeqs kArg hN]
    have key : ∀ top : Int, narrowedBound kArg top ≤ kArg := by
      intro top
      unfold narrowedBound
      by_cases h : kArg ≥ 0 ∧ kArg < top - 1
      · rw [if_pos h]
      · rw [if_neg h]
        have : ¬ (kArg < top - 1) := fun h2 => h ⟨hk, h2⟩
        omega
    split
    · split
      · exact key _
      · exact le_refl _
    · exact le_refl _
  · rw [runBatch_disabled numBestSeqs kArg (by omega)]

/-- Claim C5, at the input where the code departs from it: with `numBestSeqs = 1`
and no explicit bound, the engine scores 3, 0, 0 give the bounds -1 (unbounded) for
the first query, 2 for the second and -1 (unbounded again) for the third: the
bound handed to the engine grows from 2 to unbounded, because `top - 1` is -1 when
the maximum of the queue is 0. -/
theorem boundAt_unbounded_after_zero :
    (List.range 3).map (boundAt 1 (-1) [3, 0, 0]) = [-1, 2, -1] := by
  decide

/-- Claim C6 as stated fails: with `numBestSeqs = 1` and the explicit bound
`kArg = 5`, after a first query of score 2 the second query is run with `k = 1`,
which is below `kArg`. -/
theorem boundAt_below_kArg : ¬ ((5 : Int) ≤ boundAt 1 5 [2, 7] 1) := by
  decide

/-- Claim C6, amended: with `numBestSeqs > 0` and an explicit bound `kArg ≥ 0`,
`kArg` is a ceiling of the bound, not a floor: the first query is run with
`k = kArg`; at every query a bound `k ≥ 0` handed to the engine is at most `kArg`;
the bound is `kArg` as long as the queue does not hold `numBestSeqs` scores; and once
the queue holds `numBestSeqs` scores with a maximum `m ≥ 1`, the bound is the smaller
of `m - 1` and `kArg`, which is at least 0, at most `kArg`, and below `kArg` exactly
when `m - 1 < kArg`. -/
theorem boundAt_le_kArg (numBestSeqs kArg : Int) (hN : 0 < numBestSeqs) (hk : 0 ≤ kArg)
    (scores : List Int) (i : Nat) :
    boundAt numBestSeqs kArg scores 0 = kArg ∧
      (0 ≤ boundAt numBestSeqs kArg scores i → boundAt numBestSeqs kArg scores i ≤ kArg) ∧
      (((runBatch numBestSeqs kArg (scores.take i)).bestScores.length : Int) ≠ numBestSeqs →
        boundAt numBestSeqs kArg scores i = kArg) ∧
      (∀ m : Int,
        ((runBatch numBestSeqs kArg (scores.take i)).bestScores.length : Int) = numBestSeqs →
        pqTop (runBatch numBestSeqs kArg (scores.take i)).bestScores = some m → 1 ≤ m →
        boundAt numBestSeqs kArg scores i = min (m - 1) kArg ∧
        0 ≤ boundAt numBestSeqs kArg scores i ∧
        boundAt numBestSeqs kArg scores i ≤ kArg ∧
        (m - 1 < kArg ↔ boundAt numBestSeqs kArg scores i < kArg)) := by
  refine ⟨by simp [boundAt, runBatch], fun _ => runBatch_k_le numBestSeqs kArg hk _, ?_, ?_⟩
  · intro hlen
    unfold boundAt
    rw [runBatch_k numBestSeqs kArg hN, if_neg hlen]
  · intro m hlen htop hm
    have hkm : boundAt numBestSeqs kArg scores i = narrowedBound kArg m := by
      unfold boundAt
      rw [runBatch_k numBestSeqs kArg hN, if_pos hlen, htop]
    rw [hkm]
    unfold narrowedBound
    by_cases h : kArg ≥ 0 ∧ kArg < m - 1
    · rw [if_pos h]
      have h2 := h.2
      refine ⟨by rw [min_eq_right (by omega)], hk, le_refl _, ?_⟩
      constructor <;> intro h3 <;> omega
    · rw [if_neg h]
      have h2 : ¬ (kArg < m - 1) := fun h2 => h ⟨hk, h2⟩
      refine ⟨by rw [min_eq_left (by omega)], by omega, by omega, ?_⟩
      constructor <;> intro h3 <;> omega

/-- Witness for the amended C6: the batch of the counterexample, at its second query:
the queue is full with maximum 2, and the bound is 1, the smaller of 2 - 1 and 5. -/
theorem boundAt_le_kArg_witness :
    boundAt 1 5 [2, 7] 1 = min (2 - 1) 5 ∧ 0 ≤ boundAt 1 5 [2, 7] 1 ∧
      boundAt 1 5 [2, 7] 1 ≤ 5 ∧ ((2 : Int) - 1 < 5 ↔ boundAt 1 5 [2, 7] 1 < 5) :=
  (boundAt_le_kArg 1 5 (by decide) (by decide) [2, 7] 1).2.2.2 2 (by decide) (by decide)
    (by decide)

/-- Claim C7: with `numBestSeqs > 0`, let `s` be the score of the query that follows
the queries with scores `scores`. If `s` is valid it is pushed and the maximum is
evicted when the queue then has more than `numBestSeqs` entries; if the queue then
holds exactly `numBestSeqs` entries with maximum `m`, the next bound is `m - 1` when
no explicit bound was given (`kArg < 0`) or `m - 1 ≤ kArg`, and `kArg` when
`0 ≤ kArg < m - 1`; if the queue holds fewer than `numBestSeqs` entries, or `s` is
a sentinel, `k` is unchanged. With `numBestSeqs = 2` and no explicit bound, from the
second valid score on the bound is the larger of the two kept scores minus one. -/
theorem narrowing_bound (numBestSeqs kArg : Int) (hN : 0 < numBestSeqs)
    (scores : List Int) (s : Int) :
    (0 ≤ s →
      (runBatch numBestSeqs kArg (scores ++ [s])).bestScores =
        if ((pqPush (runBatch numBestSeqs kArg scores).bestScores s).length : Int) >
            numBestSeqs
        then pqPop (pqPush (runBatch numBestSeqs kArg scores).bestScores s)
        else pqPush (runBatch numBestSeqs kArg scores).bestScores s) ∧
    (0 ≤ s →
      ((runBatch numBestSeqs kArg (scores ++ [s])).bestScores.length : Int) = numBestSeqs →
      ∃ m, pqTop (runBatch numBestSeqs kArg (scores ++ [s])).bestScores = some m ∧
        (∀ x ∈ (runBatch numBestSeqs kArg (scores ++ [s])).bestScores, x ≤ m) ∧
        (kArg < 0 ∨ m - 1 ≤ kArg → (runBatch numBestSeqs kArg (scores ++ [s])).k = m - 1) ∧
        (0 ≤ kArg ∧ kArg < m - 1 → (runBatch numBestSeqs kArg (scores ++ [s])).k = kArg)) ∧
    (((runBatch numBestSeqs kArg (scores ++ [s])).bestScores.length : Int) < numBestSeqs →
      (runBatch numBestSeqs kArg (scores ++ [s])).k = (runBatch numBestSeqs kArg scores).k) ∧
    (s < 0 → runBatch numBestSeqs kArg (scores ++ [s]) = runBatch numBestSeqs kArg scores) ∧
    (numBestSeqs = 2 → kArg < 0 → 2 ≤ (validScores scores).length →
      ∃ m m1, (runBatch numBestSeqs kArg scores).bestScores = [m, m1] ∧ m1 ≤ m ∧
        (runBatch numBestSeqs kArg scores).k = m - 1) := by
  obtain ⟨n, rfl⟩ := Int.eq_ofNat_of_zero_le (le_of_lt hN)
  have hn : 0 < n := by exact_mod_cast hN
  refine ⟨?_, ?_, ?_, ?_, ?_⟩
  · intro hs
    have hs0 : s ≥ 0 := hs
    have hN0 : (n : Int) > 0 := hN
    rw [runBatch_snoc]
    simp only [narrowStep, hN0, hs0, if_true]
    by_cases hgt : ((pqPush (runBatch n kArg scores).bestScores s).length : Int) > n
    · simp only [hgt, if_true]
      split
      · split <;> rfl
      · rfl
    · simp only [hgt, if_false]
      split
      · split <;> rfl
      · rfl
  · intro _ hfull
    have hk := runBatch_k n kArg hN (scores ++ [s])
    rw [if_pos hfull] at hk
    cases htop : pqTop (runBatch n kArg (scores ++ [s])).bestScores with
    | none =>
      simp only [pqTop, List.head?_eq_none_iff] at htop
      rw [htop] at hfull
      simp at hfull
      omega
    | some m =>
      rw [htop] at hk
      simp only at hk
      refine ⟨m, rfl, (pqTop_max _ (runBatch_sorted n kArg hn _) m htop).2, ?_, ?_⟩
      · intro h
        rw [hk, narrowedBound]
        split <;> omega
      · intro h
        rw [hk, narrowedBound, if_pos ⟨h.1, h.2⟩]
  · intro hlt
    have hk := runBatch_k n kArg hN (scores ++ [s])
    rw [if_neg (by omega)] at hk
    have hk0 := runBatch_k n kArg hN scores
    have h1 := runBatch_length n kArg hn (scores ++ [s])
    have h0 := runBatch_length n kArg hn scores
    have hv : (validScores scores).length ≤ (validScores (scores ++ [s])).length := by
      simp only [validScores, List.filter_append, List.length_append]; omega
    rw [if_neg (by omega)] at hk0
    rw [hk, hk0]
  · intro hs
    rw [runBatch_snoc, narrowStep_invalid _ _ _ _ hs]
  · intro h2 hkArg hv
    have hn2 : n = 2 := by exact_mod_cast h2
    subst hn2
    have hlen := runBatch_length 2 kArg hn scores
    have hsorted := runBatch_sorted 2 kArg hn scores
    have hk := runBatch_k ((2 : Nat) : Int) kArg hN scores
    rw [min_eq_left hv] at hlen
    rw [if_pos (by rw [hlen])] at hk
    match hq : (runBatch ((2 : Nat) : Int) kArg scores).bestScores, hlen with
    | [m, m1], _ =>
      rw [hq] at hsorted hk
      refine ⟨m, m1, rfl, ?_, ?_⟩
      · exact List.rel_of_sorted_cons hsorted m1 (List.mem_cons_self _ _)
      · rw [hk]
        simp only [pqTop, List.head?_cons, narrowedBound]
        rw [if_neg (by omega)]

/-- Witness for C7: the best two of the scores 5, -1, 3, 4, 9 and then the score 1. -/
theorem narrowing_bound_witness :
    (runBatch 2 (-1) ([5, -1, 3, 4, 9] ++ [1])).bestScores = [3, 1] ∧
    (runBatch 2 (-1) ([5, -1, 3, 4, 9] ++ [1])).k = 2 ∧
    ∃ m m1, (runBatch 2 (-1) [5, -1, 3, 4, 9]).bestScores = [m, m1] ∧ m1 ≤ m ∧
        (runBatch 2 (-1) [5, -1, 3, 4, 9]).k = m - 1 :=
  ⟨by decide, by decide,
   (narrowing_bound 2 (-1) (by decide) [5, -1, 3, 4, 9] 1).2.2.2.2 rfl (by decide) (by decide)⟩
/-! ## Theorems: FASTA loader -/

theorem foldlM_bind_some (st : Option LoaderState) : st.bind some = st := by
  cases st <;> rfl

/-- The read loop never runs out of fuel: it walks every byte of the file once, in
order, whatever the buffer size. -/
theorem readLoop_eq_foldlM :
    ∀ (fuel : Nat) (st : LoaderState) (bytes : List Nat), bytes.length < fuel →
      readLoop fuel st bytes = bytes.foldlM processByte st := by
  intro fuel
  induction fuel with
  | zero => intro st bytes h; omega
  | succ fuel ih =>
    intro st bytes h
    rw [readLoop]
    by_cases hshort : (bytes.take buffSize).length < buffSize
    · have hall : bytes.take buffSize = bytes := by
        apply List.take_of_length_le
        rw [List.length_take] at hshort
        omega
      rw [hall] at hshort ⊢
      simp only [hshort, if_true]
      exact foldlM_bind_some _
    · simp only [hshort, if_false]
      have hlen : buffSize ≤ bytes.length := by
        rw [List.length_take] at hshort
        omega
      have hb : 0 < buffSize := by decide
      conv_rhs => rw [← List.take_append_drop buffSize bytes, List.foldlM_append]
      congr 1
      funext st1
      exact ih st1 _ (by rw [List.length_drop]; omega)

theorem letters_length (a : Alphabet) : a.letters.length = a.alphabetLength := by
  simp [Alphabet.letters]

theorem mem_letters (a : Alphabet) (c : Nat) :
    c ∈ a.letters ↔ ∃ k, k < a.alphabetLength ∧ a.idxToLetter k = c := by
  simp [Alphabet.letters]

theorem emptyAlphabet_wellFormed (letterIdx idxToLetter : Nat → Nat) :
    (emptyAlphabet letterIdx idxToLetter).WellFormed := by
  simp [Alphabet.WellFormed, Alphabet.letters, emptyAlphabet]

theorem nodup_length_le (l : List Nat) (n : Nat) (hnd : l.Nodup) (hlt : ∀ x ∈ l, x < n) :
    l.length ≤ n := by
  have h1 : l.toFinset ⊆ Finset.range n := by
    intro x hx
    simp only [List.mem_toFinset] at hx
    simpa using hlt x hx
  have h2 := Finset.card_le_card h1
  rwa [List.toFinset_card_of_nodup hnd, Finset.card_range] at h2

theorem wellFormed_room (a : Alphabet) (ha : a.WellFormed) (c : Nat) (hc : c < 128)
    (hnot : a.inAlphabet c = false) : a.alphabetLength < 128 := by
  obtain ⟨hnd, hlt, hmem, _⟩ := ha
  have hcl : c ∉ a.letters := by
    intro h
    have := (hmem c).mpr h
    rw [hnot] at this
    exact Bool.false_ne_true this
  have := nodup_length_le (c :: a.letters) 128 (List.nodup_cons.mpr ⟨hcl, hnd⟩)
    (by
      intro x hx
      rcases List.mem_cons.mp hx with h | h
      · omega
      · exact hlt x h)
  rw [List.length_cons, letters_length] at this
  omega

theorem extends_refl (a : Alphabet) : a.Extends a :=
  ⟨le_refl _, fun _ _ => rfl, fun _ h => ⟨h, rfl⟩⟩

theorem extends_trans (a b c : Alphabet) (hab : a.Extends b) (hbc : b.Extends c) :
    a.Extends c := by
  obtain ⟨h1, h2, h3⟩ := hab
  obtain ⟨g1, g2, g3⟩ := hbc
  refine ⟨le_trans h1 g1, ?_, ?_⟩
  · intro i hi
    rw [g2 i (by omega), h2 i hi]
  · intro x hx
    obtain ⟨hb, hbi⟩ := h3 x hx
    obtain ⟨hcm, hci⟩ := g3 x hb
    exact ⟨hcm, by rw [hci, hbi]⟩
theorem wellFormed_index (a : Alphabet) (ha : a.WellFormed) (c : Nat)
    (hin : a.inAlphabet c = true) :
    a.letterIdx c < a.alphabetLength ∧ a.idxToLetter (a.letterIdx c) = c := by
  obtain ⟨_, _, hmem, hidx⟩ := ha
  obtain ⟨k, hk, hkc⟩ := (mem_letters a c).mp ((hmem c).mp hin)
  have := hidx k hk
  rw [hkc] at this
  rw [this]
  exact ⟨hk, hkc⟩

/-- One symbol entered into a well-formed alphabet: the call succeeds, the alphabet
stays well formed and keeps what it had assigned, and the symbol is appended to the
letters unless it was among them. -/
theorem addLetter_spec (a : Alphabet) (ha : a.WellFormed) (c : Nat) (hc : c < 128) :
    ∃ b, addLetter a c = some b ∧ b.WellFormed ∧ a.Extends b ∧
      b.letters = addFirst a.letters c ∧ b.inAlphabet c = true ∧
      b.letterIdx c < b.alphabetLength ∧ b.idxToLetter (b.letterIdx c) = c := by
  by_cases hin : a.inAlphabet c = true
  · have hmem : c ∈ a.letters := (ha.2.2.1 c).mp hin
    obtain ⟨h1, h2⟩ := wellFormed_index a ha c hin
    exact ⟨a, by simp [addLetter, alphabetCapacity, hc, hin], ha, extends_refl a,
      by simp [addFirst, hmem], hin, h1, h2⟩
  · have hin0 : a.inAlphabet c = false := by simpa using hin
    have hroom := wellFormed_room a ha c hc hin0
    obtain ⟨hnd, hlt, hmem, hidx⟩ := ha
    have hcl : c ∉ a.letters := fun h => hin ((hmem c).mpr h)
    have hmod : a.alphabetLength % 256 = a.alphabetLength := Nat.mod_eq_of_lt (by omega)
    have hletters :
        (Alphabet.mk (Function.update a.letterIdx c (a.alphabetLength % 256))
          (Function.update a.idxToLetter a.alphabetLength c)
          (Function.update a.inAlphabet c true) (a.alphabetLength + 1)).letters =
        a.letters ++ [c] := by
      simp only [Alphabet.letters, List.range_succ, List.map_append, List.map_cons,
        List.map_nil, Function.update_same]
      congr 1
      apply List.map_congr_left
      intro i hi
      have : i ≠ a.alphabetLength := by
        have := List.mem_range.mp hi
        omega
      simp [Function.update_noteq this]
    refine ⟨Alphabet.mk (Function.update a.letterIdx c (a.alphabetLength % 256))
        (Function.update a.idxToLetter a.alphabetLength c)
        (Function.update a.inAlphabet c true) (a.alphabetLength + 1),
      by simp [addLetter, alphabetCapacity, hc, hin0, hroom], ?_, ?_, ?_, ?_, ?_, ?_⟩
    · refine ⟨?_, ?_, ?_, ?_⟩
      · rw [hletters]
        exact List.Nodup.append hnd (List.nodup_singleton c) (by simpa using hcl)
      · rw [hletters]
        intro x hx
        rcases List.mem_append.mp hx with h | h
        · exact hlt x h
        · simp at h; omega
      · intro x
        rw [hletters]
        by_cases hx : x = c
        · subst hx; simp
        · simp [Function.update_noteq hx, hmem x, hx]
      · intro k hk
        have hk1 : k < a.alphabetLength + 1 := hk
        show Function.update a.letterIdx c (a.alphabetLength % 256)
          (Function.update a.idxToLetter a.alphabetLength c k) = k
        by_cases hkl : k = a.alphabetLength
        · rw [hkl, Function.update_same, Function.update_same, hmod]
        · have hk2 : k < a.alphabetLength := by omega
          have hmemk : a.idxToLetter k ∈ a.letters := (mem_letters a _).mpr ⟨k, hk2, rfl⟩
          have hne : a.idxToLetter k ≠ c := fun h => hcl (h ▸ hmemk)
          rw [Function.update_noteq hkl, Function.update_noteq hne, hidx k hk2]
    · refine ⟨Nat.le_succ _, ?_, ?_⟩
      · intro i hi
        have : i ≠ a.alphabetLength := by omega
        simp [Function.update_noteq this]
      · intro x hx
        have hne : x ≠ c := by
          intro h
          rw [h] at hx
          exact hin hx
        simp [Function.update_noteq hne, hx]
    · rw [hletters]; simp [addFirst, hcl]
    · simp
    · show Function.update a.letterIdx c (a.alphabetLength % 256) c < a.alphabetLength + 1
      rw [Function.update_same, hmod]
      exact Nat.lt_succ_self _
    · show Function.update a.idxToLetter a.alphabetLength c
        (Function.update a.letterIdx c (a.alphabetLength % 256) c) = c
      rw [Function.update_same, hmod, Function.update_same]
theorem pushBackLast_concat (init : List (List Nat)) (last : List Nat) (x : Nat) :
    pushBackLast (init ++ [last]) x = some (init ++ [last ++ [x]]) := by
  simp [pushBackLast, List.getLast?_concat]

theorem pushBackLast_nil (x : Nat) : pushBackLast [] x = none := rfl

theorem exists_concat_of_ne_nil (seqs : List (List Nat)) (h : seqs ≠ []) :
    ∃ init last, seqs = init ++ [last] :=
  ⟨seqs.dropLast, seqs.getLast h, (List.dropLast_append_getLast h).symm⟩

theorem decode_congr (a b : Alphabet) (hab : a.Extends b) (seq : List Nat)
    (hseq : ∀ x ∈ seq, x < a.alphabetLength) : decode b seq = decode a seq := by
  unfold decode
  apply List.map_congr_left
  intro x hx
  exact hab.2.1 x (hseq x hx)

theorem map_decode_congr (a b : Alphabet) (hab : a.Extends b) (seqs : List (List Nat))
    (hseqs : ∀ seq ∈ seqs, ∀ x ∈ seq, x < a.alphabetLength) :
    seqs.map (decode b) = seqs.map (decode a) := by
  apply List.map_congr_left
  intro seq hseq
  exact decode_congr a b hab seq (hseqs seq hseq)

/-- One byte: the loader does not leave the defined behaviour and stays in step
with the alphabet-free walk. -/
theorem processByte_simulates (a0 : Alphabet) (st : LoaderState) (s : ScanState)
    (hsim : Simulates a0 st s) (c : Nat) (hc : c < 128) :
    ∃ st1, processByte st c = some st1 ∧ Simulates a0 st1 (scanByte s c) := by
  obtain ⟨hH, hS, hwf, hext, hdec, hlt, hne, hlet⟩ := hsim
  unfold processByte scanByte
  rw [← hH, ← hS]
  by_cases h1 : st.inHeader = true
  · simp only [h1, if_true]
    by_cases h10 : c = 10
    · simp only [h10, if_true]
      exact ⟨_, rfl, rfl, rfl, hwf, hext, hdec, hlt, fun h => hne (hS ▸ h), hlet⟩
    · simp only [h10, if_false]
      exact ⟨_, rfl, hH, hS, hwf, hext, hdec, hlt, hne, hlet⟩
  · simp only [h1, if_false]
    by_cases h62 : c = 62
    · simp only [h62, if_true]
      refine ⟨_, rfl, rfl, rfl, hwf, hext, hdec, hlt, ?_, hlet⟩
      intro h; simp at h
    · simp only [h62, if_false]
      by_cases hnl : c = 13 ∨ c = 10
      · simp only [hnl, if_true]
        exact ⟨_, rfl, hH, hS, hwf, hext, hdec, hlt, hne, hlet⟩
      · simp only [hnl, if_false]
        obtain ⟨b, hb, hbwf, hbext, hblet, _, hbidx, hbinv⟩ := addLetter_spec st.alphabet hwf c hc
        have hne1 : (if st.inSequence = true then st.seqs else st.seqs ++ [[]]) ≠ [] := by
          by_cases hs : st.inSequence = true
          · simp only [hs, if_true]
            intro h
            apply hne (hS ▸ hs)
            rw [← hdec, h]; rfl
          · simp [hs]
        obtain ⟨init, last, hil⟩ := exists_concat_of_ne_nil _ hne1
        have hlt1 : ∀ seq ∈ init ++ [last], ∀ x ∈ seq, x < st.alphabet.alphabetLength := by
          rw [← hil]
          intro seq hseq x hx
          by_cases hs : st.inSequence = true
          · simp only [hs, if_true] at hseq
            exact hlt seq hseq x hx
          · simp only [hs] at hseq
            rcases List.mem_append.mp hseq with h | h
            · exact hlt seq h x hx
            · simp at h; subst h; simp at hx
        have hrec : (if st.inSequence = true then s.records else s.records ++ [[]]) =
            (init ++ [last]).map (decode b) := by
          rw [map_decode_congr _ b hbext _ hlt1, ← hil, ← hdec]
          by_cases hs : st.inSequence = true
          · simp [hs]
          · simp [hs, decode]
        rw [hb, hil, hrec]
        simp only [Option.bind_some, pushBackLast_concat, Option.map_some', List.map_append,
          List.map_cons, List.map_nil, Option.getD_some]
        have hflat : (List.map (decode b) init ++ [decode b last ++ [c]]).flatten =
            s.records.flatten ++ [c] := by
          have := congrArg List.flatten hrec
          simp only [List.map_append, List.map_cons, List.map_nil, List.flatten_append,
            List.flatten_cons, List.flatten_nil, List.append_nil] at this ⊢
          rw [← List.append_assoc, ← this]
          by_cases hs : st.inSequence = true <;> simp [hs]
        refine ⟨_, rfl, rfl, rfl, hbwf, extends_trans _ _ _ hext hbext, ?_, ?_, ?_, ?_⟩
        · simp [decode, hbinv]
        · intro seq hseq x hx
          rcases List.mem_append.mp hseq with h | h
          · exact lt_of_lt_of_le (hlt1 seq (List.mem_append_left _ h) x hx) hbext.1
          · simp only [List.mem_singleton] at h
            subst h
            rcases List.mem_append.mp hx with h2 | h2
            · exact lt_of_lt_of_le (hlt1 last (by simp) x h2) hbext.1
            · simp only [List.mem_singleton] at h2
              subst h2
              exact hbidx
        · intro _; simp
        · show b.letters = List.foldl addFirst a0.letters
            (List.map (decode b) init ++ [decode b last ++ [c]]).flatten
          rw [hflat, List.foldl_append, ← hlet, hblet]
          rfl
theorem foldlM_simulates (a0 : Alphabet) :
    ∀ (bytes : List Nat) (st : LoaderState) (s : ScanState), Simulates a0 st s →
      (∀ c ∈ bytes, c < 128) →
      ∃ st1, bytes.foldlM processByte st = some st1 ∧
        Simulates a0 st1 (bytes.foldl scanByte s) := by
  intro bytes
  induction bytes with
  | nil => intro st s hsim _; exact ⟨st, rfl, hsim⟩
  | cons c cs ih =>
    intro st s hsim hlt
    obtain ⟨st1, h1, hsim1⟩ :=
      processByte_simulates a0 st s hsim c (hlt c (List.mem_cons_self _ _))
    obtain ⟨st2, h2, hsim2⟩ := ih st1 (scanByte s c) hsim1
      (fun x hx => hlt x (List.mem_cons_of_mem _ hx))
    refine ⟨st2, ?_, hsim2⟩
    rw [List.foldlM_cons, h1]
    exact h2

/-- The records of a file as the alphabet-free walk collects them. -/
theorem simulates_init (a : Alphabet) (ha : a.WellFormed) :
    Simulates a ⟨[], a, false, false⟩ ⟨[], false, false⟩ :=
  ⟨rfl, rfl, ha, extends_refl a, rfl, by simp, by simp, rfl⟩

/-- A file whose bytes are below 128, read against a well-formed alphabet: the
call returns 0, and its result is in step with the alphabet-free walk. -/
theorem readFastaSequences_simulates (a : Alphabet) (ha : a.WellFormed) (bytes : List Nat)
    (hlt : ∀ c ∈ bytes, c < 128) :
    ∃ r, readFastaSequences (some bytes) a = some r ∧ r.status = 0 ∧
      Simulates a ⟨r.seqs, r.alphabet, (bytes.foldl scanByte ⟨[], false, false⟩).inHeader,
        (bytes.foldl scanByte ⟨[], false, false⟩).inSequence⟩
        (bytes.foldl scanByte ⟨[], false, false⟩) := by
  obtain ⟨st, hst, hsim⟩ := foldlM_simulates a bytes _ _ (simulates_init a ha) hlt
  refine ⟨⟨0, st.seqs, st.alphabet⟩, ?_, rfl, ?_⟩
  · simp only [readFastaSequences]
    rw [readLoop_eq_foldlM _ _ _ (Nat.lt_succ_self _), hst]
    rfl
  · obtain ⟨h1, h2, h3, h4, h5, h6, h7, h8⟩ := hsim
    exact ⟨rfl, rfl, h3, h4, h5, h6, h7, h8⟩

theorem foldl_addFirst (syms : List Nat) :
    ∀ l : List Nat, syms.foldl addFirst l =
      l ++ (firstAppearances syms).filter (fun x => decide (x ∉ l)) := by
  induction syms with
  | nil => intro l; simp [firstAppearances]
  | cons c cs ih =>
    intro l
    rw [List.foldl_cons, ih, firstAppearances]
    by_cases hc : c ∈ l
    · simp only [addFirst, hc, if_true, List.filter_cons, not_true_eq_false, decide_False,
        Bool.false_eq_true, if_false, List.filter_filter]
      congr 1
      apply List.filter_congr
      intro x _
      by_cases hx : x ∈ l
      · simp [hx]
      · have : x ≠ c := fun h => hx (h ▸ hc)
        simp [hx, this]
    · simp only [addFirst, hc, if_false, List.filter_cons, not_false_eq_true, decide_True,
        if_true, List.filter_filter, List.append_assoc, List.singleton_append]
      congr 2
      apply List.filter_congr
      intro x _
      by_cases hx : x ∈ l
      · simp [hx]
      · by_cases hxc : x = c
        · simp [hxc]
        · simp [hx, hxc]

theorem foldl_addFirst_nil (syms : List Nat) :
    syms.foldl addFirst [] = firstAppearances syms := by
  rw [foldl_addFirst]; simp

theorem scanByte_keeps (s : ScanState) (c : Nat)
    (hs : s.inSequence = true → s.records ≠ []) :
    (scanByte s c).inSequence = true → (scanByte s c).records ≠ [] := by
  unfold scanByte
  by_cases h1 : s.inHeader = true
  · by_cases h10 : c = 10 <;> simp [h1, h10] <;> exact hs
  · by_cases h62 : c = 62
    · simp [h1, h62]
    · by_cases hnl : c = 13 ∨ c = 10
      · simp only [h1, h62, hnl, if_true, if_false]
        exact hs
      · simp only [h1, h62, hnl, if_false]
        intro _
        have hne1 : (if s.inSequence = true then s.records else s.records ++ [[]]) ≠ [] := by
          by_cases hq : s.inSequence = true
          · simp only [hq, if_true]; exact hs hq
          · simp [hq]
        obtain ⟨init, last, hil⟩ := exists_concat_of_ne_nil _ hne1
        rw [hil, pushBackLast_concat]
        simp

/-- The records of the alphabet-free walk, concatenated, are the symbol stream of
the file. -/
theorem scan_flatten :
    ∀ (bytes : List Nat) (s : ScanState), (s.inSequence = true → s.records ≠ []) →
      (bytes.foldl scanByte s).records.flatten =
        s.records.flatten ++ symbolStream s.inHeader bytes := by
  intro bytes
  induction bytes with
  | nil => intro s _; cases s.inHeader <;> simp [symbolStream]
  | cons c cs ih =>
    intro s hs
    rw [List.foldl_cons, ih _ (scanByte_keeps s c hs)]
    unfold scanByte
    by_cases h1 : s.inHeader = true
    · by_cases h10 : c = 10
      · simp [h1, h10, symbolStream]
      · have hb : (c != 10) = true := by simp [h10]
        simp [h1, h10, symbolStream, hb]
    · have h1f : s.inHeader = false := by simpa using h1
      by_cases h62 : c = 62
      · simp [h1f, h62, symbolStream]
      · by_cases hnl : c = 13 ∨ c = 10
        · have : isSymbol c = false := by
            rcases hnl with h | h <;> simp [isSymbol, h]
          simp [h1f, h62, hnl, symbolStream, this]
        · have hsym : isSymbol c = true := by
            simp only [not_or] at hnl
            simp [isSymbol, hnl.1, hnl.2]
          simp only [h1f, h62, hnl, if_false, symbolStream, hsym, if_true, Bool.false_eq_true]
          have hne1 : (if s.inSequence = true then s.records else s.records ++ [[]]) ≠ [] := by
            by_cases hq : s.inSequence = true
            · simp only [hq, if_true]; exact hs hq
            · simp [hq]
          obtain ⟨init, last, hil⟩ := exists_concat_of_ne_nil _ hne1
          have hfl := congrArg List.flatten hil
          rw [hil, pushBackLast_concat]
          have hfl2 : s.records.flatten = init.flatten ++ last := by
            by_cases hq : s.inSequence = true
            · simp only [hq, if_true] at hfl; rw [hfl]; simp
            · simp only [hq] at hfl; simpa using hfl
          simp [hfl2]
theorem readFastaSequences_letters (a : Alphabet) (ha : a.WellFormed) (bytes : List Nat)
    (hlt : ∀ c ∈ bytes, c < 128) :
    ∃ r, readFastaSequences (some bytes) a = some r ∧ r.alphabet.WellFormed ∧
      a.Extends r.alphabet ∧
      r.alphabet.letters = (symbolStream false bytes).foldl addFirst a.letters := by
  obtain ⟨r, hr, _, hsim⟩ := readFastaSequences_simulates a ha bytes hlt
  obtain ⟨_, _, hwf, hext, _, _, _, hlet⟩ := hsim
  refine ⟨r, hr, hwf, hext, ?_⟩
  have := scan_flatten bytes ⟨[], false, false⟩ (by simp)
  simp only [List.flatten_nil, List.nil_append] at this
  rw [← this]
  exact hlet

theorem readFiles_letters :
    ∀ (files : List (List Nat)) (a : Alphabet), a.WellFormed →
      (∀ f ∈ files, ∀ b ∈ f, b < 128) →
      ∃ b, readFiles a files = some b ∧ b.WellFormed ∧ a.Extends b ∧
        b.letters = ((files.map (symbolStream false)).flatten).foldl addFirst a.letters := by
  intro files
  induction files with
  | nil => intro a ha _; exact ⟨a, rfl, ha, extends_refl a, rfl⟩
  | cons f fs ih =>
    intro a ha hlt
    obtain ⟨r, hr, hwf, hext, hlet⟩ :=
      readFastaSequences_letters a ha f (hlt f (List.mem_cons_self _ _))
    obtain ⟨b, hb, hbwf, hbext, hblet⟩ := ih r.alphabet hwf
      (fun g hg => hlt g (List.mem_cons_of_mem _ hg))
    refine ⟨b, ?_, hbwf, extends_trans _ _ _ hext hbext, ?_⟩
    · rw [readFiles, hr]; exact hb
    · rw [hblet, hlet, List.map_cons, List.flatten_cons, List.foldl_append]

theorem wellFormed_at (a : Alphabet) (ha : a.WellFormed) (k c : Nat)
    (hk : a.letters[k]? = some c) :
    a.letterIdx c = k ∧ a.idxToLetter k = c ∧ a.inAlphabet c = true := by
  have hklt : k < a.alphabetLength := by
    have := (List.getElem?_eq_some_iff.mp hk).1
    rwa [letters_length] at this
  have hkc : a.idxToLetter k = c := by
    simpa [Alphabet.letters, List.getElem?_map, List.getElem?_range hklt] using hk
  refine ⟨?_, hkc, ?_⟩
  · rw [← hkc]; exact ha.2.2.2 k hklt
  · exact (ha.2.2.1 c).mpr (List.getElem?_mem hk)

/-- Claim C8: for files whose bytes are below 128, read one after the other by
`readFastaSequences` against one alphabet that starts empty, every call succeeds
and in the final alphabet the `k`-th distinct sequence symbol in the order of first
appearance across all the files has index `k`: `letterIdx` maps it to `k`,
`idxToLetter[k]` is that symbol, `alphabetLength` is the number of distinct symbols
and `inAlphabet` holds for exactly these symbols. At each step a symbol that is not
in the alphabet receives the current `alphabetLength` as its index, `idxToLetter` at
that index becomes the symbol and `alphabetLength` grows by one. -/
theorem alphabet_first_appearance (files : List (List Nat))
    (hbytes : ∀ f ∈ files, ∀ b ∈ f, b < 128) (letterIdx0 idxToLetter0 : Nat → Nat) :
    ∃ a, readFiles (emptyAlphabet letterIdx0 idxToLetter0) files = some a ∧
      a.alphabetLength =
        (firstAppearances (files.map (symbolStream false)).flatten).length ∧
      (∀ k c : Nat, (firstAppearances (files.map (symbolStream false)).flatten)[k]? = some c →
        a.letterIdx c = k ∧ a.idxToLetter k = c ∧ a.inAlphabet c = true) ∧
      (∀ c : Nat, a.inAlphabet c = true →
        c ∈ firstAppearances (files.map (symbolStream false)).flatten) ∧
      (∀ (b : Alphabet) (c : Nat), c < 128 → b.inAlphabet c = false →
        b.alphabetLength < 128 →
        ∃ b1, addLetter b c = some b1 ∧ b1.letterIdx c = b.alphabetLength ∧
          b1.idxToLetter b.alphabetLength = c ∧
          b1.alphabetLength = b.alphabetLength + 1 ∧ b1.inAlphabet c = true) := by
  obtain ⟨a, ha, hwf, _, hlet⟩ := readFiles_letters files _
    (emptyAlphabet_wellFormed letterIdx0 idxToLetter0) hbytes
  have hl0 : (emptyAlphabet letterIdx0 idxToLetter0).letters = [] := by
    simp [Alphabet.letters, emptyAlphabet]
  rw [hl0, foldl_addFirst_nil] at hlet
  refine ⟨a, ha, ?_, ?_, ?_, ?_⟩
  · rw [← hlet, letters_length]
  · intro k c hk
    rw [← hlet] at hk
    exact wellFormed_at a hwf k c hk
  · intro c hc
    rw [← hlet]
    exact (hwf.2.2.1 c).mp hc
  · intro b c hc hin hroom
    have hmod : b.alphabetLength % 256 = b.alphabetLength := Nat.mod_eq_of_lt (by omega)
    refine ⟨Alphabet.mk (Function.update b.letterIdx c (b.alphabetLength % 256))
        (Function.update b.idxToLetter b.alphabetLength c)
        (Function.update b.inAlphabet c true) (b.alphabetLength + 1),
      by simp [addLetter, alphabetCapacity, hc, hin, hroom], ?_, ?_, rfl, ?_⟩
    · show Function.update b.letterIdx c (b.alphabetLength % 256) c = b.alphabetLength
      rw [Function.update_same, hmod]
    · show Function.update b.idxToLetter b.alphabetLength c b.alphabetLength = c
      rw [Function.update_same]
    · show Function.update b.inAlphabet c true c = true
      rw [Function.update_same]

/-- Witness for C8: a query file with the sequence ACGA and a target file with the
sequence TCA; the letters come out in the order A, C, G, T. -/
theorem alphabet_first_appearance_witness :
    ∃ a, readFiles (emptyAlphabet (fun _ => 0) (fun _ => 0))
        [[62, 113, 10, 65, 67, 71, 65, 10], [62, 116, 10, 84, 67, 65, 10]] = some a ∧
      a.alphabetLength = (firstAppearances
        (([[62, 113, 10, 65, 67, 71, 65, 10], [62, 116, 10, 84, 67, 65, 10]] : List (List Nat)).map
          (symbolStream false)).flatten).length ∧
      (∀ k c : Nat, (firstAppearances
        (([[62, 113, 10, 65, 67, 71, 65, 10], [62, 116, 10, 84, 67, 65, 10]] : List (List Nat)).map
          (symbolStream false)).flatten)[k]? = some c →
        a.letterIdx c = k ∧ a.idxToLetter k = c ∧ a.inAlphabet c = true) ∧
      (∀ c : Nat, a.inAlphabet c = true → c ∈ firstAppearances
        (([[62, 113, 10, 65, 67, 71, 65, 10], [62, 116, 10, 84, 67, 65, 10]] : List (List Nat)).map
          (symbolStream false)).flatten) ∧
      (∀ (b : Alphabet) (c : Nat), c < 128 → b.inAlphabet c = false →
        b.alphabetLength < 128 →
        ∃ b1, addLetter b c = some b1 ∧ b1.letterIdx c = b.alphabetLength ∧
          b1.idxToLetter b.alphabetLength = c ∧
          b1.alphabetLength = b.alphabetLength + 1 ∧ b1.inAlphabet c = true) :=
  alphabet_first_appearance
    [[62, 113, 10, 65, 67, 71, 65, 10], [62, 116, 10, 84, 67, 65, 10]] (by decide)
    (fun _ => 0) (fun _ => 0)
theorem scan_header (recs : List (List Nat)) (b : Bool) :
    ∀ h : List Nat, 10 ∉ h → h.foldl scanByte ⟨recs, true, b⟩ = ⟨recs, true, b⟩ := by
  intro h
  induction h with
  | nil => intro _; rfl
  | cons c cs ih =>
    intro hc
    have hc10 : c ≠ 10 := fun h => hc (h ▸ List.mem_cons_self _ _)
    have hcs : 10 ∉ cs := fun h => hc (List.mem_cons_of_mem _ h)
    rw [List.foldl_cons]
    have : scanByte ⟨recs, true, b⟩ c = ⟨recs, true, b⟩ := by simp [scanByte, hc10]
    rw [this]
    exact ih hcs

theorem symbolsOf_cons (c : Nat) (d : List Nat) :
    symbolsOf (c :: d) = if isSymbol c then c :: symbolsOf d else symbolsOf d := by
  simp only [symbolsOf, List.filter_cons]

theorem isSymbol_iff (c : Nat) : isSymbol c = true ↔ ¬ (c = 13 ∨ c = 10) := by
  simp only [isSymbol, Bool.and_eq_true, bne_iff_ne, ne_eq, not_or]
  constructor
  · rintro ⟨h1, h2⟩; exact ⟨h2, h1⟩
  · rintro ⟨h1, h2⟩; exact ⟨h2, h1⟩

theorem scan_data_open (init : List (List Nat)) :
    ∀ (d last : List Nat), 62 ∉ d →
      d.foldl scanByte ⟨init ++ [last], false, true⟩ =
        ⟨init ++ [last ++ symbolsOf d], false, true⟩ := by
  intro d
  induction d with
  | nil => intro last _; simp [symbolsOf]
  | cons c cs ih =>
    intro last hd
    have hc62 : c ≠ 62 := fun h => hd (h ▸ List.mem_cons_self _ _)
    have hcs : 62 ∉ cs := fun h => hd (List.mem_cons_of_mem _ h)
    rw [List.foldl_cons, symbolsOf_cons]
    by_cases hnl : c = 13 ∨ c = 10
    · have hsym : isSymbol c = false := by
        have := (isSymbol_iff c).not.mpr (not_not.mpr hnl)
        simpa using this
      have : scanByte ⟨init ++ [last], false, true⟩ c = ⟨init ++ [last], false, true⟩ := by
        simp [scanByte, hc62, hnl]
      rw [this, ih last hcs]
      simp [hsym]
    · have hsym : isSymbol c = true := (isSymbol_iff c).mpr hnl
      have : scanByte ⟨init ++ [last], false, true⟩ c =
          ⟨init ++ [last ++ [c]], false, true⟩ := by
        simp [scanByte, hc62, hnl, pushBackLast_concat]
      rw [this, ih (last ++ [c]) hcs]
      simp [hsym]

theorem scan_data (recs : List (List Nat)) :
    ∀ d : List Nat, 62 ∉ d →
      d.foldl scanByte ⟨recs, false, false⟩ =
        if symbolsOf d = [] then ⟨recs, false, false⟩
        else ⟨recs ++ [symbolsOf d], false, true⟩ := by
  intro d
  induction d with
  | nil => intro _; simp [symbolsOf]
  | cons c cs ih =>
    intro hd
    have hc62 : c ≠ 62 := fun h => hd (h ▸ List.mem_cons_self _ _)
    have hcs : 62 ∉ cs := fun h => hd (List.mem_cons_of_mem _ h)
    rw [List.foldl_cons, symbolsOf_cons]
    by_cases hnl : c = 13 ∨ c = 10
    · have hsym : isSymbol c = false := by
        have := (isSymbol_iff c).not.mpr (not_not.mpr hnl)
        simpa using this
      have : scanByte ⟨recs, false, false⟩ c = ⟨recs, false, false⟩ := by
        simp [scanByte, hc62, hnl]
      rw [this, ih hcs]
      simp [hsym]
    · have hsym : isSymbol c = true := (isSymbol_iff c).mpr hnl
      have : scanByte ⟨recs, false, false⟩ c = ⟨recs ++ [[c]], false, true⟩ := by
        simp [scanByte, hc62, hnl, pushBackLast_concat]
      rw [this, scan_data_open recs cs [c] hcs]
      simp [hsym]

/-- The records that the data bytes of a list of records give rise to: the symbols
of each record, the records without a symbol left out. -/
theorem scan_record (recs : List (List Nat)) (b : Bool) (r : FastaRecord)
    (hr : r.WellFormed) :
    r.bytes.foldl scanByte ⟨recs, false, b⟩ =
      if symbolsOf r.data = [] then ⟨recs, false, false⟩
      else ⟨recs ++ [symbolsOf r.data], false, true⟩ := by
  have h1 : scanByte ⟨recs, false, b⟩ 62 = ⟨recs, true, false⟩ := by simp [scanByte]
  have h2 : scanByte ⟨recs, true, false⟩ 10 = ⟨recs, false, false⟩ := by simp [scanByte]
  rw [FastaRecord.bytes, List.foldl_cons, h1, List.foldl_append, scan_header recs false _ hr.1,
    List.foldl_cons, h2]
  exact scan_data recs r.data hr.2
theorem scan_records :
    ∀ (rs : List FastaRecord) (recs : List (List Nat)) (b : Bool),
      (∀ r ∈ rs, r.WellFormed) →
      ∃ b1, (rs.map FastaRecord.bytes).flatten.foldl scanByte ⟨recs, false, b⟩ =
        ⟨recs ++ (rs.map (fun r => symbolsOf r.data)).filter (fun l => decide (l ≠ [])),
          false, b1⟩ := by
  intro rs
  induction rs with
  | nil => intro recs b _; exact ⟨b, by simp⟩
  | cons r rs ih =>
    intro recs b hwf
    have hr := hwf r (List.mem_cons_self _ _)
    have hrs : ∀ x ∈ rs, x.WellFormed := fun x hx => hwf x (List.mem_cons_of_mem _ hx)
    rw [List.map_cons, List.flatten_cons, List.foldl_append, scan_record recs b r hr]
    by_cases he : symbolsOf r.data = []
    · obtain ⟨b1, hb1⟩ := ih recs false hrs
      refine ⟨b1, ?_⟩
      simp only [he, if_true, hb1, List.map_cons, List.filter_cons, ne_eq, not_true_eq_false,
        decide_False, Bool.false_eq_true, if_false]
    · obtain ⟨b1, hb1⟩ := ih (recs ++ [symbolsOf r.data]) true hrs
      refine ⟨b1, ?_⟩
      simp only [he, if_false, hb1, List.map_cons, List.filter_cons, ne_eq, not_false_eq_true,
        decide_True, if_true, List.append_assoc, List.singleton_append]

/-- The records of a file, as the alphabet-free walk collects them: the symbols
before the first marker and the symbols of each record, in file order, the empty
ones left out. -/
theorem scan_file (pre : List Nat) (rs : List FastaRecord) (cut : Option (List Nat))
    (hpre : 62 ∉ pre) (hrs : ∀ r ∈ rs, r.WellFormed) (hcut : ∀ h, cut = some h → 10 ∉ h) :
    ((fastaFile pre rs cut).foldl scanByte ⟨[], false, false⟩).records =
      (symbolsOf pre :: rs.map (fun r => symbolsOf r.data)).filter
        (fun l => decide (l ≠ [])) := by
  have hp := scan_data [] pre hpre
  have key : ∀ (X : List (List Nat)) (b : Bool),
      (List.foldl scanByte ⟨X, false, b⟩
        ((rs.map FastaRecord.bytes).flatten ++ cutBytes cut)).records =
      X ++ (rs.map (fun r => symbolsOf r.data)).filter (fun l => decide (l ≠ [])) := by
    intro X b
    obtain ⟨b1, hb1⟩ := scan_records rs X b hrs
    rw [List.foldl_append, hb1]
    cases cut with
    | none => rfl
    | some h =>
      have h1 : ∀ Y, scanByte ⟨Y, false, b1⟩ 62 = ⟨Y, true, false⟩ := by
        intro Y; simp [scanByte]
      simp only [cutBytes, List.foldl_cons, h1]
      rw [scan_header _ false h (hcut h rfl)]
  unfold fastaFile
  rw [List.append_assoc, List.foldl_append, hp]
  by_cases he : symbolsOf pre = []
  · rw [if_pos he, key]
    simp [he]
  · rw [if_neg he, key]
    simp [he]

theorem mem_firstAppearances (c : Nat) :
    ∀ syms : List Nat, c ∈ firstAppearances syms ↔ c ∈ syms := by
  intro syms
  induction syms with
  | nil => simp [firstAppearances]
  | cons x xs ih =>
    rw [firstAppearances, List.mem_cons, List.mem_cons, List.mem_filter, ih]
    by_cases h : c = x
    · simp [h]
    · simp [h]

theorem mem_foldl_addFirst (l syms : List Nat) (c : Nat) (hc : c ∈ syms) :
    c ∈ syms.foldl addFirst l := by
  rw [foldl_addFirst, List.mem_append, List.mem_filter, mem_firstAppearances]
  by_cases h : c ∈ l
  · exact Or.inl h
  · exact Or.inr ⟨hc, by simpa using h⟩

theorem continueRecord_concat (init : List (List Nat)) (last cur : List Nat) :
    continueRecord (init ++ [last]) true cur = init ++ [last ++ cur] := by
  simp [continueRecord, List.getLast?_concat]

theorem continueRecord_nil (records : List (List Nat)) (b : Bool)
    (h : b = true → records ≠ []) : continueRecord records b [] = records := by
  cases b with
  | false => simp [continueRecord]
  | true =>
    obtain ⟨init, last, hil⟩ := exists_concat_of_ne_nil _ (h rfl)
    rw [hil, continueRecord_concat, List.append_nil]

theorem continueRecord_cons (records : List (List Nat)) (b : Bool)
    (h : b = true → records ≠ []) (c : Nat) (cur : List Nat) :
    continueRecord (continueRecord records b [c]) true cur =
      continueRecord records b (c :: cur) := by
  cases b with
  | false => simp [continueRecord, List.getLast?_concat]
  | true =>
    obtain ⟨init, last, hil⟩ := exists_concat_of_ne_nil _ (h rfl)
    rw [hil, continueRecord_concat, continueRecord_concat, continueRecord_concat]
    simp

theorem scanByte_symbol (s : ScanState) (hs : s.inSequence = true → s.records ≠ [])
    (hh : s.inHeader = false) (c : Nat) (h62 : c ≠ 62) (hnl : ¬ (c = 13 ∨ c = 10)) :
    scanByte s c = ⟨continueRecord s.records s.inSequence [c], false, true⟩ := by
  unfold scanByte
  simp only [hh, Bool.false_eq_true, if_false, h62, hnl]
  by_cases hq : s.inSequence = true
  · obtain ⟨init, last, hil⟩ := exists_concat_of_ne_nil _ (hs hq)
    rw [hq, hil, if_pos rfl, pushBackLast_concat, continueRecord_concat]
    rfl
  · have hq2 : s.inSequence = false := by simpa using hq
    rw [hq2, if_neg (by simp), pushBackLast_concat]
    simp [continueRecord]

/-- When no data line holds a marker, the alphabet-free walk collects the records of
the file by its lines: the symbols of the data lines that continue the record in
progress, then those of each later record that has a symbol. -/
theorem scan_lineRecords_from :
    ∀ (bytes : List Nat) (s : ScanState) (mode : LineMode),
      dataLinesMarkerFree mode bytes = true →
      (s.inHeader = true ↔ mode = LineMode.marker) →
      (s.inHeader = true → s.inSequence = false) →
      (s.inSequence = true → s.records ≠ []) →
      (bytes.foldl scanByte s).records =
        continueRecord s.records s.inSequence (lineRecords mode bytes).1 ++
          (lineRecords mode bytes).2.filter (fun l => decide (l ≠ [])) := by
  intro bytes
  induction bytes with
  | nil =>
    intro s mode _ _ _ hs
    cases mode <;> simp [lineRecords, continueRecord_nil _ _ hs]
  | cons c cs ih =>
    intro s mode hfree hmode hhead hs
    rw [List.foldl_cons]
    have hdata : ∀ m : LineMode, m ≠ LineMode.marker → c ≠ 62 →
        dataLinesMarkerFree (LineMode.data.after c) cs = true →
        s.inHeader = false →
        (cs.foldl scanByte (scanByte s c)).records =
          continueRecord s.records s.inSequence
            (if isSymbol c then
              (c :: (lineRecords (LineMode.data.after c) cs).1,
                (lineRecords (LineMode.data.after c) cs).2)
            else lineRecords (LineMode.data.after c) cs).1 ++
          (if isSymbol c then
              (c :: (lineRecords (LineMode.data.after c) cs).1,
                (lineRecords (LineMode.data.after c) cs).2)
            else lineRecords (LineMode.data.after c) cs).2.filter
              (fun l => decide (l ≠ [])) := by
      intro m _ h62 hfree2 hh
      have hafter : LineMode.data.after c ≠ LineMode.marker := by
        unfold LineMode.after
        by_cases h10 : c = 10 <;> simp [h10]
      by_cases hnl : c = 13 ∨ c = 10
      · have hsym : isSymbol c = false := by
          have := (isSymbol_iff c).not.mpr (not_not.mpr hnl)
          simpa using this
        have hstep : scanByte s c = s := by
          simp [scanByte, hh, h62, hnl]
        rw [hstep, hsym]
        simp only [Bool.false_eq_true, if_false]
        exact ih s _ hfree2 ⟨fun h => (by rw [hh] at h; cases h), fun h => absurd h hafter⟩
          hhead hs
      · have hsym : isSymbol c = true := (isSymbol_iff c).mpr hnl
        rw [scanByte_symbol s hs hh c h62 hnl, hsym]
        simp only [if_true]
        rw [ih _ _ hfree2 ⟨fun h => (by cases h), fun h => absurd h hafter⟩
          (fun h => by cases h) (fun _ => by
            show continueRecord s.records s.inSequence [c] ≠ []
            by_cases hq : s.inSequence = true
            · obtain ⟨init, last, hil⟩ := exists_concat_of_ne_nil _ (hs hq)
              rw [hq, hil, continueRecord_concat]; simp
            · have hq2 : s.inSequence = false := by simpa using hq
              rw [hq2]; simp [continueRecord])]
        show continueRecord (continueRecord s.records s.inSequence [c]) true _ ++ _ = _
        rw [continueRecord_cons _ _ hs]
    cases mode with
    | marker =>
      have hh : s.inHeader = true := hmode.mpr rfl
      have hq : s.inSequence = false := hhead hh
      simp only [dataLinesMarkerFree, lineRecords] at hfree ⊢
      by_cases h10 : c = 10
      · have hstep : scanByte s c = ⟨s.records, false, s.inSequence⟩ := by
          simp [scanByte, hh, h10]
        have hafter : LineMode.marker.after c = LineMode.lineStart := by
          simp [LineMode.after, h10]
        rw [hafter] at hfree ⊢
        rw [hstep]
        exact ih _ _ hfree ⟨fun h => (by cases h), fun h => (by cases h)⟩
          (fun h => by cases h) hs
      · have hstep : scanByte s c = s := by
          simp [scanByte, hh, h10]
        have hafter : LineMode.marker.after c = LineMode.marker := by
          simp [LineMode.after, h10]
        rw [hafter] at hfree ⊢
        rw [hstep]
        exact ih _ _ hfree ⟨fun _ => rfl, fun _ => hh⟩ hhead hs
    | lineStart =>
      have hh : s.inHeader = false := by
        cases h : s.inHeader with
        | false => rfl
        | true => exact absurd (hmode.mp h) (by decide)
      simp only [dataLinesMarkerFree, lineRecords] at hfree ⊢
      by_cases h62 : c = 62
      · simp only [h62, if_true] at hfree ⊢
        have hstep : scanByte s 62 = ⟨s.records, true, false⟩ := by
          simp [scanByte, hh]
        rw [hstep, ih _ _ hfree ⟨fun _ => rfl, fun _ => rfl⟩ (fun _ => rfl)
          (fun h => by cases h), continueRecord_nil _ _ hs]
        by_cases he : (lineRecords LineMode.marker cs).1 = []
        · simp [continueRecord, he]
        · simp [continueRecord, he]
      · simp only [h62, if_false] at hfree ⊢
        exact hdata LineMode.lineStart (by decide) h62 hfree hh
    | data =>
      have hh : s.inHeader = false := by
        cases h : s.inHeader with
        | false => rfl
        | true => exact absurd (hmode.mp h) (by decide)
      simp only [dataLinesMarkerFree, lineRecords, Bool.and_eq_true, bne_iff_ne, ne_eq]
        at hfree ⊢
      exact hdata LineMode.data (by decide) hfree.1 hfree.2 hh

/-- When no data line of a file holds a marker, the records that the alphabet-free
walk collects are the records of the file by its lines that have a symbol. -/
theorem scan_lineRecords (bytes : List Nat)
    (hfree : dataLinesMarkerFree LineMode.lineStart bytes = true) :
    (bytes.foldl scanByte ⟨[], false, false⟩).records =
      (recordDataLines bytes).filter (fun l => decide (l ≠ [])) := by
  rw [scan_lineRecords_from bytes ⟨[], false, false⟩ LineMode.lineStart hfree
    ⟨fun h => (by cases h), fun h => (by cases h)⟩ (fun h => by cases h) (fun h => by cases h)]
  unfold recordDataLines
  by_cases he : (lineRecords LineMode.lineStart bytes).1 = []
  · simp [continueRecord, he]
  · simp [continueRecord, he]

/-- What a call of `readFastaSequences` produces for a file given by its records,
read against a well-formed alphabet. -/
theorem readFastaSequences_file (a : Alphabet) (ha : a.WellFormed) (pre : List Nat)
    (recs : List FastaRecord) (cut : Option (List Nat))
    (hpre : 62 ∉ pre) (hrecs : ∀ r ∈ recs, r.WellFormed)
    (hcut : ∀ h, cut = some h → 10 ∉ h)
    (hbytes : ∀ b ∈ fastaFile pre recs cut, b < 128) :
    ∃ r, readFastaSequences (some (fastaFile pre recs cut)) a = some r ∧ r.status = 0 ∧
      r.seqs.map (decode r.alphabet) =
        (symbolsOf pre :: recs.map (fun x => symbolsOf x.data)).filter
          (fun l => decide (l ≠ [])) ∧
      (∀ c ∈ symbolStream false (fastaFile pre recs cut),
        r.alphabet.inAlphabet c = true ∧
          r.alphabet.idxToLetter (r.alphabet.letterIdx c) = c) ∧
      (∀ seq ∈ r.seqs, ∀ x ∈ seq,
        x < r.alphabet.alphabetLength ∧
          r.alphabet.letterIdx (r.alphabet.idxToLetter x) = x) := by
  obtain ⟨r, hr, hst, hsim⟩ := readFastaSequences_simulates a ha _ hbytes
  obtain ⟨_, _, hwf, _, hdec, hlt, _, hlet⟩ := hsim
  refine ⟨r, hr, hst, ?_, ?_, ?_⟩
  · rw [← scan_file pre recs cut hpre hrecs hcut]
    exact hdec
  · intro c hc
    have hfl := scan_flatten (fastaFile pre recs cut) ⟨[], false, false⟩ (by simp)
    simp only [List.flatten_nil, List.nil_append] at hfl
    have hin : r.alphabet.inAlphabet c = true := by
      apply (hwf.2.2.1 c).mpr
      show c ∈ r.alphabet.letters
      rw [show r.alphabet.letters = _ from hlet, hfl]
      exact mem_foldl_addFirst _ _ c hc
    exact ⟨hin, (wellFormed_index _ hwf c hin).2⟩
  · intro seq hseq x hx
    have hxlt : x < r.alphabet.alphabetLength := hlt seq hseq x hx
    exact ⟨hxlt, hwf.2.2.2 x hxlt⟩
/-- Claim C10 as stated fails: the file with the lines `>a`, `A>C` and `G` has one
record, whose data lines `A>C` and `G` hold the bytes `A>CG`; `readFastaSequences`
produces two sequences, which decode to `A` and to `G`: the `>` inside the data line
opens a marker region that hides `C` and ends the sequence. -/
theorem record_bytes_not_decoded :
    (readFastaSequences (some [62, 97, 10, 65, 62, 67, 10, 71, 10])
        (emptyAlphabet (fun _ => 0) (fun _ => 0))).map
        (fun r => r.seqs.map (decode r.alphabet)) = some [[65], [71]] ∧
      recordDataLines [62, 97, 10, 65, 62, 67, 10, 71, 10] = [[], [65, 62, 67, 71]] := by
  decide

/-- Claim C10, amended: a file whose bytes are below 128 is read against a well-formed
alphabet (a bijection between symbols and indices, as the empty alphabet is and as
every call leaves it). The file is seen as the data bytes before its first marker,
its records, each running from a `>` met outside a marker region to the next such
`>`, and possibly a marker line cut short by the end of the file. Then the
call returns 0 and mapping the indices of the produced sequences through
`idxToLetter` gives, in file order, the data bytes of the records that hold a
symbol, with line breaks and carriage returns removed; `idxToLetter[letterIdx[c]]`
is `c` for every sequence symbol `c` of the file, and `letterIdx[idxToLetter[x]]`
is `x` for every stored index `x`. When no data line of the file holds a `>`, the
produced sequences decode to the concatenated data-line bytes, line breaks and
carriage returns removed, of the records of the file by its marker lines, the data
lines before the first marker line counting as a record and a record without a
symbol giving no sequence. -/
theorem decode_roundtrip (a : Alphabet) (ha : a.WellFormed) (pre : List Nat)
    (recs : List FastaRecord) (cut : Option (List Nat))
    (hpre : 62 ∉ pre) (hrecs : ∀ r ∈ recs, r.WellFormed)
    (hcut : ∀ h, cut = some h → 10 ∉ h)
    (hbytes : ∀ b ∈ fastaFile pre recs cut, b < 128) :
    ∃ r, readFastaSequences (some (fastaFile pre recs cut)) a = some r ∧ r.status = 0 ∧
      r.seqs.map (decode r.alphabet) =
        (symbolsOf pre :: recs.map (fun x => symbolsOf x.data)).filter
          (fun l => decide (l ≠ [])) ∧
      (∀ c ∈ symbolStream false (fastaFile pre recs cut),
        r.alphabet.inAlphabet c = true ∧
          r.alphabet.idxToLetter (r.alphabet.letterIdx c) = c) ∧
      (∀ seq ∈ r.seqs, ∀ x ∈ seq,
        x < r.alphabet.alphabetLength ∧
          r.alphabet.letterIdx (r.alphabet.idxToLetter x) = x) ∧
      (dataLinesMarkerFree LineMode.lineStart (fastaFile pre recs cut) = true →
        r.seqs.map (decode r.alphabet) =
          (recordDataLines (fastaFile pre recs cut)).filter (fun l => decide (l ≠ []))) := by
  obtain ⟨r, hr, hst, hdec, hsym, hidx⟩ :=
    readFastaSequences_file a ha pre recs cut hpre hrecs hcut hbytes
  refine ⟨r, hr, hst, hdec, hsym, hidx, fun hfree => ?_⟩
  rw [hdec, ← scan_file pre recs cut hpre hrecs hcut]
  exact scan_lineRecords _ hfree

/-- Witness for the amended C10: a file with the records AC/GT (with a carriage
return), an empty record and TTA, read against the empty alphabet: the two sequences
decode to ACGT and TTA, the data-line bytes of the two records that hold a symbol. -/
theorem decode_roundtrip_witness :
    ∃ r, readFastaSequences
        (some (fastaFile [] [⟨[97], [65, 67, 13, 10, 71, 84, 10]⟩, ⟨[98], []⟩,
          ⟨[99], [84, 84, 65]⟩] none)) (emptyAlphabet (fun _ => 0) (fun _ => 0)) = some r ∧
      r.status = 0 ∧
      r.seqs.map (decode r.alphabet) = [[65, 67, 71, 84], [84, 84, 65]] ∧
      r.seqs.map (decode r.alphabet) =
        (recordDataLines (fastaFile [] [⟨[97], [65, 67, 13, 10, 71, 84, 10]⟩, ⟨[98], []⟩,
          ⟨[99], [84, 84, 65]⟩] none)).filter (fun l => decide (l ≠ [])) ∧
      recordDataLines (fastaFile [] [⟨[97], [65, 67, 13, 10, 71, 84, 10]⟩, ⟨[98], []⟩,
          ⟨[99], [84, 84, 65]⟩] none) = [[], [65, 67, 71, 84], [], [84, 84, 65]] := by
  obtain ⟨r, hr, hst, hdec, _, _, hlines⟩ :=
    decode_roundtrip (emptyAlphabet (fun _ => 0) (fun _ => 0))
      (emptyAlphabet_wellFormed _ _) []
      [⟨[97], [65, 67, 13, 10, 71, 84, 10]⟩, ⟨[98], []⟩, ⟨[99], [84, 84, 65]⟩] none
      (by simp)
      (by
        intro r hr
        simp only [List.mem_cons, List.mem_singleton, List.not_mem_nil, or_false] at hr
        rcases hr with h | h | h <;> subst h <;> simp [FastaRecord.WellFormed])
      (by intro h hh; simp at hh)
      (by decide)
  exact ⟨r, hr, hst, hdec.trans (by decide), hlines (by decide), by decide⟩

theorem split_at (m : Nat) :
    ∀ l : List Nat, ∃ h rest, l = h ++ rest ∧ m ∉ h ∧ (rest = [] ∨ ∃ r, rest = m :: r) := by
  intro l
  induction l with
  | nil => exact ⟨[], [], rfl, by simp, Or.inl rfl⟩
  | cons c cs ih =>
    by_cases hc : c = m
    · exact ⟨[], c :: cs, rfl, by simp, Or.inr ⟨cs, by rw [hc]⟩⟩
    · obtain ⟨h, rest, h1, h2, h3⟩ := ih
      refine ⟨c :: h, rest, by rw [h1]; rfl, ?_, h3⟩
      intro hm
      rcases List.mem_cons.mp hm with h4 | h4
      · exact hc h4.symm
      · exact h2 h4

theorem exists_records (n : Nat) :
    ∀ l : List Nat, l.length ≤ n →
      ∃ (recs : List FastaRecord) (cut : Option (List Nat)),
        62 :: l = (recs.map FastaRecord.bytes).flatten ++ cutBytes cut ∧
        (∀ r ∈ recs, r.WellFormed) ∧ (∀ h, cut = some h → 10 ∉ h) := by
  induction n with
  | zero =>
    intro l hl
    have : l = [] := List.length_eq_zero.mp (by omega)
    subst this
    exact ⟨[], some [], rfl, by simp, by intro h hh; cases hh; simp⟩
  | succ n ih =>
    intro l hl
    obtain ⟨h, rest, h1, h2, h3⟩ := split_at 10 l
    rcases h3 with h3 | ⟨rest1, h3⟩
    · subst h3
      refine ⟨[], some h, by simp [cutBytes, h1], by simp, ?_⟩
      intro x hx
      cases hx
      exact h2
    · obtain ⟨d, rest2, g1, g2, g3⟩ := split_at 62 rest1
      rcases g3 with g3 | ⟨l1, g3⟩
      · subst g3
        refine ⟨[FastaRecord.mk h d], none, ?_, ?_, by intro x hx; cases hx⟩
        · simp [cutBytes, FastaRecord.bytes, h1, h3, g1]
        · intro r hr
          simp only [List.mem_singleton] at hr
          subst hr
          exact ⟨h2, g2⟩
      · have hlen : l1.length ≤ n := by
          have := congrArg List.length h1
          rw [h3, g1, g3] at this
          simp only [List.length_append, List.length_cons] at this
          omega
        obtain ⟨recs, cut, e1, e2, e3⟩ := ih l1 hlen
        refine ⟨FastaRecord.mk h d :: recs, cut, ?_, ?_, e3⟩
        · rw [List.map_cons, List.flatten_cons, List.append_assoc, ← e1]
          simp [FastaRecord.bytes, h1, h3, g1, g3]
        · intro r hr
          rcases List.mem_cons.mp hr with h4 | h4
          · subst h4; exact ⟨h2, g2⟩
          · exact e2 r h4

/-- Every list of bytes is a file in the sense of `fastaFile`: data bytes without a
marker, then well-formed records, then possibly a marker line cut short. -/
theorem exists_fastaFile (file : List Nat) :
    ∃ (pre : List Nat) (recs : List FastaRecord) (cut : Option (List Nat)),
      file = fastaFile pre recs cut ∧ 62 ∉ pre ∧
      (∀ r ∈ recs, r.WellFormed) ∧ (∀ h, cut = some h → 10 ∉ h) := by
  obtain ⟨pre, rest, h1, h2, h3⟩ := split_at 62 file
  rcases h3 with h3 | ⟨l, h3⟩
  · subst h3
    exact ⟨pre, [], none, by simp [fastaFile, cutBytes, h1], h2, by simp,
      by intro h hh; cases hh⟩
  · obtain ⟨recs, cut, e1, e2, e3⟩ := exists_records l.length l (le_refl _)
    refine ⟨pre, recs, cut, ?_, h2, e2, e3⟩
    rw [fastaFile, List.append_assoc, ← e1, h1, h3]
theorem lineStartAfter_cons (b : Bool) (c : Nat) (d : List Nat) :
    lineStartAfter b (c :: d) = lineStartAfter (c == 10) d := by
  cases d with
  | nil => simp [lineStartAfter]
  | cons x xs =>
    unfold lineStartAfter
    rw [List.getLast?_cons_cons, List.getLast?_eq_getLast (x :: xs) (by simp)]

theorem countMarkerLines_append :
    ∀ (d rest : List Nat) (b : Bool),
      countMarkerLines b (d ++ rest) =
        countMarkerLines b d + countMarkerLines (lineStartAfter b d) rest := by
  intro d
  induction d with
  | nil => intro rest b; simp [countMarkerLines, lineStartAfter]
  | cons c cs ih =>
    intro rest b
    rw [List.cons_append, countMarkerLines, countMarkerLines, ih, lineStartAfter_cons]
    omega

theorem countMarkerLines_no_marker :
    ∀ (d : List Nat) (b : Bool), 62 ∉ d → countMarkerLines b d = 0 := by
  intro d
  induction d with
  | nil => intro b _; rfl
  | cons c cs ih =>
    intro b hd
    have hc62 : c ≠ 62 := fun h => hd (h ▸ List.mem_cons_self _ _)
    have hcs : 62 ∉ cs := fun h => hd (List.mem_cons_of_mem _ h)
    rw [countMarkerLines, ih _ hcs]
    simp [hc62]

theorem countMarkerLines_header :
    ∀ h : List Nat, 10 ∉ h →
      countMarkerLines false h = 0 ∧ lineStartAfter false h = false := by
  intro h
  induction h with
  | nil => intro _; exact ⟨rfl, rfl⟩
  | cons c cs ih =>
    intro hh
    have hc10 : c ≠ 10 := fun h => hh (h ▸ List.mem_cons_self _ _)
    have hcs : 10 ∉ cs := fun h => hh (List.mem_cons_of_mem _ h)
    have hb : (c == 10) = false := by simp [hc10]
    rw [countMarkerLines, lineStartAfter_cons, hb]
    exact ⟨by simp [(ih hcs).1], (ih hcs).2⟩

theorem countMarkerLines_record (r : FastaRecord) (hr : r.WellFormed) (rest : List Nat) :
    countMarkerLines true (r.bytes ++ rest) =
      1 + countMarkerLines (lineStartAfter true r.data) rest := by
  have hh := countMarkerLines_header r.header hr.1
  have h62 : ((62 : Nat) == 10) = false := by decide
  rw [FastaRecord.bytes, List.cons_append, countMarkerLines, h62, List.append_assoc,
    countMarkerLines_append, hh.1, hh.2, List.cons_append, countMarkerLines,
    countMarkerLines_append, countMarkerLines_no_marker _ _ hr.2]
  simp

theorem lineStartAfter_true_of_endsLine (d : List Nat) (hd : endsLine d) :
    lineStartAfter true d = true := by
  unfold lineStartAfter
  cases h : d.getLast? with
  | none => rfl
  | some c => simp [hd c h]

theorem countMarkerLines_records :
    ∀ recs : List FastaRecord, (∀ r ∈ recs, r.WellFormed) →
      (∀ r ∈ recs.dropLast, endsLine r.data) →
      countMarkerLines true (recs.map FastaRecord.bytes).flatten = recs.length := by
  intro recs
  induction recs with
  | nil => intro _ _; rfl
  | cons r rs ih =>
    intro hwf hend
    rw [List.map_cons, List.flatten_cons, countMarkerLines_record r (hwf r (List.mem_cons_self _ _))]
    cases rs with
    | nil => simp [countMarkerLines]
    | cons r1 rs1 =>
      have hr : endsLine r.data := hend r (by simp [List.dropLast])
      rw [lineStartAfter_true_of_endsLine _ hr,
        ih (fun x hx => hwf x (List.mem_cons_of_mem _ hx))
          (fun x hx => hend x (by
            rw [List.dropLast_cons_of_ne_nil (by simp)]
            exact List.mem_cons_of_mem _ hx))]
      simp only [List.length_cons]
      omega

/-- Claim C9 as stated fails: the file with the lines `>a`, `>b` and `A` has two
marker lines, and `readFastaSequences` produces one sequence for it. -/
theorem seqs_fewer_than_marker_lines :
    (readFastaSequences (some [62, 97, 10, 62, 98, 10, 65, 10])
        (emptyAlphabet (fun _ => 0) (fun _ => 0))).map (fun r => r.seqs.length) = some 1 ∧
      countMarkerLines true [62, 97, 10, 62, 98, 10, 65, 10] = 2 := by
  decide

/-- Claim C9, amended: a file whose bytes are below 128, seen as the data bytes
before its first marker, its records, and possibly a marker line cut short by the
end of the file, is read against a well-formed alphabet. The number of sequences
produced is the number of records that hold at least one sequence symbol, the
bytes before the first marker counting as a record; a record without a symbol
gives no sequence. When no symbol precedes the first marker, every record holds a
symbol, the data before each marker is empty or ends with a line break, and the
file does not end inside a marker line, this is the number of marker lines of the
file, one sequence per record. -/
theorem seqs_count (a : Alphabet) (ha : a.WellFormed) (pre : List Nat)
    (recs : List FastaRecord) (cut : Option (List Nat))
    (hpre : 62 ∉ pre) (hrecs : ∀ r ∈ recs, r.WellFormed)
    (hcut : ∀ h, cut = some h → 10 ∉ h)
    (hbytes : ∀ b ∈ fastaFile pre recs cut, b < 128) :
    ∃ r, readFastaSequences (some (fastaFile pre recs cut)) a = some r ∧
      r.seqs.length =
        ((symbolsOf pre :: recs.map (fun x => symbolsOf x.data)).filter
          (fun l => decide (l ≠ []))).length ∧
      (symbolsOf pre = [] → endsLine pre → (∀ x ∈ recs, symbolsOf x.data ≠ []) →
        (∀ x ∈ recs.dropLast, endsLine x.data) → cut = none →
        r.seqs.length = countMarkerLines true (fastaFile pre recs cut) ∧
          r.seqs.length = recs.length) := by
  obtain ⟨r, hr, _, hdec, _, _⟩ :=
    readFastaSequences_file a ha pre recs cut hpre hrecs hcut hbytes
  have hlen := congrArg List.length hdec
  rw [List.length_map] at hlen
  refine ⟨r, hr, hlen, ?_⟩
  intro hp hpe hall hend hc
  have hcount : r.seqs.length = recs.length := by
    have hnil : decide (([] : List Nat) ≠ []) = false := by simp
    rw [hlen, hp, List.filter_cons, hnil]
    have : (recs.map (fun x => symbolsOf x.data)).filter (fun l => decide (l ≠ [])) =
        recs.map (fun x => symbolsOf x.data) := by
      apply List.filter_eq_self.mpr
      intro l hl
      obtain ⟨x, hx, hxl⟩ := List.mem_map.mp hl
      subst hxl
      simpa using hall x hx
    simp only [Bool.false_eq_true, if_false]
    rw [this, List.length_map]
  refine ⟨?_, hcount⟩
  rw [hcount, hc, fastaFile, cutBytes, List.append_nil, countMarkerLines_append,
    countMarkerLines_no_marker _ _ hpre, lineStartAfter_true_of_endsLine _ hpe,
    countMarkerLines_records recs hrecs hend]
  omega

/-- Witness for the amended C9: a file of two records, each with a symbol. -/
theorem seqs_count_witness :
    ∃ r, readFastaSequences
        (some (fastaFile [] [⟨[97], [65, 67, 10, 71, 10]⟩, ⟨[98], [84, 84, 65]⟩] none))
        (emptyAlphabet (fun _ => 0) (fun _ => 0)) = some r ∧
      r.seqs.length = 2 ∧
      countMarkerLines true
        (fastaFile [] [⟨[97], [65, 67, 10, 71, 10]⟩, ⟨[98], [84, 84, 65]⟩] none) = 2 := by
  obtain ⟨r, hr, _, h⟩ := seqs_count (emptyAlphabet (fun _ => 0) (fun _ => 0))
    (emptyAlphabet_wellFormed _ _) []
    [⟨[97], [65, 67, 10, 71, 10]⟩, ⟨[98], [84, 84, 65]⟩] none
    (by simp)
    (by
      intro r hr
      simp only [List.mem_cons, List.mem_singleton, List.not_mem_nil, or_false] at hr
      rcases hr with h | h <;> subst h <;> simp [FastaRecord.WellFormed])
    (by intro h hh; simp at hh)
    (by decide)
  obtain ⟨h1, h2⟩ := h rfl (by intro c hc; simp at hc)
    (by
      intro x hx
      simp only [List.mem_cons, List.mem_singleton, List.not_mem_nil, or_false] at hx
      rcases hx with h | h <;> subst h <;> decide)
    (by
      intro x hx
      simp only [List.dropLast, List.mem_singleton] at hx
      subst hx
      intro c hc
      simp at hc
      exact hc.symm)
    rfl
  exact ⟨r, hr, h2, by rw [← h1, h2]; rfl⟩

theorem addLetter_extends (a b : Alphabet) (c : Nat) (h : addLetter a c = some b) :
    a.Extends b := by
  unfold addLetter at h
  by_cases hc : c < alphabetCapacity
  · rw [if_pos hc] at h
    by_cases hin : a.inAlphabet c = true
    · rw [if_pos hin] at h
      cases h
      exact extends_refl a
    · rw [if_neg hin] at h
      by_cases hroom : a.alphabetLength < alphabetCapacity
      · rw [if_pos hroom] at h
        cases h
        refine ⟨Nat.le_succ _, ?_, ?_⟩
        · intro i hi
          have : i ≠ a.alphabetLength := by omega
          show Function.update a.idxToLetter a.alphabetLength c i = a.idxToLetter i
          rw [Function.update_noteq this]
        · intro x hx
          have hne : x ≠ c := by
            intro h
            rw [h] at hx
            exact hin hx
          refine ⟨?_, ?_⟩
          · show Function.update a.inAlphabet c true x = true
            rw [Function.update_noteq hne]; exact hx
          · show Function.update a.letterIdx c (a.alphabetLength % 256) x = a.letterIdx x
            rw [Function.update_noteq hne]
      · rw [if_neg hroom] at h
        cases h
  · rw [if_neg hc] at h
    cases h

theorem processByte_extends (st st1 : LoaderState) (c : Nat)
    (h : processByte st c = some st1) : st.alphabet.Extends st1.alphabet := by
  unfold processByte at h
  by_cases h1 : st.inHeader = true
  · rw [if_pos h1] at h
    cases h
    by_cases h10 : c = 10
    · rw [if_pos h10]; exact extends_refl _
    · rw [if_neg h10]; exact extends_refl _
  · rw [if_neg h1] at h
    by_cases h62 : c = 62
    · rw [if_pos h62] at h
      cases h
      exact extends_refl _
    · rw [if_neg h62] at h
      by_cases hnl : c = 13 ∨ c = 10
      · rw [if_pos hnl] at h
        cases h
        exact extends_refl _
      · rw [if_neg hnl] at h
        cases hb : addLetter st.alphabet c with
        | none => rw [hb] at h; cases h
        | some b =>
          rw [hb] at h
          simp only [Option.some_bind] at h
          cases hp : pushBackLast (if st.inSequence = true then st.seqs else st.seqs ++ [[]])
              (b.letterIdx c) with
          | none => rw [hp] at h; cases h
          | some seqs =>
            rw [hp] at h
            cases h
            exact addLetter_extends _ _ _ hb

theorem foldlM_extends :
    ∀ (bytes : List Nat) (st st1 : LoaderState), bytes.foldlM processByte st = some st1 →
      st.alphabet.Extends st1.alphabet := by
  intro bytes
  induction bytes with
  | nil =>
    intro st st1 h
    cases h
    exact extends_refl _
  | cons c cs ih =>
    intro st st1 h
    rw [List.foldlM_cons] at h
    cases h1 : processByte st c with
    | none => rw [h1] at h; cases h
    | some st2 =>
      rw [h1] at h
      exact extends_trans _ _ _ (processByte_extends _ _ _ h1) (ih st2 st1 h)

/-- Whatever the alphabet and the file, a call that stays within the defined
behaviour leaves an alphabet that extends the one it was given. -/
theorem readFastaSequences_extends (a : Alphabet) (file : Option (List Nat)) (r : ReadResult)
    (h : readFastaSequences file a = some r) : a.Extends r.alphabet := by
  cases file with
  | none =>
    cases h
    exact extends_refl a
  | some bytes =>
    simp only [readFastaSequences] at h
    rw [readLoop_eq_foldlM _ _ _ (Nat.lt_succ_self _)] at h
    cases hf : bytes.foldlM processByte ⟨[], a, false, false⟩ with
    | none => rw [hf] at h; cases h
    | some st =>
      rw [hf] at h
      cases h
      exact foldlM_extends _ _ _ hf

/-- Claim C11: whatever the alphabet and the file, a call of `readFastaSequences`
that stays within the defined behaviour leaves `letterIdx[c]` as it was for every
symbol `c` that was in the alphabet, leaves `idxToLetter[i]` as it was for every
`i` below the previous `alphabetLength`, and does not decrease `alphabetLength`;
a later call on another file keeps in turn what this call left, so the target file
is encoded with the mapping of the query file read before it. Entering a symbol
that is in the alphabet changes nothing. A call on a file with bytes below 128
against a well-formed alphabet does stay within the defined behaviour. -/
theorem alphabet_frame (a : Alphabet) (file : Option (List Nat)) :
    (∀ r, readFastaSequences file a = some r →
      a.alphabetLength ≤ r.alphabet.alphabetLength ∧
      (∀ i, i < a.alphabetLength → r.alphabet.idxToLetter i = a.idxToLetter i) ∧
      (∀ c, a.inAlphabet c = true →
        r.alphabet.inAlphabet c = true ∧ r.alphabet.letterIdx c = a.letterIdx c) ∧
      (∀ file2 r2, readFastaSequences file2 r.alphabet = some r2 →
        (∀ i, i < r.alphabet.alphabetLength →
          r2.alphabet.idxToLetter i = r.alphabet.idxToLetter i) ∧
        (∀ c, r.alphabet.inAlphabet c = true →
          r2.alphabet.inAlphabet c = true ∧
            r2.alphabet.letterIdx c = r.alphabet.letterIdx c))) ∧
    (∀ c, c < 128 → a.inAlphabet c = true → addLetter a c = some a) ∧
    (∀ bytes, file = some bytes → a.WellFormed → (∀ b ∈ bytes, b < 128) →
      ∃ r, readFastaSequences file a = some r ∧ r.status = 0) := by
  refine ⟨?_, ?_, ?_⟩
  · intro r hr
    obtain ⟨h1, h2, h3⟩ := readFastaSequences_extends a file r hr
    refine ⟨h1, h2, h3, ?_⟩
    intro file2 r2 hr2
    obtain ⟨_, g2, g3⟩ := readFastaSequences_extends r.alphabet file2 r2 hr2
    exact ⟨g2, g3⟩
  · intro c hc hin
    simp [addLetter, alphabetCapacity, hc, hin]
  · intro bytes hfile ha hb
    subst hfile
    obtain ⟨r, hr, hst, _⟩ := readFastaSequences_simulates a ha bytes hb
    exact ⟨r, hr, hst⟩

/-- Witness for C11: a query file with the sequence ACGA, then a target file with
the sequence TCA read against the alphabet the first call left. -/
theorem alphabet_frame_witness :
    ∃ r1 r2,
      readFastaSequences (some [62, 113, 10, 65, 67, 71, 65, 10])
        (emptyAlphabet (fun _ => 0) (fun _ => 0)) = some r1 ∧
      readFastaSequences (some [62, 116, 10, 84, 67, 65, 10]) r1.alphabet = some r2 ∧
      r1.alphabet.alphabetLength ≤ r2.alphabet.alphabetLength ∧
      (∀ i, i < r1.alphabet.alphabetLength →
        r2.alphabet.idxToLetter i = r1.alphabet.idxToLetter i) ∧
      (∀ c, r1.alphabet.inAlphabet c = true →
        r2.alphabet.inAlphabet c = true ∧ r2.alphabet.letterIdx c = r1.alphabet.letterIdx c) := by
  obtain ⟨r1, h1, _⟩ :=
    (alphabet_frame (emptyAlphabet (fun _ => 0) (fun _ => 0))
      (some [62, 113, 10, 65, 67, 71, 65, 10])).2.2 _ rfl
      (emptyAlphabet_wellFormed _ _) (by decide)
  obtain ⟨r, hr, hwf1, _⟩ := readFastaSequences_letters
    (emptyAlphabet (fun _ => 0) (fun _ => 0)) (emptyAlphabet_wellFormed _ _)
    [62, 113, 10, 65, 67, 71, 65, 10] (by decide)
  have hrr : r = r1 := Option.some.inj (hr.symm.trans h1)
  subst hrr
  obtain ⟨r2, h2, _⟩ :=
    (alphabet_frame r.alphabet (some [62, 116, 10, 84, 67, 65, 10])).2.2 _ rfl hwf1
      (by decide)
  obtain ⟨g1, g2, g3, _⟩ :=
    (alphabet_frame r.alphabet (some [62, 116, 10, 84, 67, 65, 10])).1 r2 h2
  exact ⟨r, r2, h1, h2, g1, g2, g3⟩

theorem processByte_skip (st : LoaderState) (c : Nat) (hst : st.inHeader = false)
    (hc : c = 13 ∨ c = 10) : processByte st c = some st := by
  have h62 : c ≠ 62 := by omega
  simp [processByte, hst, h62, hc]

theorem foldlM_skip :
    ∀ (l : List Nat) (st : LoaderState), st.inHeader = false →
      (∀ c ∈ l, c = 13 ∨ c = 10) → l.foldlM processByte st = some st := by
  intro l
  induction l with
  | nil => intro st _ _; rfl
  | cons c cs ih =>
    intro st hst hl
    rw [List.foldlM_cons, processByte_skip st c hst (hl c (List.mem_cons_self _ _))]
    exact ih st hst (fun x hx => hl x (List.mem_cons_of_mem _ hx))

theorem processByte_newline (st st1 : LoaderState) (h : processByte st 10 = some st1) :
    st1.inHeader = false := by
  unfold processByte at h
  by_cases h1 : st.inHeader = true
  · simp only [h1, if_true] at h
    cases h
    rfl
  · have h1f : st.inHeader = false := by simpa using h1
    simp only [h1f, Bool.false_eq_true, if_false] at h
    have h62 : ¬ ((10 : Nat) = 62) := by decide
    simp only [h62, if_false, or_true, if_true] at h
    cases h
    exact h1f

theorem foldlM_endsLine (front : List Nat) (hfront : endsLine front) (st st1 : LoaderState)
    (hst : st.inHeader = false) (h : front.foldlM processByte st = some st1) :
    st1.inHeader = false := by
  by_cases hnil : front = []
  · subst hnil
    cases h
    exact hst
  · obtain ⟨init, last, hil⟩ : ∃ init last, front = init ++ [last] :=
      ⟨front.dropLast, front.getLast hnil, (List.dropLast_append_getLast hnil).symm⟩
    subst hil
    have hlast : last = 10 := hfront last (List.getLast?_concat init)
    subst hlast
    rw [List.foldlM_append] at h
    cases h2 : init.foldlM processByte st with
    | none => rw [h2] at h; cases h
    | some st2 =>
      rw [h2] at h
      have h3 : processByte st2 10 = some st1 := by simpa using h
      exact processByte_newline st2 st1 h3

theorem readFastaSequences_eq_foldlM (bytes : List Nat) (a : Alphabet) :
    readFastaSequences (some bytes) a =
      (bytes.foldlM processByte ⟨[], a, false, false⟩).map
        (fun st => ⟨0, st.seqs, st.alphabet⟩) := by
  simp only [readFastaSequences]
  rw [readLoop_eq_foldlM _ _ _ (Nat.lt_succ_self _)]

theorem foldlM_skip_middle (a : Alphabet) (front skip back : List Nat)
    (hfront : endsLine front) (hskip : ∀ c ∈ skip, c = 13 ∨ c = 10) :
    (front ++ skip ++ back).foldlM processByte ⟨[], a, false, false⟩ =
      (front ++ back).foldlM processByte ⟨[], a, false, false⟩ := by
  rw [List.append_assoc, List.foldlM_append, List.foldlM_append]
  cases h : front.foldlM processByte ⟨[], a, false, false⟩ with
  | none => rfl
  | some st =>
    have hst := foldlM_endsLine front hfront _ st rfl h
    show (skip ++ back).foldlM processByte st = back.foldlM processByte st
    rw [List.foldlM_append, foldlM_skip skip st hst hskip]
    rfl

/-- Claim C16 as stated fails: a data line that holds one space contributes the
symbol space. The file with the lines `>a`, `AC`, a space, `GT` gives a sequence
of five indices and an alphabet of five letters; with the third line removed it
gives a sequence of four indices and an alphabet of four letters. -/
theorem space_line_contributes :
    (readFastaSequences (some [62, 97, 10, 65, 67, 10, 32, 10, 71, 84, 10])
        (emptyAlphabet (fun _ => 0) (fun _ => 0))).map
        (fun r => (r.seqs, r.alphabet.alphabetLength)) = some ([[0, 1, 2, 3, 4]], 5) ∧
      (readFastaSequences (some [62, 97, 10, 65, 67, 10, 71, 84, 10])
        (emptyAlphabet (fun _ => 0) (fun _ => 0))).map
        (fun r => (r.seqs, r.alphabet.alphabetLength)) = some ([[0, 1, 2, 3]], 4) := by
  decide

/-- Claim C16, amended: a line that is blank or consists only of carriage returns
contributes no symbols: whatever the alphabet, `readFastaSequences` gives the same
result (return value, sequences and alphabet) for the file and for the file with
that line removed, be the line ended by a line break or by the end of the file. A
space or a tab is a sequence symbol like any other byte. -/
theorem blank_line_removed (a : Alphabet) (front line back : List Nat)
    (hfront : endsLine front) (hline : ∀ c ∈ line, c = 13) :
    readFastaSequences (some (front ++ (line ++ [10]) ++ back)) a =
        readFastaSequences (some (front ++ back)) a ∧
      readFastaSequences (some (front ++ line)) a = readFastaSequences (some front) a := by
  refine ⟨?_, ?_⟩
  · rw [readFastaSequences_eq_foldlM, readFastaSequences_eq_foldlM,
      foldlM_skip_middle a front (line ++ [10]) back hfront]
    intro c hc
    rcases List.mem_append.mp hc with h | h
    · exact Or.inl (hline c h)
    · simp only [List.mem_singleton] at h
      exact Or.inr h
  · have := foldlM_skip_middle a front line [] hfront (fun c hc => Or.inl (hline c hc))
    simp only [List.append_nil] at this
    rw [readFastaSequences_eq_foldlM, readFastaSequences_eq_foldlM, this]

/-- Witness for the amended C16: the blank line with a carriage return between the
data lines AC and GT. -/
theorem blank_line_removed_witness :
    readFastaSequences (some ([62, 97, 10, 65, 67, 10] ++ ([13] ++ [10]) ++ [71, 84, 10]))
        (emptyAlphabet (fun _ => 0) (fun _ => 0)) =
      readFastaSequences (some ([62, 97, 10, 65, 67, 10] ++ [71, 84, 10]))
        (emptyAlphabet (fun _ => 0) (fun _ => 0)) :=
  (blank_line_removed (emptyAlphabet (fun _ => 0) (fun _ => 0)) [62, 97, 10, 65, 67, 10] [13]
    [71, 84, 10] (by intro c hc; simp at hc; exact hc.symm) (by simp)).1

/-! ## Theorems: loading the inputs, size of the summary -/

/-- Claim C20, at the input where the code departs from it: with a query file that
holds the sequence ACGT and a target file that is empty, both calls of
`readFastaSequences` return 0, the second with no sequence at all, and the read of
`(*targetSequences)[0]` that follows is outside the vector. -/
theorem loadInputs_empty_target :
    (readFastaSequences (some [62, 113, 10, 65, 67, 71, 84, 10])
        (emptyAlphabet (fun _ => 0) (fun _ => 0))).map (fun rq => rq.status) = some 0 ∧
      ((readFastaSequences (some [62, 113, 10, 65, 67, 71, 84, 10])
        (emptyAlphabet (fun _ => 0) (fun _ => 0))).bind fun rq =>
          (readFastaSequences (some []) rq.alphabet).map fun rt => (rt.status, rt.seqs)) =
        some (0, []) ∧
      (loadInputs (some [62, 113, 10, 65, 67, 71, 84, 10]) (some [])
        (emptyAlphabet (fun _ => 0) (fun _ => 0))).isNone = true := by
  decide

/-- In a sorted list whose first `n` elements have the maximum `m`, the elements
that are at most `m` are these `n` elements and the later elements equal to `m`. -/
theorem sorted_filter_le_length (L : List Int) (hL : L.Sorted (fun a b => a ≤ b)) (n : Nat)
    (m : Int) (hm : m ∈ L.take n) (hmax : ∀ x ∈ L.take n, x ≤ m) :
    (L.filter (fun x => decide (x ≤ m))).length = (L.take n).length + (L.drop n).count m := by
  have h1 : (L.take n).filter (fun x => decide (x ≤ m)) = L.take n :=
    List.filter_eq_self.mpr (fun x hx => by simpa using hmax x hx)
  have h2 : (L.drop n).filter (fun x => decide (x ≤ m)) =
      (L.drop n).filter (fun x => x == m) := by
    apply List.filter_congr
    intro x hx
    have hge : m ≤ x := hL.rel_of_mem_take_of_mem_drop hm hx
    by_cases hxm : x = m
    · subst hxm; simp
    · have : ¬ (x ≤ m) := by omega
      simp [this, hxm]
  conv_lhs => rw [← List.take_append_drop n L]
  rw [List.filter_append, List.length_append, h1, h2, List.count_eq_countP,
    List.countP_eq_length_filter]

/-- In a sorted list, fewer than `n` elements are below an element `m` found among
the first `n`. -/
theorem sorted_filter_lt_length (L : List Int) (hL : L.Sorted (fun a b => a ≤ b)) (n : Nat)
    (m : Int) (hm : m ∈ L.take n) :
    (L.filter (fun x => decide (x < m))).length < (L.take n).length := by
  have h2 : (L.drop n).filter (fun x => decide (x < m)) = [] := by
    apply List.filter_eq_nil_iff.mpr
    intro x hx
    have hge : m ≤ x := hL.rel_of_mem_take_of_mem_drop hm hx
    simpa using hge
  conv_lhs => rw [← List.take_append_drop n L]
  rw [List.filter_append, List.length_append, h2, List.length_nil, Nat.add_zero]
  exact List.length_filter_lt_length_iff_exists.mpr ⟨m, hm, by simp⟩

/-- The scores of the lines of the summary when the final queue has the maximum
`m ≥ 0`: the valid scores that are at most `m`, in input order. -/
theorem printSummary_lines_scores (scores bestScores : List Int) (m : Int)
    (htop : pqTop bestScores = some m) (hm : 0 ≤ m) :
    ((printSummary scores bestScores).lines).map Prod.snd =
      (validScores scores).filter (fun x => decide (x ≤ m)) := by
  have hlen : bestScores.length > 0 := by
    cases bestScores with
    | nil => simp [pqTop] at htop
    | cons a q => simp
  simp only [printSummary, hlen, if_true, htop, Option.getD_some, validScores,
    List.filter_filter]
  have h := List.filter_map (p := fun s : Int => decide (s ≤ m) && decide (0 ≤ s))
    Prod.snd scores.enum
  rw [List.enum_map_snd] at h
  rw [h]
  congr 1
  apply List.filter_congr
  intro p _
  by_cases h1 : p.2 ≤ m <;> by_cases h2 : 0 ≤ p.2 <;>
    simp [h1, h2] <;> omega

/-- The number of lines of the summary when the final queue has the maximum `m ≥ 0`:
the number of valid scores that are at most `m`. -/
theorem printSummary_lines_length (scores bestScores : List Int) (m : Int)
    (htop : pqTop bestScores = some m) (hm : 0 ≤ m) :
    (printSummary scores bestScores).lines.length =
      ((validScores scores).filter (fun x => decide (x ≤ m))).length := by
  rw [← printSummary_lines_scores scores bestScores m htop hm, List.length_map]

/-- Claim C18 as stated fails: with `-n 2` and no explicit bound, the scores 3, 3, 2
are scores the engine can return under the bounds -1, -1 and 2 handed to it; the
summary header reads `2 best scores:` and three lines follow, for the queries 0, 1
and 2: more than `N = 2` queries are printed, and more than the header says. -/
theorem batchSummary_more_than_N :
    engineRespectsBounds 2 (-1) [3, 3, 2] = true ∧
      (List.range 3).map (boundAt 2 (-1) [3, 3, 2]) = [-1, -1, 2] ∧
      batchSummary 2 (-1) [3, 3, 2] = ⟨some 2, [(0, 3), (1, 3), (2, 2)]⟩ ∧
      ¬ ((batchSummary 2 (-1) [3, 3, 2]).lines.length ≤ 2) := by
  decide

/-- Claim C18, amended: with `numBestSeqs = N > 0`, for every list of scores: when no
score is valid the header is `Scores:` and no line is printed; otherwise the header
reads `<n> best scores:` with `n` the size of the final queue, which is the smaller of
`N` and the number of valid scores, so `n ≤ N`; and with `m` the maximum of the final
queue, the scores printed are the valid scores that are at most `m`, in input order,
and the number of lines printed is `n` plus the number of valid scores equal to
`m` that the queue does not hold: at least `n` lines are printed, fewer than `n` of
them have a score below `m`, and more than `n` lines are printed only when scores tie
with the maximum of the queue. -/
theorem batchSummary_count (numBestSeqs kArg : Int) (hN : 0 < numBestSeqs)
    (scores : List Int) :
    (validScores scores = [] →
      batchSummary numBestSeqs kArg scores = ⟨none, []⟩) ∧
    (validScores scores ≠ [] →
      ∃ (n : Nat) (m : Int),
        (batchSummary numBestSeqs kArg scores).header = some n ∧
        n = (runBatch numBestSeqs kArg scores).bestScores.length ∧
        (n : Int) = min numBestSeqs ((validScores scores).length : Int) ∧
        (n : Int) ≤ numBestSeqs ∧
        pqTop (runBatch numBestSeqs kArg scores).bestScores = some m ∧
        (batchSummary numBestSeqs kArg scores).lines.map Prod.snd =
          (validScores scores).filter (fun x => decide (x ≤ m)) ∧
        (runBatch numBestSeqs kArg scores).bestScores.count m ≤
          (validScores scores).count m ∧
        (batchSummary numBestSeqs kArg scores).lines.length =
          n + ((validScores scores).count m -
            (runBatch numBestSeqs kArg scores).bestScores.count m) ∧
        n ≤ (batchSummary numBestSeqs kArg scores).lines.length ∧
        ((batchSummary numBestSeqs kArg scores).lines.filter
          (fun p => decide (p.2 < m))).length < n) := by
  obtain ⟨N, rfl⟩ := Int.eq_ofNat_of_zero_le (le_of_lt hN)
  have hn : 0 < N := by exact_mod_cast hN
  have hq := runBatch_queue N kArg hn scores
  have hsorted := runBatch_sorted N kArg hn scores
  have hnonneg := runBatch_nonneg N kArg hn scores
  have hlen := runBatch_length N kArg hn scores
  refine ⟨?_, ?_⟩
  · intro hv
    have hw : (runBatch (N : Int) kArg scores).bestScores = [] := by
      apply List.length_eq_zero.mp
      rw [hlen, hv]; simp
    have hlines : ∀ p ∈ scores.enum, ¬ (p.2 > -1) := by
      intro p hp h
      have hmem : p.2 ∈ validScores scores := by
        simp only [validScores, List.mem_filter, decide_eq_true_eq]
        refine ⟨?_, by omega⟩
        have := List.mem_map_of_mem Prod.snd hp
        rwa [List.enum_map_snd] at this
      rw [hv] at hmem
      simp at hmem
    simp only [batchSummary, printSummary, hw, List.length_nil, lt_self_iff_false, if_false,
      gt_iff_lt, true_or, and_true, Summary.mk.injEq, true_and]
    apply List.filter_eq_nil_iff.mpr
    intro p hp
    simpa using hlines p hp
  · intro hv
    have hvl : 0 < (validScores scores).length := List.length_pos.mpr hv
    have hwl : 0 < (runBatch (N : Int) kArg scores).bestScores.length := by
      rw [hlen]; omega
    obtain ⟨m, hm⟩ : ∃ m, pqTop (runBatch (N : Int) kArg scores).bestScores = some m := by
      cases hw : (runBatch (N : Int) kArg scores).bestScores with
      | nil => rw [hw] at hwl; simp at hwl
      | cons a q => exact ⟨a, rfl⟩
    have hmax := pqTop_max _ hsorted m hm
    have hm0 : 0 ≤ m := hnonneg m hmax.1
    have hL : ((validScores scores).insertionSort (fun a b => a ≤ b)).Sorted
        (fun a b => a ≤ b) := List.sorted_insertionSort _ _
    have hperm := List.perm_insertionSort (fun a b : Int => a ≤ b) (validScores scores)
    have hmT : m ∈ ((validScores scores).insertionSort (fun a b => a ≤ b)).take N := by
      have := hmax.1
      rw [hq, List.mem_reverse] at this
      exact this
    have hmaxT : ∀ x ∈ ((validScores scores).insertionSort (fun a b => a ≤ b)).take N,
        x ≤ m := by
      intro x hx
      apply hmax.2
      rw [hq, List.mem_reverse]
      exact hx
    have hTl : (((validScores scores).insertionSort (fun a b => a ≤ b)).take N).length =
        (runBatch (N : Int) kArg scores).bestScores.length := by
      rw [hq, List.length_reverse]; rfl
    have hcW : (runBatch (N : Int) kArg scores).bestScores.count m =
        (((validScores scores).insertionSort (fun a b => a ≤ b)).take N).count m := by
      rw [hq, List.count_reverse]; rfl
    have hcV : (validScores scores).count m =
        (((validScores scores).insertionSort (fun a b => a ≤ b)).take N).count m +
        (((validScores scores).insertionSort (fun a b => a ≤ b)).drop N).count m := by
      rw [← hperm.count_eq m, ← List.count_append, List.take_append_drop]
    have hlines : (batchSummary (N : Int) kArg scores).lines.length =
        (runBatch (N : Int) kArg scores).bestScores.length +
          (((validScores scores).insertionSort (fun a b => a ≤ b)).drop N).count m := by
      rw [batchSummary, printSummary_lines_length scores _ m hm hm0,
        ← (hperm.filter _).length_eq, sorted_filter_le_length _ hL N m hmT hmaxT, hTl]
    have hbelow : ((batchSummary (N : Int) kArg scores).lines.filter
        (fun p => decide (p.2 < m))).length <
        (runBatch (N : Int) kArg scores).bestScores.length := by
      have hmap : (((batchSummary (N : Int) kArg scores).lines.filter
          (fun p => decide (p.2 < m))).map Prod.snd) =
          (((batchSummary (N : Int) kArg scores).lines).map Prod.snd).filter
            (fun x => decide (x < m)) := by
        rw [List.filter_map]; rfl
      have hff : ((validScores scores).filter (fun x => decide (x ≤ m))).filter
          (fun x => decide (x < m)) = (validScores scores).filter (fun x => decide (x < m)) := by
        rw [List.filter_filter]
        apply List.filter_congr
        intro x _
        by_cases h1 : x < m
        · have : x ≤ m := by omega
          simp [h1, this]
        · simp [h1]
      rw [← List.length_map _ Prod.snd, hmap, batchSummary,
        printSummary_lines_scores scores _ m hm hm0, hff, ← (hperm.filter _).length_eq, ← hTl]
      exact sorted_filter_lt_length _ hL N m hmT
    refine ⟨_, m, ?_, rfl, ?_, ?_, hm, printSummary_lines_scores scores _ m hm hm0,
      ?_, ?_, ?_, hbelow⟩
    · simp only [batchSummary, printSummary]
      rw [if_pos hwl]
    · rw [hlen]; simp
    · rw [hlen]; simp
    · rw [hcW, hcV]; omega
    · rw [hlines, hcW, hcV]; omega
    · rw [hlines]; omega

/-- Witness for the amended C18: the batch of the counterexample: the header shows
2, the maximum of the final queue is 3, and three lines are printed, one of them with
a score below 3. -/
theorem batchSummary_count_witness :
    validScores [3, 3, 2] ≠ [] ∧
    ∃ (n : Nat) (m : Int),
      (batchSummary 2 (-1) [3, 3, 2]).header = some n ∧
      n = (runBatch 2 (-1) [3, 3, 2]).bestScores.length ∧
      (n : Int) = min 2 ((validScores [3, 3, 2]).length : Int) ∧
      (n : Int) ≤ 2 ∧
      pqTop (runBatch 2 (-1) [3, 3, 2]).bestScores = some m ∧
      (batchSummary 2 (-1) [3, 3, 2]).lines.map Prod.snd =
        (validScores [3, 3, 2]).filter (fun x => decide (x ≤ m)) ∧
      (runBatch 2 (-1) [3, 3, 2]).bestScores.count m ≤ (validScores [3, 3, 2]).count m ∧
      (batchSummary 2 (-1) [3, 3, 2]).lines.length =
        n + ((validScores [3, 3, 2]).count m - (runBatch 2 (-1) [3, 3, 2]).bestScores.count m) ∧
      n ≤ (batchSummary 2 (-1) [3, 3, 2]).lines.length ∧
      ((batchSummary 2 (-1) [3, 3, 2]).lines.filter (fun p => decide (p.2 < m))).length < n :=
  ⟨by decide, (batchSummary_count 2 (-1) (by decide) [3, 3, 2]).2 (by decide)⟩

/-! ## Theorems: block view -/

theorem seed_foldl :
    ∀ (alignment : List Nat) (p : Int),
      alignment.foldl (fun tIdx a => if a ≠ 1 then tIdx - 1 else tIdx) p =
        p - countNot 1 alignment := by
  intro alignment
  induction alignment with
  | nil => intro p; simp [countNot]
  | cons a rest ih =>
    intro p
    rw [List.foldl_cons, ih, countNot_cons]
    by_cases h : a = 1
    · simp [h]
    · simp only [h, ne_eq, not_false_eq_true, if_true, if_false]
      push_cast
      omega

/-- Under `TraceFits` the cursor `tIdx` starts one below the index of the first
target symbol consumed, and the trace stays within the target from there. -/
theorem traceFits_seed (modeCode : EdlibMode) (position : Int)
    (alignment query target : List Nat)
    (hfit : TraceFits modeCode position alignment query target) :
    seedTIdx modeCode position alignment =
        (firstTarget modeCode position alignment : Int) - 1 ∧
      firstTarget modeCode position alignment + countNot 1 alignment ≤ target.length := by
  obtain ⟨_, ht⟩ := hfit
  unfold seedTIdx firstTarget
  by_cases hm : modeCode = EdlibMode.HW
  · simp only [hm, if_true] at ht ⊢
    rw [seed_foldl]
    have h0 : 0 ≤ position + 1 - (countNot 1 alignment : Int) := by omega
    refine ⟨?_, ?_⟩
    · rw [Int.toNat_of_nonneg h0]; omega
    · have : ((position + 1 - (countNot 1 alignment : Int)).toNat : Int) +
          (countNot 1 alignment : Int) ≤ (target.length : Int) := by
        rw [Int.toNat_of_nonneg h0]; omega
      exact_mod_cast this
  · simp only [hm, if_false] at ht ⊢
    exact ⟨by simp, by omega⟩

/-- The two strings of `printSpectrum` for a trace that fits the sequences. -/
theorem renderedStrings_of_fits (idxToLetter : Nat → Nat) (query target alignment : List Nat)
    (position : Int) (modeCode : EdlibMode)
    (hfit : TraceFits modeCode position alignment query target)
    (hta : ∀ x ∈ target, x < 128) (hqa : ∀ x ∈ query, x < 128) :
    renderedStrings query target alignment position modeCode idxToLetter =
      some (alignedRow 1 idxToLetter target alignment (firstTarget modeCode position alignment),
            alignedRow 2 idxToLetter query alignment 0) := by
  obtain ⟨hseed, hroom⟩ := traceFits_seed modeCode position alignment query target hfit
  have hr := renderLoop_eq idxToLetter query target hta hqa alignment
    (firstTarget modeCode position alignment) 0 hroom (by simpa using hfit.1)
  simp only [Nat.cast_zero, zero_sub] at hr
  rw [renderedStrings, hseed, hr]

theorem rowLoop_eq (sym : Nat) (idxToLetter : Nat → Nat) (seq : List Nat)
    (hseq : ∀ x ∈ seq, x < 128) :
    ∀ (cols : List Nat) (c : Nat), c + countNot sym cols ≤ seq.length →
      rowLoop sym idxToLetter seq cols ((c : Int) - 1) =
        some (withBlockGaps sym cols (alignedRow sym idxToLetter seq cols c),
              ((c + countNot sym cols : Nat) : Int) - 1) := by
  intro cols
  induction cols with
  | nil => intro c _; simp [rowLoop, withBlockGaps, alignedRow, countNot]
  | cons a rest ih =>
    intro c hc
    rw [countNot_cons] at hc ⊢
    by_cases h : a = sym
    · simp only [h, if_true, Nat.zero_add] at hc ⊢
      have hi := ih c hc
      subst h
      simp [rowLoop, alignedRow, withBlockGaps, hi]
    · simp only [h, if_false] at hc ⊢
      have hn := nextLetter_eq idxToLetter seq c (by omega) hseq
      have hi := ih (c + 1) (by omega)
      simp only [Nat.cast_add, Nat.cast_one, add_sub_cancel_right] at hi
      rw [show c + (1 + countNot sym rest) = c + 1 + countNot sym rest by omega]
      simp only [rowLoop, h, if_false, hn, Option.map_some', Option.some_bind, alignedRow,
        withBlockGaps, List.zipWith_cons_cons, Nat.cast_add, Nat.cast_one, sub_add_cancel, hi]

theorem countNot_append (sym : Nat) (xs ys : List Nat) :
    countNot sym (xs ++ ys) = countNot sym xs + countNot sym ys := by
  simp [countNot, List.filter_append]

theorem alignedRow_append (sym : Nat) (idxToLetter : Nat → Nat) (seq : List Nat) :
    ∀ (xs ys : List Nat) (c : Nat),
      alignedRow sym idxToLetter seq (xs ++ ys) c =
        alignedRow sym idxToLetter seq xs c ++
          alignedRow sym idxToLetter seq ys (c + countNot sym xs) := by
  intro xs
  induction xs with
  | nil => intro ys c; simp [alignedRow, countNot]
  | cons a rest ih =>
    intro ys c
    rw [countNot_cons]
    by_cases h : a = sym
    · simp [alignedRow, h, ih]
    · rw [List.cons_append, alignedRow, alignedRow, if_neg h, if_neg h, ih, Nat.add_assoc,
        List.cons_append, if_neg h]

theorem withBlockGaps_append (sym : Nat) (xs ys r1 r2 : List Nat)
    (h : r1.length = xs.length) :
    withBlockGaps sym (xs ++ ys) (r1 ++ r2) =
      withBlockGaps sym xs r1 ++ withBlockGaps sym ys r2 := by
  unfold withBlockGaps
  exact List.zipWith_append _ _ _ _ _ h.symm

theorem withBlockGaps_alignedRow_length (sym : Nat) (idxToLetter : Nat → Nat)
    (seq cols : List Nat) (c : Nat) :
    (withBlockGaps sym cols (alignedRow sym idxToLetter seq cols c)).length = cols.length := by
  simp [withBlockGaps, alignedRow_length]

/-- The outer loop of `printAlignment` never runs out of fuel: with at least
`rest.length` units, one more unit changes nothing. -/
theorem blocksLoop_fuel (idxToLetter : Nat → Nat) (query target : List Nat) :
    ∀ (fuel : Nat) (rest : List Nat) (tIdx qIdx : Int), rest.length ≤ fuel →
      blocksLoop idxToLetter query target fuel rest tIdx qIdx =
        blocksLoop idxToLetter query target (fuel + 1) rest tIdx qIdx := by
  intro fuel
  induction fuel with
  | zero =>
    intro rest tIdx qIdx hlen
    have hnil : rest = [] := List.length_eq_zero.mp (by omega)
    subst hnil
    simp [blocksLoop]
  | succ fuel ih =>
    intro rest tIdx qIdx hlen
    rw [blocksLoop]
    conv_rhs => rw [blocksLoop]
    by_cases hnil : rest = []
    · simp [hnil]
    · have hpos : 0 < rest.length := List.length_pos.mpr hnil
      have hdrop : (rest.drop blockWidth).length ≤ fuel := by
        rw [List.length_drop]
        have : 0 < blockWidth := by decide
        omega
      have hi := fun t q => ih (rest.drop blockWidth) t q hdrop
      simp only [if_neg hnil, hi]

/-- The outer loop of `printAlignment` on columns that fit the sequences: it stays
in range, the rows of its blocks put end to end are the rows of the alignment, and
the last block ends at the last symbols consumed. -/
theorem blocksLoop_spec (idxToLetter : Nat → Nat) (query target : List Nat)
    (hta : ∀ x ∈ target, x < 128) (hqa : ∀ x ∈ query, x < 128) :
    ∀ (fuel : Nat) (rest : List Nat) (t0 q0 : Nat), rest.length ≤ fuel →
      t0 + countNot 1 rest ≤ target.length → q0 + countNot 2 rest ≤ query.length →
      ∃ blocks, blocksLoop idxToLetter query target fuel rest ((t0 : Int) - 1) ((q0 : Int) - 1) =
          some blocks ∧
        (blocks.map (fun b => b.targetRow)).flatten =
          withBlockGaps 1 rest (alignedRow 1 idxToLetter target rest t0) ∧
        (blocks.map (fun b => b.queryRow)).flatten =
          withBlockGaps 2 rest (alignedRow 2 idxToLetter query rest q0) ∧
        (rest = [] → blocks = []) ∧
        (rest ≠ [] → ∃ last, blocks.getLast? = some last ∧
          last.targetEnd = ((t0 + countNot 1 rest : Nat) : Int) - 1 ∧
          last.queryEnd = ((q0 + countNot 2 rest : Nat) : Int) - 1) := by
  intro fuel
  induction fuel with
  | zero =>
    intro rest t0 q0 hlen _ _
    have hnil : rest = [] := List.length_eq_zero.mp (by omega)
    subst hnil
    exact ⟨[], rfl, by simp [withBlockGaps, alignedRow], by simp [withBlockGaps, alignedRow],
      fun _ => rfl, fun h => absurd rfl h⟩
  | succ fuel ih =>
    intro rest t0 q0 hlen ht hq
    by_cases hnil : rest = []
    · subst hnil
      exact ⟨[], by simp [blocksLoop], by simp [withBlockGaps, alignedRow],
        by simp [withBlockGaps, alignedRow], fun _ => rfl, fun h => absurd rfl h⟩
    · have hsplit : rest.take blockWidth ++ rest.drop blockWidth = rest :=
        List.take_append_drop _ _
      have hct : countNot 1 rest =
          countNot 1 (rest.take blockWidth) + countNot 1 (rest.drop blockWidth) := by
        rw [← countNot_append, hsplit]
      have hcq : countNot 2 rest =
          countNot 2 (rest.take blockWidth) + countNot 2 (rest.drop blockWidth) := by
        rw [← countNot_append, hsplit]
      have hpos : 0 < rest.length := List.length_pos.mpr hnil
      have hdrop : (rest.drop blockWidth).length ≤ fuel := by
        rw [List.length_drop]
        have : 0 < blockWidth := by decide
        omega
      have htrow := rowLoop_eq 1 idxToLetter target hta (rest.take blockWidth) t0 (by omega)
      have hqrow := rowLoop_eq 2 idxToLetter query hqa (rest.take blockWidth) q0 (by omega)
      obtain ⟨bs, hbs, hbt, hbq, hbnil, hblast⟩ :=
        ih (rest.drop blockWidth) (t0 + countNot 1 (rest.take blockWidth))
          (q0 + countNot 2 (rest.take blockWidth)) hdrop (by omega) (by omega)
      refine ⟨AlignmentBlock.mk
          (withBlockGaps 1 (rest.take blockWidth)
            (alignedRow 1 idxToLetter target (rest.take blockWidth) t0))
          (max (startIndex 1 (rest.take blockWidth) ((t0 : Int) - 1)) 0)
          (((t0 + countNot 1 (rest.take blockWidth) : Nat) : Int) - 1)
          (withBlockGaps 2 (rest.take blockWidth)
            (alignedRow 2 idxToLetter query (rest.take blockWidth) q0))
          (max (startIndex 2 (rest.take blockWidth) ((q0 : Int) - 1)) 0)
          (((q0 + countNot 2 (rest.take blockWidth) : Nat) : Int) - 1) :: bs,
        ?_, ?_, ?_, fun h => absurd h hnil, fun _ => ?_⟩
      · rw [blocksLoop, if_neg hnil, htrow, hqrow]
        simp only [Option.some_bind, hbs, Option.map_some']
      · rw [List.map_cons, List.flatten_cons, hbt]
        conv_rhs => rw [← hsplit, alignedRow_append]
        rw [withBlockGaps_append _ _ _ _ _ (alignedRow_length _ _ _ _ _)]
      · rw [List.map_cons, List.flatten_cons, hbq]
        conv_rhs => rw [← hsplit, alignedRow_append]
        rw [withBlockGaps_append _ _ _ _ _ (alignedRow_length _ _ _ _ _)]
      · by_cases hd : rest.drop blockWidth = []
        · have hbs0 := hbnil hd
          subst hbs0
          have h1 : countNot 1 (rest.drop blockWidth) = 0 := by rw [hd]; rfl
          have h2 : countNot 2 (rest.drop blockWidth) = 0 := by rw [hd]; rfl
          refine ⟨_, rfl, ?_, ?_⟩
          · show ((t0 + countNot 1 (rest.take blockWidth) : Nat) : Int) - 1 = _
            rw [hct, h1, Nat.add_zero]
          · show ((q0 + countNot 2 (rest.take blockWidth) : Nat) : Int) - 1 = _
            rw [hcq, h2, Nat.add_zero]
        · obtain ⟨last, hl, hlt, hlq⟩ := hblast hd
          have hbsne : bs ≠ [] := by
            intro h
            rw [h] at hl
            simp at hl
          refine ⟨last, ?_, ?_, ?_⟩
          · obtain ⟨b0, bs0, hb0⟩ := List.exists_cons_of_ne_nil hbsne
            rw [hb0, List.getLast?_cons_cons, ← hb0]
            exact hl
          · rw [hlt, hct, Nat.add_assoc]
          · rw [hlq, hcq, Nat.add_assoc]

theorem withBlockGaps_getElem? (sym : Nat) :
    ∀ (alignment row : List Nat) (j a : Nat), row.length = alignment.length →
      alignment[j]? = some a →
      (withBlockGaps sym alignment row)[j]? =
        if a = sym then some blockGapChar else row[j]? := by
  intro alignment
  induction alignment with
  | nil => intro row j a _ h; simp at h
  | cons b rest ih =>
    intro row j a hlen h
    cases row with
    | nil => simp at hlen
    | cons c cs =>
      cases j with
      | zero =>
        simp only [List.getElem?_cons_zero, Option.some.injEq] at h
        subst h
        by_cases hb : b = sym <;> simp [withBlockGaps, hb]
      | succ j =>
        simp only [List.getElem?_cons_succ] at h ⊢
        have := ih cs j a (by simpa using hlen) h
        simpa [withBlockGaps] using this

theorem dropGapColumns_withBlockGaps (sym : Nat) :
    ∀ (alignment row : List Nat),
      dropGapColumns sym alignment (withBlockGaps sym alignment row) =
        dropGapColumns sym alignment row := by
  intro alignment
  induction alignment with
  | nil => intro row; simp [dropGapColumns, withBlockGaps]
  | cons b rest ih =>
    intro row
    cases row with
    | nil => simp [dropGapColumns, withBlockGaps]
    | cons c cs =>
      have := ih cs
      simp only [dropGapColumns, withBlockGaps] at this ⊢
      by_cases hb : b = sym
      · simp [hb, this]
      · simp [hb, this]

/-- The block view of `printAlignment` for a trace that fits the sequences. -/
theorem printAlignment_of_fits (idxToLetter : Nat → Nat) (query target alignment : List Nat)
    (position : Int) (modeCode : EdlibMode)
    (hfit : TraceFits modeCode position alignment query target)
    (hta : ∀ x ∈ target, x < 128) (hqa : ∀ x ∈ query, x < 128) :
    ∃ blocks, printAlignment query target alignment position modeCode idxToLetter =
        some blocks ∧
      (blocks.map (fun b => b.targetRow)).flatten =
        withBlockGaps 1 alignment
          (alignedRow 1 idxToLetter target alignment (firstTarget modeCode position alignment)) ∧
      (blocks.map (fun b => b.queryRow)).flatten =
        withBlockGaps 2 alignment (alignedRow 2 idxToLetter query alignment 0) ∧
      (alignment ≠ [] → ∃ last, blocks.getLast? = some last ∧
        last.targetEnd =
          ((firstTarget modeCode position alignment + countNot 1 alignment : Nat) : Int) - 1 ∧
        last.queryEnd = ((countNot 2 alignment : Nat) : Int) - 1) := by
  obtain ⟨hseed, hroom⟩ := traceFits_seed modeCode position alignment query target hfit
  obtain ⟨blocks, hb, h1, h2, _, h4⟩ :=
    blocksLoop_spec idxToLetter query target hta hqa alignment.length alignment
      (firstTarget modeCode position alignment) 0 (le_refl _) hroom (by simpa using hfit.1)
  simp only [Nat.cast_zero, zero_sub, Nat.zero_add] at hb h4
  exact ⟨blocks, by rw [printAlignment, hseed, hb], h1, h2, h4⟩

/-- Claim C19: when the trace fits the sequences (the number of trace symbols
different from 2 is at most the length of the query; in the modes NW and SHW the
number of symbols different from 1 is at most the length of the target; in mode HW
the end position lies in the target and that number is at most `position + 1`)
and every sequence element is below `alphabetLength ≤ 128`, no read of
`printAlignment` or of `printSpectrum` is out of range. -/
theorem reads_in_bounds (idxToLetter : Nat → Nat) (query target alignment : List Nat)
    (position : Int) (modeCode : EdlibMode) (alphabetLength : Nat) (kmer_size : Int)
    (hfit : TraceFits modeCode position alignment query target)
    (hlen : alphabetLength ≤ 128)
    (hta : ∀ x ∈ target, x < alphabetLength) (hqa : ∀ x ∈ query, x < alphabetLength) :
    (printAlignment query target alignment position modeCode idxToLetter).isSome = true ∧
      (printSpectrum query target alignment position modeCode idxToLetter kmer_size).isSome =
        true := by
  have hta1 : ∀ x ∈ target, x < 128 := fun x hx => lt_of_lt_of_le (hta x hx) hlen
  have hqa1 : ∀ x ∈ query, x < 128 := fun x hx => lt_of_lt_of_le (hqa x hx) hlen
  obtain ⟨blocks, hb, _⟩ :=
    printAlignment_of_fits idxToLetter query target alignment position modeCode hfit hta1 hqa1
  have hr := renderedStrings_of_fits idxToLetter query target alignment position modeCode
    hfit hta1 hqa1
  exact ⟨by rw [hb]; rfl, by rw [printSpectrum, hr]; rfl⟩

/-- Witness for C19: mode HW, the target GGACGT, the query ACG found at the end
position 4 with the all-match trace. -/
theorem reads_in_bounds_witness :
    (printAlignment [0, 1, 2] [2, 2, 0, 1, 2, 3] [0, 0, 0] 4 EdlibMode.HW
        (fun i => [65, 67, 71, 84].getD i 0)).isSome = true ∧
      (printSpectrum [0, 1, 2] [2, 2, 0, 1, 2, 3] [0, 0, 0] 4 EdlibMode.HW
        (fun i => [65, 67, 71, 84].getD i 0) 2).isSome = true :=
  reads_in_bounds (fun i => [65, 67, 71, 84].getD i 0) [0, 1, 2] [2, 2, 0, 1, 2, 3] [0, 0, 0] 4
    EdlibMode.HW 4 2 (by unfold TraceFits; decide) (by decide) (by decide) (by decide)

/-- Claim C12: for a trace that fits the sequences, in every mode, the block view
and the k-mer spectrum rendering agree: the target rows of the blocks of
`printAlignment` put end to end and the target string of `printSpectrum` both
have the length of the trace; at a column whose trace symbol is 1 both show their
gap character; at any other column both show the same character, the letter of the
target symbol that column consumes; likewise the query rows and the query string,
with the trace symbol 2. -/
theorem block_view_agrees (idxToLetter : Nat → Nat) (query target alignment : List Nat)
    (position : Int) (modeCode : EdlibMode)
    (hfit : TraceFits modeCode position alignment query target)
    (hta : ∀ x ∈ target, x < 128) (hqa : ∀ x ∈ query, x < 128) :
    ∃ (blocks : List AlignmentBlock) (r q : List Nat),
      printAlignment query target alignment position modeCode idxToLetter = some blocks ∧
      renderedStrings query target alignment position modeCode idxToLetter = some (r, q) ∧
      ((blocks.map (fun b => b.targetRow)).flatten).length = alignment.length ∧
      r.length = alignment.length ∧
      ((blocks.map (fun b => b.queryRow)).flatten).length = alignment.length ∧
      q.length = alignment.length ∧
      (∀ j a : Nat, alignment[j]? = some a →
        (a = 1 → (blocks.map (fun b => b.targetRow)).flatten[j]? = some blockGapChar ∧
          r[j]? = some gapChar) ∧
        (a ≠ 1 → (blocks.map (fun b => b.targetRow)).flatten[j]? = r[j]? ∧
          r[j]? = some (idxToLetter (target.getD
            (firstTarget modeCode position alignment + countNot 1 (alignment.take j)) 0))) ∧
        (a = 2 → (blocks.map (fun b => b.queryRow)).flatten[j]? = some blockGapChar ∧
          q[j]? = some gapChar) ∧
        (a ≠ 2 → (blocks.map (fun b => b.queryRow)).flatten[j]? = q[j]? ∧
          q[j]? = some (idxToLetter (query.getD (countNot 2 (alignment.take j)) 0)))) := by
  obtain ⟨blocks, hb, h1, h2, _⟩ :=
    printAlignment_of_fits idxToLetter query target alignment position modeCode hfit hta hqa
  have hr := renderedStrings_of_fits idxToLetter query target alignment position modeCode
    hfit hta hqa
  refine ⟨blocks, _, _, hb, hr, ?_, alignedRow_length _ _ _ _ _, ?_, alignedRow_length _ _ _ _ _,
    ?_⟩
  · rw [h1]; exact withBlockGaps_alignedRow_length _ _ _ _ _
  · rw [h2]; exact withBlockGaps_alignedRow_length _ _ _ _ _
  · intro j a hj
    have g1 := withBlockGaps_getElem? 1 alignment
      (alignedRow 1 idxToLetter target alignment (firstTarget modeCode position alignment)) j a
      (alignedRow_length _ _ _ _ _) hj
    have g2 := withBlockGaps_getElem? 2 alignment
      (alignedRow 2 idxToLetter query alignment 0) j a (alignedRow_length _ _ _ _ _) hj
    rw [h1, h2]
    refine ⟨?_, ?_, ?_, ?_⟩
    · intro ha
      subst ha
      exact ⟨by rw [g1, if_pos rfl], alignedRow_gap _ _ _ _ _ j hj⟩
    · intro ha
      exact ⟨by rw [g1, if_neg ha], alignedRow_letter _ _ _ _ _ j a hj ha⟩
    · intro ha
      subst ha
      exact ⟨by rw [g2, if_pos rfl], alignedRow_gap _ _ _ _ _ j hj⟩
    · intro ha
      refine ⟨by rw [g2, if_neg ha], ?_⟩
      simpa using alignedRow_letter 2 idxToLetter query alignment 0 j a hj ha

/-- Witness for C12: mode NW, target ACGT, query AGTT, trace 0 2 0 0 1. -/
theorem block_view_agrees_witness :
    ∃ (blocks : List AlignmentBlock) (r q : List Nat),
      printAlignment [0, 2, 3, 3] [0, 1, 2, 3] [0, 2, 0, 0, 1] 3 EdlibMode.NW
        (fun i => [65, 67, 71, 84].getD i 0) = some blocks ∧
      renderedStrings [0, 2, 3, 3] [0, 1, 2, 3] [0, 2, 0, 0, 1] 3 EdlibMode.NW
        (fun i => [65, 67, 71, 84].getD i 0) = some (r, q) ∧
      (blocks.map (fun b => b.targetRow)).flatten = [65, 67, 71, 84, 95] ∧
      r = [65, 67, 71, 84, 45] ∧
      (blocks.map (fun b => b.queryRow)).flatten = [65, 95, 71, 84, 84] ∧
      q = [65, 45, 71, 84, 84] := by
  obtain ⟨blocks, r, q, hb, hr, _⟩ :=
    block_view_agrees (fun i => [65, 67, 71, 84].getD i 0) [0, 2, 3, 3] [0, 1, 2, 3]
      [0, 2, 0, 0, 1] 3 EdlibMode.NW (by unfold TraceFits; decide) (by decide) (by decide)
  have hb1 : printAlignment [0, 2, 3, 3] [0, 1, 2, 3] [0, 2, 0, 0, 1] 3 EdlibMode.NW
      (fun i => [65, 67, 71, 84].getD i 0) =
      some [⟨[65, 67, 71, 84, 95], 0, 3, [65, 95, 71, 84, 84], 0, 3⟩] := by decide
  have hr1 : renderedStrings [0, 2, 3, 3] [0, 1, 2, 3] [0, 2, 0, 0, 1] 3 EdlibMode.NW
      (fun i => [65, 67, 71, 84].getD i 0) =
      some ([65, 67, 71, 84, 45], [65, 45, 71, 84, 84]) := by decide
  have e1 := Option.some.inj (hb.symm.trans hb1)
  have e2 := Option.some.inj (hr.symm.trans hr1)
  subst e1
  cases e2
  exact ⟨_, _, _, hb, hr, rfl, rfl, rfl, rfl⟩

theorem window_getElem? (idxToLetter : Nat → Nat) (target : List Nat) (s ct i : Nat)
    (hi : i < ct) (hroom : s + ct ≤ target.length) :
    (((target.drop s).take ct).map idxToLetter)[i]? =
      some (idxToLetter (target.getD (s + i) 0)) := by
  have hlt : s + i < target.length := by omega
  rw [List.getElem?_map, List.getElem?_take_of_lt hi, List.getElem?_drop,
    List.getElem?_eq_getElem hlt, List.getD_eq_getElem _ _ hlt]
  rfl

theorem window_length (idxToLetter : Nat → Nat) (target : List Nat) (s ct : Nat)
    (hroom : s + ct ≤ target.length) :
    (((target.drop s).take ct).map idxToLetter).length = ct := by
  rw [List.length_map, List.length_take, List.length_drop]
  omega

/-- Claim C13: in mode HW, for a trace that fits the sequences and the end position
supplied, `printAlignment` and `printSpectrum` start the target cursor at
`position - ct`, `ct` being the number of trace symbols different from 1 (one step
back from `position` per symbol that consumes a target symbol). The target symbols
rendered by both, gap columns left out, are `target[position - ct + 1]`, ...,
`target[position]` in this order, so the first one is `target[position - ct + 1]`
and the last one `target[position]`; and the end coordinate printed for the last
block of the block view is `position`. -/
theorem hw_seed (idxToLetter : Nat → Nat) (query target alignment : List Nat)
    (position : Int)
    (hfit : TraceFits EdlibMode.HW position alignment query target)
    (hta : ∀ x ∈ target, x < 128) (hqa : ∀ x ∈ query, x < 128) :
    seedTIdx EdlibMode.HW position alignment = position - countNot 1 alignment ∧
    ∃ (blocks : List AlignmentBlock) (r q : List Nat),
      printAlignment query target alignment position EdlibMode.HW idxToLetter = some blocks ∧
      renderedStrings query target alignment position EdlibMode.HW idxToLetter = some (r, q) ∧
      dropGapColumns 1 alignment r =
        ((target.drop (position + 1 - countNot 1 alignment).toNat).take
          (countNot 1 alignment)).map idxToLetter ∧
      dropGapColumns 1 alignment (blocks.map (fun b => b.targetRow)).flatten =
        dropGapColumns 1 alignment r ∧
      (1 ≤ countNot 1 alignment →
        (dropGapColumns 1 alignment r).head? =
          some (idxToLetter (target.getD (position + 1 - countNot 1 alignment).toNat 0)) ∧
        (dropGapColumns 1 alignment r).getLast? =
          some (idxToLetter (target.getD position.toNat 0))) ∧
      (alignment ≠ [] →
        ∃ last, blocks.getLast? = some last ∧ last.targetEnd = position) := by
  have hseed : seedTIdx EdlibMode.HW position alignment = position - countNot 1 alignment := by
    simp only [seedTIdx, if_true]
    exact seed_foldl alignment position
  refine ⟨hseed, ?_⟩
  obtain ⟨_, hroom⟩ := traceFits_seed EdlibMode.HW position alignment query target hfit
  obtain ⟨blocks, hb, h1, _, h4⟩ :=
    printAlignment_of_fits idxToLetter query target alignment position EdlibMode.HW hfit hta hqa
  have hr := renderedStrings_of_fits idxToLetter query target alignment position EdlibMode.HW
    hfit hta hqa
  have hfirst : firstTarget EdlibMode.HW position alignment =
      (position + 1 - countNot 1 alignment).toNat := by
    simp [firstTarget]
  have hpos : 0 ≤ position + 1 - (countNot 1 alignment : Int) := by
    have := hfit.2
    simp only [if_true] at this
    omega
  rw [hfirst] at hroom h1 hr h4
  have hdrop := dropGapColumns_alignedRow 1 idxToLetter target alignment
    (position + 1 - countNot 1 alignment).toNat hroom
  refine ⟨blocks, _, _, hb, hr, hdrop, ?_, ?_, ?_⟩
  · rw [h1, dropGapColumns_withBlockGaps]
  · intro hct
    rw [hdrop, List.head?_eq_getElem?, List.getLast?_eq_getElem?,
      window_length _ _ _ _ hroom,
      window_getElem? idxToLetter target _ _ 0 (by omega) hroom,
      window_getElem? idxToLetter target _ _ (countNot 1 alignment - 1) (by omega) hroom]
    refine ⟨by simp, ?_⟩
    have : (position + 1 - (countNot 1 alignment : Int)).toNat + (countNot 1 alignment - 1) =
        position.toNat := by
      have h0 : 0 ≤ position := by omega
      have e1 := Int.toNat_of_nonneg hpos
      have e2 := Int.toNat_of_nonneg h0
      omega
    rw [this]
  · intro hne
    obtain ⟨last, hl, hlt, _⟩ := h4 hne
    refine ⟨last, hl, ?_⟩
    rw [hlt]
    have e1 := Int.toNat_of_nonneg hpos
    push_cast
    omega

/-- Witness for C13: the target GGACGT, the query ACG found at the end position 4
with the all-match trace. -/
theorem hw_seed_witness :
    seedTIdx EdlibMode.HW 4 [0, 0, 0] = 4 - countNot 1 [0, 0, 0] ∧
    ∃ (blocks : List AlignmentBlock) (r q : List Nat),
      printAlignment [0, 1, 2] [2, 2, 0, 1, 2, 3] [0, 0, 0] 4 EdlibMode.HW
        (fun i => [65, 67, 71, 84].getD i 0) = some blocks ∧
      renderedStrings [0, 1, 2] [2, 2, 0, 1, 2, 3] [0, 0, 0] 4 EdlibMode.HW
        (fun i => [65, 67, 71, 84].getD i 0) = some (r, q) ∧
      dropGapColumns 1 [0, 0, 0] r =
        (([2, 2, 0, 1, 2, 3].drop ((4 : Int) + 1 - countNot 1 [0, 0, 0]).toNat).take
          (countNot 1 [0, 0, 0])).map (fun i => [65, 67, 71, 84].getD i 0) ∧
      dropGapColumns 1 [0, 0, 0] (blocks.map (fun b => b.targetRow)).flatten =
        dropGapColumns 1 [0, 0, 0] r ∧
      (1 ≤ countNot 1 [0, 0, 0] →
        (dropGapColumns 1 [0, 0, 0] r).head? =
          some ((fun i => [65, 67, 71, 84].getD i 0)
            (([2, 2, 0, 1, 2, 3] : List Nat).getD
              ((4 : Int) + 1 - countNot 1 [0, 0, 0]).toNat 0)) ∧
        (dropGapColumns 1 [0, 0, 0] r).getLast? =
          some ((fun i => [65, 67, 71, 84].getD i 0)
            (([2, 2, 0, 1, 2, 3] : List Nat).getD (4 : Int).toNat 0))) ∧
      (([0, 0, 0] : List Nat) ≠ [] →
        ∃ last, blocks.getLast? = some last ∧ last.targetEnd = 4) :=
  hw_seed (fun i => [65, 67, 71, 84].getD i 0) [0, 1, 2] [2, 2, 0, 1, 2, 3] [0, 0, 0] 4
    (by unfold TraceFits; decide) (by decide) (by decide)

/-- Claim C14, at the input where the code departs from it: mode NW, a target of
51 symbols, a query of 52 symbols and the trace of 50 matches, one gap in the
target and one match. The second block holds the remaining two columns; its target
row is a gap followed by the letter of `target[50]`, the only target symbol it
shows, and the range printed after it is `(49 - 50)`: 49 is the index of the last
target symbol of the first block. -/
theorem printAlignment_block_start :
    (printAlignment (List.replicate 52 0) (List.replicate 51 0)
        (List.replicate 50 0 ++ [1, 0]) 50 EdlibMode.NW (fun _ => 65)).map
        (fun blocks => blocks.map
          (fun b => (b.targetRow.length, b.targetStart, b.targetEnd, b.queryStart, b.queryEnd))) =
        some [(50, 0, 49, 0, 49), (2, 49, 50, 50, 51)] ∧
      (printAlignment (List.replicate 52 0) (List.replicate 51 0)
        (List.replicate 50 0 ++ [1, 0]) 50 EdlibMode.NW (fun _ => 65)).map
        (fun blocks => (blocks.getLast?.map (fun b => b.targetRow))) =
        some (some [95, 65]) := by
  decide

theorem pushBackLast_nonempty (seqs res : List (List Nat)) (x : Nat)
    (hseqs : ∀ seq ∈ seqs.dropLast, seq ≠ []) (h : pushBackLast seqs x = some res) :
    ∀ seq ∈ res, seq ≠ [] := by
  unfold pushBackLast at h
  cases hl : seqs.getLast? with
  | none => rw [hl] at h; cases h
  | some last =>
    rw [hl] at h
    cases h
    intro seq hseq
    rcases List.mem_append.mp hseq with h1 | h1
    · exact hseqs seq h1
    · simp only [List.mem_singleton] at h1
      subst h1
      simp

theorem processByte_nonempty (st st1 : LoaderState) (c : Nat)
    (hst : ∀ seq ∈ st.seqs, seq ≠ []) (h : processByte st c = some st1) :
    ∀ seq ∈ st1.seqs, seq ≠ [] := by
  unfold processByte at h
  by_cases h1 : st.inHeader = true
  · rw [if_pos h1] at h
    cases h
    by_cases h10 : c = 10
    · rw [if_pos h10]; exact hst
    · rw [if_neg h10]; exact hst
  · rw [if_neg h1] at h
    by_cases h62 : c = 62
    · rw [if_pos h62] at h
      cases h
      exact hst
    · rw [if_neg h62] at h
      by_cases hnl : c = 13 ∨ c = 10
      · rw [if_pos hnl] at h
        cases h
        exact hst
      · rw [if_neg hnl] at h
        cases hb : addLetter st.alphabet c with
        | none => rw [hb] at h; cases h
        | some b =>
          rw [hb] at h
          simp only [Option.some_bind] at h
          cases hp : pushBackLast (if st.inSequence = true then st.seqs else st.seqs ++ [[]])
              (b.letterIdx c) with
          | none => rw [hp] at h; cases h
          | some seqs =>
            rw [hp] at h
            cases h
            refine pushBackLast_nonempty _ _ _ ?_ hp
            by_cases hs : st.inSequence = true
            · simp only [hs, if_true]
              intro seq hseq
              exact hst seq (List.mem_of_mem_dropLast hseq)
            · simp only [hs, Bool.false_eq_true, if_false, List.dropLast_concat]
              exact hst

theorem foldlM_nonempty :
    ∀ (bytes : List Nat) (st st1 : LoaderState), (∀ seq ∈ st.seqs, seq ≠ []) →
      bytes.foldlM processByte st = some st1 → ∀ seq ∈ st1.seqs, seq ≠ [] := by
  intro bytes
  induction bytes with
  | nil =>
    intro st st1 hst h
    cases h
    exact hst
  | cons c cs ih =>
    intro st st1 hst h
    rw [List.foldlM_cons] at h
    cases h1 : processByte st c with
    | none => rw [h1] at h; cases h
    | some st2 =>
      rw [h1] at h
      exact ih st2 st1 (processByte_nonempty st st2 c hst h1) h

/-- Whatever the alphabet and the file, every sequence produced by a call that
stays within the defined behaviour is non-empty. -/
theorem readFastaSequences_nonempty (a : Alphabet) (file : Option (List Nat)) (r : ReadResult)
    (h : readFastaSequences file a = some r) : ∀ seq ∈ r.seqs, seq ≠ [] := by
  cases file with
  | none =>
    cases h
    simp
  | some bytes =>
    rw [readFastaSequences_eq_foldlM] at h
    cases hf : bytes.foldlM processByte ⟨[], a, false, false⟩ with
    | none => rw [hf] at h; cases h
    | some st =>
      rw [hf] at h
      cases h
      exact foldlM_nonempty bytes _ st (by simp) hf
/-- Claim C17: every sequence that `readFastaSequences` produces is non-empty,
whatever the file and the alphabet, as long as the call stays within the defined
behaviour; and for a file with bytes below 128 read against a well-formed alphabet
the call does so and every element of every sequence is an index below the
`alphabetLength` the call leaves. -/
theorem seqs_nonempty_indices (a : Alphabet) (bytes : List Nat) :
    (∀ r, readFastaSequences (some bytes) a = some r → ∀ seq ∈ r.seqs, 1 ≤ seq.length) ∧
    (a.WellFormed → (∀ b ∈ bytes, b < 128) →
      ∃ r, readFastaSequences (some bytes) a = some r ∧
        ∀ seq ∈ r.seqs, 1 ≤ seq.length ∧ ∀ x ∈ seq, x < r.alphabet.alphabetLength) := by
  have hne : ∀ r, readFastaSequences (some bytes) a = some r →
      ∀ seq ∈ r.seqs, 1 ≤ seq.length := by
    intro r hr seq hseq
    exact List.length_pos.mpr (readFastaSequences_nonempty a (some bytes) r hr seq hseq)
  refine ⟨hne, ?_⟩
  intro ha hbytes
  obtain ⟨r, hr, _, hsim⟩ := readFastaSequences_simulates a ha bytes hbytes
  obtain ⟨_, _, _, _, _, hlt, _, _⟩ := hsim
  exact ⟨r, hr, fun seq hseq => ⟨hne r hr seq hseq, fun x hx => hlt seq hseq x hx⟩⟩

/-- Witness for C17: the file with the records AC/GT, an empty record and TTA. -/
theorem seqs_nonempty_indices_witness :
    ∃ r, readFastaSequences
        (some [62, 97, 10, 65, 67, 13, 10, 71, 84, 10, 62, 98, 10, 62, 99, 10, 84, 84, 65])
        (emptyAlphabet (fun _ => 0) (fun _ => 0)) = some r ∧
      ∀ seq ∈ r.seqs, 1 ≤ seq.length ∧ ∀ x ∈ seq, x < r.alphabet.alphabetLength :=
  (seqs_nonempty_indices (emptyAlphabet (fun _ => 0) (fun _ => 0))
    [62, 97, 10, 65, 67, 13, 10, 71, 84, 10, 62, 98, 10, 62, 99, 10, 84, 84, 65]).2
    (emptyAlphabet_wellFormed _ _) (by decide)

/-! ## Theorems: the full window -/

theorem narrowStep_bestScores (numBestSeqs kArg : Int) (hN : 0 < numBestSeqs)
    (st : BatchState) (s : Int) (hs : 0 ≤ s) :
    (narrowStep numBestSeqs kArg st s).bestScores =
      if ((pqPush st.bestScores s).length : Int) > numBestSeqs
      then pqPop (pqPush st.bestScores s) else pqPush st.bestScores s := by
  have hs0 : s ≥ 0 := hs
  have hN0 : numBestSeqs > 0 := hN
  simp only [narrowStep, hN0, hs0, if_true]
  by_cases hgt : ((pqPush st.bestScores s).length : Int) > numBestSeqs
  · simp only [hgt, if_true]
    split
    · split <;> rfl
    · rfl
  · simp only [hgt, if_false]
    split
    · split <;> rfl
    · rfl

theorem pqPop_pqPush_le (a s : Int) (q : List Int)
    (hq : (a :: q).Sorted (fun x y => x ≥ y)) :
    ∀ x ∈ pqPop (pqPush (a :: q) s), x ≤ a := by
  intro x hx
  unfold pqPop pqPush at hx
  rw [List.orderedInsert] at hx
  by_cases hsa : s ≥ a
  · rw [if_pos hsa, List.tail_cons] at hx
    rcases List.mem_cons.mp hx with h | h
    · omega
    · exact List.rel_of_sorted_cons hq x h
  · rw [if_neg hsa, List.tail_cons] at hx
    rcases (List.mem_orderedInsert (fun x y : Int => x ≥ y)).mp hx with h | h
    · omega
    · exact List.rel_of_sorted_cons hq x h

/-- One query after the queue is full: the queue stays full and its maximum does not
grow. -/
theorem runBatch_full_step (n : Nat) (kArg : Int) (hn : 0 < n) (scores : List Int) (s : Int)
    (hfull : (runBatch n kArg scores).bestScores.length = n) :
    (runBatch n kArg (scores ++ [s])).bestScores.length = n ∧
      ∃ m m1, pqTop (runBatch n kArg scores).bestScores = some m ∧
        pqTop (runBatch n kArg (scores ++ [s])).bestScores = some m1 ∧ m1 ≤ m := by
  have hN : (0 : Int) < n := by exact_mod_cast hn
  have hsorted := runBatch_sorted n kArg hn scores
  have hsorted1 := runBatch_sorted n kArg hn (scores ++ [s])
  have hlen1 : (runBatch n kArg (scores ++ [s])).bestScores.length = n := by
    have h0 := runBatch_length n kArg hn scores
    have h1 := runBatch_length n kArg hn (scores ++ [s])
    have hv : (validScores scores).length ≤ (validScores (scores ++ [s])).length := by
      simp only [validScores, List.filter_append, List.length_append]; omega
    omega
  refine ⟨hlen1, ?_⟩
  cases hq : (runBatch n kArg scores).bestScores with
  | nil => rw [hq] at hfull; simp at hfull; omega
  | cons a q =>
    cases hq1 : (runBatch n kArg (scores ++ [s])).bestScores with
    | nil => rw [hq1] at hlen1; simp at hlen1; omega
    | cons a1 q1 =>
      refine ⟨a, a1, rfl, rfl, ?_⟩
      by_cases hs : s < 0
      · rw [runBatch_snoc, narrowStep_invalid _ _ _ _ hs, hq] at hq1
        cases hq1
        exact le_refl _
      · have hb := narrowStep_bestScores n kArg hN (runBatch n kArg scores) s (by omega)
        rw [← runBatch_snoc, hq1, hq] at hb
        have hgt : ((pqPush (a :: q) s).length : Int) > n := by
          rw [pqPush_length, ← hq, hfull]
          push_cast
          omega
        rw [if_pos hgt] at hb
        rw [hq] at hsorted
        exact pqPop_pqPush_le a s q hsorted a1 (by rw [← hb]; exact List.mem_cons_self _ _)

/-- From a full queue on, the queue stays full and its maximum does not grow,
whatever scores follow. -/
theorem runBatch_full_later (n : Nat) (kArg : Int) (hn : 0 < n) (scores : List Int)
    (hfull : (runBatch n kArg scores).bestScores.length = n) :
    ∀ more : List Int,
      (runBatch n kArg (scores ++ more)).bestScores.length = n ∧
        ∃ m m1, pqTop (runBatch n kArg scores).bestScores = some m ∧
          pqTop (runBatch n kArg (scores ++ more)).bestScores = some m1 ∧ m1 ≤ m := by
  intro more
  induction more using List.reverseRecOn with
  | nil =>
    rw [List.append_nil]
    refine ⟨hfull, ?_⟩
    cases hq : (runBatch n kArg scores).bestScores with
    | nil => rw [hq] at hfull; simp at hfull; omega
    | cons a q => exact ⟨a, a, rfl, rfl, le_refl _⟩
  | append_singleton more s ih =>
    obtain ⟨hlen, m, m1, hm, hm1, hle⟩ := ih
    obtain ⟨hlen2, p, p2, hp, hp2, hle2⟩ :=
      runBatch_full_step n kArg hn (scores ++ more) s hlen
    rw [← List.append_assoc]
    refine ⟨hlen2, m, p2, hm, hp2, ?_⟩
    have : p = m1 := Option.some.inj (hp.symm.trans hm1)
    omega

/-- Claim C21: with `numBestSeqs > 0` and whatever scores the engine returns, valid
or sentinel: once the queue `bestScores` holds `numBestSeqs` scores (after the
queries with the scores `scores`), it holds exactly `numBestSeqs` scores after
every later query (after any further scores `more`, and after one more score `s`),
and its maximum, which `top` returns, does not increase from one query to the next
(`m2 ≤ m1`) nor over the rest of the batch (`m1 ≤ m`). -/
theorem window_stays_full (numBestSeqs kArg : Int) (hN : 0 < numBestSeqs)
    (scores more : List Int) (s : Int)
    (hfull : ((runBatch numBestSeqs kArg scores).bestScores.length : Int) = numBestSeqs) :
    ((runBatch numBestSeqs kArg (scores ++ more)).bestScores.length : Int) = numBestSeqs ∧
    ((runBatch numBestSeqs kArg (scores ++ more ++ [s])).bestScores.length : Int) =
      numBestSeqs ∧
    ∃ m m1 m2,
      pqTop (runBatch numBestSeqs kArg scores).bestScores = some m ∧
      pqTop (runBatch numBestSeqs kArg (scores ++ more)).bestScores = some m1 ∧
      pqTop (runBatch numBestSeqs kArg (scores ++ more ++ [s])).bestScores = some m2 ∧
      (∀ x ∈ (runBatch numBestSeqs kArg (scores ++ more)).bestScores, x ≤ m1) ∧
      (∀ x ∈ (runBatch numBestSeqs kArg (scores ++ more ++ [s])).bestScores, x ≤ m2) ∧
      m2 ≤ m1 ∧ m1 ≤ m := by
  obtain ⟨n, rfl⟩ := Int.eq_ofNat_of_zero_le (le_of_lt hN)
  have hn : 0 < n := by exact_mod_cast hN
  have hfull0 : (runBatch n kArg scores).bestScores.length = n := by exact_mod_cast hfull
  obtain ⟨hlen1, m, m1, hm, hm1, hle1⟩ := runBatch_full_later n kArg hn scores hfull0 more
  obtain ⟨hlen2, p, m2, hp, hm2, hle2⟩ :=
    runBatch_full_step n kArg hn (scores ++ more) s hlen1
  have hp1 : p = m1 := Option.some.inj (hp.symm.trans hm1)
  refine ⟨by exact_mod_cast hlen1, by exact_mod_cast hlen2, m, m1, m2, hm, hm1, hm2,
    (pqTop_max _ (runBatch_sorted n kArg hn _) m1 hm1).2,
    (pqTop_max _ (runBatch_sorted n kArg hn _) m2 hm2).2, by omega, hle1⟩

/-- Witness for C21: the best two of the scores 5, 3 fill the queue; the scores
-1, 4, 9 and then 1 follow. -/
theorem window_stays_full_witness :
    ((runBatch 2 (-1) ([5, 3] ++ [-1, 4, 9])).bestScores.length : Int) = 2 ∧
    ((runBatch 2 (-1) ([5, 3] ++ [-1, 4, 9] ++ [1])).bestScores.length : Int) = 2 ∧
    ∃ m m1 m2,
      pqTop (runBatch 2 (-1) [5, 3]).bestScores = some m ∧
      pqTop (runBatch 2 (-1) ([5, 3] ++ [-1, 4, 9])).bestScores = some m1 ∧
      pqTop (runBatch 2 (-1) ([5, 3] ++ [-1, 4, 9] ++ [1])).bestScores = some m2 ∧
      (∀ x ∈ (runBatch 2 (-1) ([5, 3] ++ [-1, 4, 9])).bestScores, x ≤ m1) ∧
      (∀ x ∈ (runBatch 2 (-1) ([5, 3] ++ [-1, 4, 9] ++ [1])).bestScores, x ≤ m2) ∧
      m2 ≤ m1 ∧ m1 ≤ m :=
  window_stays_full 2 (-1) (by decide) [5, 3] [-1, 4, 9] 1 (by decide)
end Kmercomp
